import Mathlib

/-!
Verification of the B-tree implementation in `bTree.h` / `bTree.cpp`
(templates `BNode<T>` and `BTree<T>`).

Embedding conventions:
* the pointer-linked `BNode<T>` becomes a nested inductive type whose
  `child` array is a `List` of child nodes;
* in-place mutation becomes rebuilding of the nodes along the touched path;
* array index arithmetic on `key` / `child` becomes `List.take`, `List.drop`,
  `List.set`, `List.eraseIdx` and friends;
* `throw (BTREE_EXCEPTION)` becomes `Except BTREE_EXCEPTION`; a failing
  `BTree::remove` also yields the (possibly restructured) tree that the
  mutations before the throw left behind;
* the child array of a leaf node is never read by the C++ code (every access
  is guarded by the `leaf` flag), so leaves are embedded with `children = []`
  and child-array writes on leaves are dropped;
* the iterative descent loops (`while` in `insert`, `remove`, `search`) become
  fuel-indexed recursion; the public wrappers pass `height + 1` fuel, which is
  sufficient because every iteration of the C++ loops moves strictly closer to
  the leaves.
-/

namespace BT

/-- `BNode<T>` (bTree.h 21-27): array of keys, leaf flag, array of children. -/
inductive BNode (T : Type) where
  | node (keys : List T) (leaf : Bool) (children : List (BNode T))
deriving Repr

instance {T : Type} : Inhabited (BNode T) := ⟨.node [] true []⟩

mutual
/-- Decidable equality of embedded nodes. -/
def decEqN {T : Type} [DecidableEq T] : (a b : BNode T) → Decidable (a = b)
  | .node ks lf cs, .node ks' lf' cs' =>
      if hks : ks = ks' then
        if hlf : lf = lf' then
          match decEqL cs cs' with
          | isTrue h => isTrue (by rw [hks, hlf, h])
          | isFalse h => isFalse (by intro he; injection he; contradiction)
        else isFalse (by intro he; injection he; contradiction)
      else isFalse (by intro he; injection he; contradiction)

/-- Decidable equality of lists of embedded nodes. -/
def decEqL {T : Type} [DecidableEq T] : (as bs : List (BNode T)) → Decidable (as = bs)
  | [], [] => isTrue rfl
  | [], _ :: _ => isFalse (by intro he; exact absurd he (by simp))
  | _ :: _, [] => isFalse (by intro he; exact absurd he (by simp))
  | a :: as, b :: bs =>
      match decEqN a b, decEqL as bs with
      | isTrue h1, isTrue h2 => isTrue (by rw [h1, h2])
      | isFalse h1, _ => isFalse (by intro he; injection he; contradiction)
      | _, isFalse h2 => isFalse (by intro he; injection he; contradiction)
end

instance {T : Type} [DecidableEq T] : DecidableEq (BNode T) := decEqN

instance {E A : Type} [DecidableEq E] [DecidableEq A] : DecidableEq (Except E A) := by
  intro a b
  cases a <;> cases b <;> first
    | exact isFalse (by intro h; exact Except.noConfusion h)
    | rename_i u v; exact
        if h : u = v then isTrue (by rw [h]) else isFalse (by intro he; injection he; contradiction)

/-- The `key` field. -/
def BNode.keys {T : Type} : BNode T → List T
  | .node ks _ _ => ks

/-- The `leaf` field. -/
def BNode.leaf {T : Type} : BNode T → Bool
  | .node _ lf _ => lf

/-- The `child` field. -/
def BNode.children {T : Type} : BNode T → List (BNode T)
  | .node _ _ cs => cs

/-- `typedef char BTREE_EXCEPTION` (bTree.h 30). -/
abbrev BTREE_EXCEPTION := Char

/-- `#define SEARCH_KEY_NOT_FOUND 's'` (bTree.h 16). -/
def SEARCH_KEY_NOT_FOUND : BTREE_EXCEPTION := 's'

/-- `#define REMOVE_KEY_NOT_FOUND 'r'` (bTree.h 17). -/
def REMOVE_KEY_NOT_FOUND : BTREE_EXCEPTION := 'r'

variable {T : Type} [Inhabited T]

/-- Overwrite `x->child[i]` (pointer assignment in the C++ code). -/
def setChild (x : BNode T) (i : Nat) (c : BNode T) : BNode T :=
  .node x.keys x.leaf (x.children.set i c)

/-- Overwrite `x->key[i]`. -/
def setKey (x : BNode T) (i : Nat) (k : T) : BNode T :=
  .node (x.keys.set i k) x.leaf x.children

/-- `BTree::findIndex` (bTree.cpp 242-249): the number of leading keys `e`
of the node with `lessThan(e, k)`. -/
def findIndex (lt : T → T → Bool) : List T → T → Nat
  | [], _ => 0
  | x :: xs, k => if lt x k then findIndex lt xs k + 1 else 0

/-- Length of the longest suffix of `ks` all of whose elements `e` satisfy
`lt k e`.  This is what the right-to-left scans at bTree.cpp 259 (inside
`nodeInsert`) and bTree.cpp 65-69 (the descent of `insert`) step over. -/
def sufGT (lt : T → T → Bool) (k : T) : List T → Nat
  | [] => 0
  | x :: xs =>
      let n := sufGT lt k xs
      if n = xs.length then (if lt k x then n + 1 else n) else n

/-- The index at which the right-to-left scans stop: the largest `p ≤ ks.length`
such that `p = 0` or `¬ lt k ks[p-1]`. -/
def insertPos (lt : T → T → Bool) (ks : List T) (k : T) : Nat :=
  ks.length - sufGT lt k ks

/-- `BTree::nodeInsert` (bTree.cpp 254-270).  Inserts `k` at `insertPos`,
shifting the larger keys (and the child pointers above the slot) right; the
final write `x->child[index+1] = x->child[index]` leaves a duplicate of
`child[p]` at `p+1`, which every caller overwrites.  Returns the node and the
index (the C++ return value). -/
def nodeInsert (lt : T → T → Bool) : BNode T → T → BNode T × Nat
  | .node ks lf cs, k =>
      let p := insertPos lt ks k
      (.node (ks.take p ++ k :: ks.drop p) lf (cs.take (p + 1) ++ cs.drop p), p)

/-- `BTree::nodeDelete` (bTree.cpp 275-287): deletes `key[i]` (shifting keys
left) and drops `child[i+1]` (shifting children left); returns the deleted
key and the node. -/
def nodeDelete : BNode T → Nat → T × BNode T
  | .node ks lf cs, i => (ks.getD i default, .node (ks.eraseIdx i) lf (cs.eraseIdx (i + 1)))

/-- `BTree::splitChild` (bTree.cpp 293-316).  `x->child[i]` keeps its lower
`t-1` keys (and lower `t` children); a new sibling receives the upper `t-1`
keys (and upper `t` children); the median key is inserted into `x` by
`nodeInsert` and the new sibling is written at `x->child[i+1]`. -/
def splitChild (t : Nat) (lt : T → T → Bool) (x : BNode T) (i : Nat) : BNode T :=
  let y := x.children.getD i default
  let kept := BNode.node (y.keys.take (t - 1)) y.leaf
    (if y.leaf then [] else y.children.take t)
  let moved := BNode.node ((y.keys.drop t).take (t - 1)) y.leaf
    (if y.leaf then [] else (y.children.drop t).take t)
  let median := y.keys.getD (t - 1) default
  let x2 := (nodeInsert lt (setChild x i kept) median).1
  setChild x2 (i + 1) moved

/-- Outcome of `BTree::mergeChildren`: `NEW_ROOT` carries the merged node
(it became the tree's root, bTree.cpp 345-351), `MODIFIED_NOT_ROOT` carries
the updated parent. -/
inductive MergeResult (T : Type) where
  | newRoot (n : BNode T)
  | modified (n : BNode T)
deriving Repr

/-- Outcome of `BTree::fixChildSize` (the three codes at bTree.cpp 19-21),
each carrying the resulting subtree. -/
inductive FixResult (T : Type) where
  | newRoot (n : BNode T)
  | modified (n : BNode T)
  | notModified (n : BNode T)
deriving Repr

/-- Conversion used where `fixChildSize` returns `mergeChildren`'s code. -/
def ofMerge : MergeResult T → FixResult T
  | .newRoot n => .newRoot n
  | .modified n => .modified n

/-- `BTree::mergeChildren` (bTree.cpp 321-354): absorbs `key[i]` and the
whole child `i+1` into child `i`; if that empties the parent, the merged
node becomes the new root. -/
def mergeChildren (x : BNode T) (i : Nat) : MergeResult T :=
  let l := x.children.getD i default
  let r := x.children.getD (i + 1) default
  let sep := (nodeDelete x i).1
  let x1 := (nodeDelete x i).2
  let merged := BNode.node (l.keys ++ sep :: r.keys) l.leaf
    (if l.leaf then [] else l.children ++ r.children)
  let x2 := setChild x1 i merged
  if x2.keys.length = 0 then .newRoot merged else .modified x2

/-- `BTree::fixChildSize` (bTree.cpp 360-404).  If `x->child[i]` has fewer
than `t` keys: borrow from the left sibling if it has `≥ t` keys (with the
pointer-fixing loop of bTree.cpp 374-377), else borrow from the right sibling
if it has `≥ t` keys, else merge with the left sibling when one exists,
else merge with the right sibling. -/
def fixChildSize (t : Nat) (lt : T → T → Bool) (x : BNode T) (i : Nat) : FixResult T :=
  let kid := x.children.getD i default
  if kid.keys.length < t then
    if i ≠ 0 ∧ t ≤ (x.children.getD (i - 1) default).keys.length then
      let lk := x.children.getD (i - 1) default
      let ins := nodeInsert lt kid (x.keys.getD (i - 1) default)
      let kid1 := ins.1
      let p := ins.2
      let lastC := lk.children.getD lk.keys.length default
      let kid2 := BNode.node kid1.keys kid1.leaf
        (if kid1.leaf then [] else lastC :: (kid1.children.take p ++ kid1.children.drop (p + 1)))
      let del := nodeDelete lk (lk.keys.length - 1)
      .modified (BNode.node (x.keys.set (i - 1) del.1) x.leaf
        ((x.children.set (i - 1) del.2).set i kid2))
    else if i ≠ x.keys.length ∧ t ≤ (x.children.getD (i + 1) default).keys.length then
      let rk := x.children.getD (i + 1) default
      let ins := nodeInsert lt kid (x.keys.getD i default)
      let kid1 := ins.1
      let kid2 := BNode.node kid1.keys kid1.leaf
        (if kid1.leaf then [] else kid1.children.set kid1.keys.length (rk.children.getD 0 default))
      let rk1 := BNode.node rk.keys rk.leaf
        (if rk.leaf then [] else rk.children.set 0 (rk.children.getD 1 default))
      let del := nodeDelete rk1 0
      .modified (BNode.node (x.keys.set i del.1) x.leaf
        ((x.children.set i kid2).set (i + 1) del.2))
    else if i ≠ 0 then ofMerge (mergeChildren x (i - 1))
    else ofMerge (mergeChildren x i)
  else .notModified x

/-- Spec description (section 4.1, fix-up step 1), written from the spec's
words: "rotate — move the parent's separating key down into the deficient
child (at its front), move the left sibling's last child pointer across,
move the left sibling's last key up into the parent". -/
def specRotateLeft (x : BNode T) (i : Nat) : BNode T :=
  BNode.node
    (x.keys.set (i - 1)
      ((x.children.getD (i - 1) default).keys.getD
        ((x.children.getD (i - 1) default).keys.length - 1) default))
    x.leaf
    ((x.children.set (i - 1)
        (BNode.node (x.children.getD (i - 1) default).keys.dropLast
          (x.children.getD (i - 1) default).leaf
          (if (x.children.getD (i - 1) default).leaf then []
           else (x.children.getD (i - 1) default).children.dropLast))).set i
      (BNode.node
        (x.keys.getD (i - 1) default :: (x.children.getD i default).keys)
        (x.children.getD i default).leaf
        (if (x.children.getD i default).leaf then []
         else
           (x.children.getD (i - 1) default).children.getD
               ((x.children.getD (i - 1) default).children.length - 1) default ::
             (x.children.getD i default).children)))

/-- Spec description (section 4.1, fix-up step 2): the mirror-image rotation
with the right sibling: its first key goes up into the parent, the parent's
separating key goes to the back of the deficient child, and the right
sibling's first child pointer moves across. -/
def specRotateRight (x : BNode T) (i : Nat) : BNode T :=
  BNode.node
    (x.keys.set i ((x.children.getD (i + 1) default).keys.getD 0 default))
    x.leaf
    ((x.children.set i
        (BNode.node ((x.children.getD i default).keys ++ [x.keys.getD i default])
          (x.children.getD i default).leaf
          (if (x.children.getD i default).leaf then []
           else
             (x.children.getD i default).children ++
               [(x.children.getD (i + 1) default).children.getD 0 default]))).set (i + 1)
      (BNode.node (x.children.getD (i + 1) default).keys.tail
        (x.children.getD (i + 1) default).leaf
        (x.children.getD (i + 1) default).children.tail))

/-- Spec description (section 4.1, fix-up step 3 and glossary "Merge"): the
node obtained by combining children `i` and `i+1` around their separating
parent key. -/
def specMerge (x : BNode T) (i : Nat) : BNode T :=
  BNode.node
    ((x.children.getD i default).keys ++
      x.keys.getD i default :: (x.children.getD (i + 1) default).keys)
    (x.children.getD i default).leaf
    (if (x.children.getD i default).leaf then []
     else (x.children.getD i default).children ++ (x.children.getD (i + 1) default).children)

mutual
/-- Number of levels of a (sub)tree: a single leaf has height 1. -/
def height : BNode T → Nat
  | .node _ _ cs => heightList cs + 1

/-- Maximum height over a list of nodes. -/
def heightList : List (BNode T) → Nat
  | [] => 0
  | c :: cs => max (height c) (heightList cs)
end

/-- The index-shift after an in-descent split (bTree.cpp 74-76):
`if (lessThan(curr->key[index], k)) index++`. -/
def splitIndexAdjust (lt : T → T → Bool) (x' : BNode T) (i : Nat) (k : T) : Nat :=
  if lt (x'.keys.getD i default) k then i + 1 else i

/-- The descent loop of `BTree::insert` (bTree.cpp 61-81): at an internal
node pick the child index with the right-to-left scan, split the child first
if it is full (adjusting the index), descend, and insert at the leaf. -/
def insertAux (t : Nat) (lt : T → T → Bool) : Nat → BNode T → T → Option (BNode T)
  | 0, _, _ => none
  | fuel + 1, x, k =>
      if x.leaf then some (nodeInsert lt x k).1
      else if (x.children.getD (insertPos lt x.keys k) default).keys.length = 2 * t - 1 then
        (insertAux t lt fuel
            ((splitChild t lt x (insertPos lt x.keys k)).children.getD
              (splitIndexAdjust lt (splitChild t lt x (insertPos lt x.keys k))
                (insertPos lt x.keys k) k) default) k).map
          (setChild (splitChild t lt x (insertPos lt x.keys k))
            (splitIndexAdjust lt (splitChild t lt x (insertPos lt x.keys k))
              (insertPos lt x.keys k) k))
      else
        (insertAux t lt fuel (x.children.getD (insertPos lt x.keys k) default) k).map
          (setChild x (insertPos lt x.keys k))

/-- `BTree::insert` (bTree.cpp 47-82): grow a new root and split the old one
if the root is full (the only way the tree gains height), then descend. -/
def insert (t : Nat) (lt : T → T → Bool) (root : BNode T) (k : T) : BNode T :=
  let r := if root.keys.length = 2 * t - 1
    then splitChild t lt (BNode.node [] false [root]) 0
    else root
  (insertAux t lt (height r + 1) r k).getD r

/-- The predecessor loop of `BTree::remove` (bTree.cpp 108-114): walk to the
rightmost leaf, first making sure each node entered has `≥ t` keys, and
delete the last key of that leaf.  Returns the deleted key and the updated
subtree.  (A `NEW_ROOT` answer from `fixChildSize` is impossible here when
the tree invariants hold; it is modelled as continuing in the merged node.) -/
def removeMax (t : Nat) (lt : T → T → Bool) : Nat → BNode T → Option (T × BNode T)
  | 0, _ => none
  | fuel + 1, x =>
      if x.leaf then some (nodeDelete x (x.keys.length - 1))
      else
        match fixChildSize t lt x x.keys.length with
        | .newRoot n => removeMax t lt fuel n
        | .modified x' | .notModified x' =>
            (removeMax t lt fuel (x'.children.getD x'.keys.length default)).map
              (fun vc => (vc.1, setChild x' x'.keys.length vc.2))

/-- The successor loop of `BTree::remove` (bTree.cpp 117-123): mirror image
of `removeMax` at index 0. -/
def removeMin (t : Nat) (lt : T → T → Bool) : Nat → BNode T → Option (T × BNode T)
  | 0, _ => none
  | fuel + 1, x =>
      if x.leaf then some (nodeDelete x 0)
      else
        match fixChildSize t lt x 0 with
        | .newRoot n => removeMin t lt fuel n
        | .modified x' | .notModified x' =>
            (removeMin t lt fuel (x'.children.getD 0 default)).map
              (fun vc => (vc.1, setChild x' 0 vc.2))

/-- The write-back of the loop's continuation in child `j` of `x'`: the C++
loop mutates the child in place, so the parent keeps seeing it through
`x'->child[j]`; a `none` (exhausted fuel) propagates. -/
def writeback (x' : BNode T) (j : Nat) :
    Option (Except (BTREE_EXCEPTION × BNode T) (T × BNode T)) →
    Option (Except (BTREE_EXCEPTION × BNode T) (T × BNode T))
  | none => none
  | some (.ok (w, c')) => some (.ok (w, setChild x' j c'))
  | some (.error (e, c')) => some (.error (e, setChild x' j c'))

/-- The main loop of `BTree::remove` (bTree.cpp 87-153), as a function of the
current subtree.  `some (.ok (v, x'))` is a successful removal returning `v`,
`some (.error (e, x'))` is the throw (the tree mutations made before the
throw are kept in `x'`), `none` is exhausted fuel. -/
def removeAux (t : Nat) (lt : T → T → Bool) :
    Nat → BNode T → T → Option (Except (BTREE_EXCEPTION × BNode T) (T × BNode T))
  | 0, _, _ => none
  | fuel + 1, x, k =>
      if findIndex lt x.keys k < x.keys.length ∧
          lt (x.keys.getD (findIndex lt x.keys k) default) k = false ∧
          lt k (x.keys.getD (findIndex lt x.keys k) default) = false then
        -- the item to be deleted has been found (bTree.cpp 94)
        if x.leaf then
          some (.ok (x.keys.getD (findIndex lt x.keys k) default,
            (nodeDelete x (findIndex lt x.keys k)).2))
        else if t ≤ ((x.children.getD (findIndex lt x.keys k) default).keys).length then
          -- replace with predecessor (bTree.cpp 108-114)
          (removeMax t lt fuel (x.children.getD (findIndex lt x.keys k) default)).map
            (fun vc => .ok (x.keys.getD (findIndex lt x.keys k) default,
              setChild (setKey x (findIndex lt x.keys k) vc.1) (findIndex lt x.keys k) vc.2))
        else if t ≤ ((x.children.getD (findIndex lt x.keys k + 1) default).keys).length then
          -- replace with successor (bTree.cpp 117-123)
          (removeMin t lt fuel (x.children.getD (findIndex lt x.keys k + 1) default)).map
            (fun vc => .ok (x.keys.getD (findIndex lt x.keys k) default,
              setChild (setKey x (findIndex lt x.keys k) vc.1) (findIndex lt x.keys k + 1) vc.2))
        else
          -- merge children and move down the tree (bTree.cpp 126-130)
          match mergeChildren x (findIndex lt x.keys k) with
          | .newRoot n => removeAux t lt fuel n k
          | .modified x' =>
              writeback x' (findIndex lt x.keys k)
                (removeAux t lt fuel (x'.children.getD (findIndex lt x.keys k) default) k)
      else
        -- the item has not been found (bTree.cpp 136)
        if x.leaf then some (.error (REMOVE_KEY_NOT_FOUND, x))
        else
          match fixChildSize t lt x (findIndex lt x.keys k) with
          | .newRoot n => removeAux t lt fuel n k
          | .modified x' | .notModified x' =>
              writeback x' (findIndex lt x'.keys k)
                (removeAux t lt fuel (x'.children.getD (findIndex lt x'.keys k) default) k)

/-- `BTree::remove` (bTree.cpp 87-153), started at the root with enough fuel. -/
def remove (t : Nat) (lt : T → T → Bool) (root : BNode T) (k : T) :
    Except (BTREE_EXCEPTION × BNode T) (T × BNode T) :=
  (removeAux t lt (height root + 1) root k).getD (.error (REMOVE_KEY_NOT_FOUND, root))

/-- The loop of `BTree::search` (bTree.cpp 159-186). -/
def searchAux (lt : T → T → Bool) : Nat → BNode T → T → Option (Option (BNode T × Nat))
  | 0, _, _ => none
  | fuel + 1, x, k =>
      if findIndex lt x.keys k < x.keys.length ∧
          lt k (x.keys.getD (findIndex lt x.keys k) default) = false ∧
          lt (x.keys.getD (findIndex lt x.keys k) default) k = false then
        some (some (x, findIndex lt x.keys k))
      else if x.leaf then some none
      else searchAux lt fuel (x.children.getD (findIndex lt x.keys k) default) k

/-- `BTree::search`: `none` models the `(NULL, 0)` answer. -/
def search (lt : T → T → Bool) (root : BNode T) (k : T) : Option (BNode T × Nat) :=
  (searchAux lt (height root + 1) root k).getD none

/-- `BTree::searchKey` (bTree.cpp 192-199). -/
def searchKey (lt : T → T → Bool) (root : BNode T) (k : T) : Except BTREE_EXCEPTION T :=
  match search lt root k with
  | none => .error SEARCH_KEY_NOT_FOUND
  | some (n, i) => .ok (n.keys.getD i default)

/-- The tree produced by the constructor (bTree.cpp 29-36): one empty leaf. -/
def emptyTree : BNode T := .node [] true []

/-- A call against the public interface. -/
inductive Op (T : Type) where
  | ins (k : T)
  | del (k : T)

/-- The state of the tree after one call (a failing `remove` throws, but the
mutations it made before the throw remain). -/
def applyOp (t : Nat) (lt : T → T → Bool) (x : BNode T) : Op T → BNode T
  | .ins k => insert t lt x k
  | .del k =>
      match remove t lt x k with
      | .ok (_, x') => x'
      | .error (_, x') => x'

/-- The state of the tree after a sequence of calls. -/
def applyOps (t : Nat) (lt : T → T → Bool) (x : BNode T) (ops : List (Op T)) : BNode T :=
  ops.foldl (applyOp t lt) x

mutual
/-- In-order traversal of a subtree. -/
def traverse : BNode T → List T
  | .node ks true _ => ks
  | .node ks false cs => travSeq cs ks

/-- In-order traversal of the child/key interleaving `c₀ k₀ c₁ k₁ … cₘ`. -/
def travSeq : List (BNode T) → List T → List T
  | [], ks => ks
  | c :: _, [] => traverse c
  | c :: cs, k :: ks => traverse c ++ k :: travSeq cs ks
end

/-- The in-order traversal of a key/child interleaving that starts with a
key: `k_j c_{j+1} k_{j+1} … c_m`.  Used to state the traversal
decomposition identities. -/
def travSeqK (ks : List T) (cs : List (BNode T)) : List T :=
  match ks with
  | [] => []
  | k :: ks' => k :: travSeq cs ks'

mutual
/-- Structural soundness of a node viewed as a *non-root* node: key count in
`[t-1, 2t-1]`, a leaf has no children, an internal node has one more child
than keys, and the same holds below. -/
def subOk (t : Nat) : BNode T → Prop
  | .node ks lf cs =>
      (t - 1 ≤ ks.length ∧ ks.length ≤ 2 * t - 1) ∧
      (if lf then cs = [] else cs.length = ks.length + 1) ∧ subAll t cs

/-- `subOk` for every node of a list. -/
def subAll (t : Nat) : List (BNode T) → Prop
  | [] => True
  | c :: cs => subOk t c ∧ subAll t cs
end

/-- Structural soundness of the root: at most `2t-1` keys, an internal root
has at least one key, and every other node is a sound non-root node. -/
def rootOk (t : Nat) : BNode T → Prop
  | .node ks lf cs =>
      ks.length ≤ 2 * t - 1 ∧
      (if lf then cs = [] else 1 ≤ ks.length ∧ cs.length = ks.length + 1) ∧
      subAll t cs

/-- All nodes of a list have height `h`. -/
def heightsAll (h : Nat) : List (BNode T) → Prop
  | [] => True
  | c :: cs => height c = h ∧ heightsAll h cs

mutual
/-- All children of every internal node have equal height (hence all leaves
of the tree are at the same depth). -/
def balanced : BNode T → Prop
  | .node _ lf cs =>
      if lf then True else balancedAll cs ∧ heightsAll (heightList cs) cs

/-- `balanced` for every node of a list. -/
def balancedAll : List (BNode T) → Prop
  | [] => True
  | c :: cs => balanced c ∧ balancedAll cs
end

mutual
/-- Every node of the subtree satisfies `P`. -/
def allNodes (P : BNode T → Prop) : BNode T → Prop
  | .node ks lf cs => P (.node ks lf cs) ∧ allNodesL P cs

/-- Every node of every subtree in the list satisfies `P`. -/
def allNodesL (P : BNode T → Prop) : List (BNode T) → Prop
  | [] => True
  | c :: cs => allNodes P c ∧ allNodesL P cs
end

mutual
/-- All leaves of the subtree are `d` levels below it. -/
def leavesAt (d : Nat) : BNode T → Prop
  | .node _ true _ => d = 0
  | .node _ false cs => 0 < d ∧ leavesAtL (d - 1) cs

def leavesAtL (d : Nat) : List (BNode T) → Prop
  | [] => True
  | c :: cs => leavesAt d c ∧ leavesAtL d cs
end

/-- The first bullet of the size invariant: every non-root node has between
`t-1` and `2t-1` keys. -/
def sizesOk (t : Nat) (x : BNode T) : Prop :=
  allNodesL (fun n => t - 1 ≤ n.keys.length ∧ n.keys.length ≤ 2 * t - 1) x.children

/-- The second bullet: every internal node has one more child than keys. -/
def childCountsOk (x : BNode T) : Prop :=
  allNodes (fun n => n.leaf = false → n.children.length = n.keys.length + 1) x

/-- The third bullet: all leaves are at the same depth. -/
def leavesAligned (x : BNode T) : Prop := ∃ d, leavesAt d x

/-- `a` and `b` are equal under the comparator: neither is less than the other. -/
def eqv (lt : T → T → Bool) (a b : T) : Prop := lt a b = false ∧ lt b a = false

/-- The traversal order: `a` does not exceed `b`. -/
def keyLE (lt : T → T → Bool) (a b : T) : Prop := lt b a = false

/-- A list is non-decreasing under the comparator. -/
def sortedLE (lt : T → T → Bool) (l : List T) : Prop := l.Pairwise (keyLE lt)

/-- The comparison callback contract (spec section 4.1: a strict weak order). -/
structure WeakOrder (lt : T → T → Bool) : Prop where
  irrefl : ∀ a, lt a a = false
  trans : ∀ a b c, lt a b = true → lt b c = true → lt a c = true
  negTrans : ∀ a b c, lt a b = false → lt b c = false → lt a c = false

/-- Number of keys of `l` equal to `k` under the comparator. -/
def cntEq (lt : T → T → Bool) (k : T) (l : List T) : Nat :=
  l.countP (fun a => !lt a k && !lt k a)

/-- Natural order on `Nat` as the comparison callback of the test scenarios. -/
def natlt : Nat → Nat → Bool := Nat.blt

/-- Whether an `Except` holds a success value. -/
def exOk {E A : Type} : Except E A → Bool
  | .ok _ => true
  | .error _ => false

/-- Strictly increasing list under the comparator: consecutive keys compare
strictly, so all stored keys are pairwise non-equivalent. -/
def sortedLT (lt : T → T → Bool) (l : List T) : Prop :=
  l.Pairwise (fun a b => lt a b = true)

/-- The well-formedness invariant maintained by `insert` and `remove` when all
stored keys are pairwise non-equivalent: structural soundness of the root,
balance, and a strictly increasing in-order traversal. -/
def Inv (t : Nat) (lt : T → T → Bool) (x : BNode T) : Prop :=
  rootOk t x ∧ balanced x ∧ sortedLT lt (traverse x)


/-- The lower half that `splitChild` keeps in `x->child[i]` (bTree.cpp
303-312): the first `t-1` keys and, for internal nodes, the first `t`
children of the split node. -/
def splitKept (t : Nat) (y : BNode T) : BNode T :=
  .node (y.keys.take (t - 1)) y.leaf (if y.leaf then [] else y.children.take t)

/-- The upper half that `splitChild` moves into the new sibling (bTree.cpp
298-311): keys `t .. 2t-2` and, for internal nodes, children `t .. 2t-1`. -/
def splitMoved (t : Nat) (y : BNode T) : BNode T :=
  .node ((y.keys.drop t).take (t - 1)) y.leaf
    (if y.leaf then [] else (y.children.drop t).take t)

/-- A duplicate-heavy insert sequence (minimum degree 2): it drives `splitChild`
into the case where `nodeInsert` places the promoted median two slots to the
right of the split child, so `x->child[i+1] = newNode` (bTree.cpp 314-315)
overwrites a live child. -/
def dupIns : List (Op Nat) :=
  [.ins 6, .ins 4, .ins 4, .ins 4, .ins 4, .ins 5, .ins 5, .ins 5, .ins 5, .ins 5, .ins 5,
   .ins 4, .ins 4]

/-- Follow-up operations that drive the tree corrupted by `dupIns` into a
structural invariant violation (a non-root node with zero keys). -/
def dupFollowUp : List (Op Nat) :=
  [.del 4, .del 4, .ins 6, .ins 4, .ins 4, .del 6, .del 6]

end BT

namespace BT

set_option linter.unusedSectionVars false

variable {T : Type} [Inhabited T]

@[simp] theorem keys_node (ks : List T) (lf : Bool) (cs : List (BNode T)) :
    (BNode.node ks lf cs).keys = ks := rfl

@[simp] theorem leaf_node (ks : List T) (lf : Bool) (cs : List (BNode T)) :
    (BNode.node ks lf cs).leaf = lf := rfl

@[simp] theorem children_node (ks : List T) (lf : Bool) (cs : List (BNode T)) :
    (BNode.node ks lf cs).children = cs := rfl

theorem node_eta (x : BNode T) : BNode.node x.keys x.leaf x.children = x := by
  cases x; rfl

/-- C9: `searchKey` wraps `search`: it fails with `KeyNotFound` exactly when
`search` returns no location, and otherwise returns the key stored at the
location `search` found. -/
theorem C9_searchKey_wraps_search (lt : T → T → Bool) (root : BNode T) (k : T) :
    (searchKey lt root k = .error SEARCH_KEY_NOT_FOUND ↔ search lt root k = none) ∧
    (∀ n i, search lt root k = some (n, i) →
      searchKey lt root k = .ok (n.keys.getD i default)) := by
  unfold searchKey
  cases h : search lt root k with
  | none => simp
  | some p =>
      obtain ⟨n, i⟩ := p
      constructor
      · simp
      · intro n' i' h'
        obtain ⟨rfl, rfl⟩ : n = n' ∧ i = i' := by
          constructor <;> injection h' with h'' <;> cases h'' <;> rfl
        rfl

/-- C9 witness at a concrete input. -/
theorem C9_searchKey_wraps_search_witness :
    searchKey natlt (BNode.node [1] true []) 1 =
      .ok ((BNode.node [1] true []).keys.getD 0 default) :=
  (C9_searchKey_wraps_search natlt (BNode.node [1] true []) 1).2 _ 0 rfl




theorem writeback_eq_error (x' : BNode T) (j : Nat) (r) (e) (y : BNode T)
    (h : writeback x' j r = some (.error (e, y))) :
    ∃ c', r = some (.error (e, c')) ∧ y = setChild x' j c' := by
  match r with
  | none => simp [writeback] at h
  | some (.ok (w, c')) => simp [writeback] at h
  | some (.error (e', c')) =>
      simp [writeback] at h
      exact ⟨c', by simp [h.1], h.2.symm⟩

theorem writeback_eq_ok (x' : BNode T) (j : Nat) (r) (w) (y : BNode T)
    (h : writeback x' j r = some (.ok (w, y))) :
    ∃ c', r = some (.ok (w, c')) ∧ y = setChild x' j c' := by
  match r with
  | none => simp [writeback] at h
  | some (.error (e', c')) => simp [writeback] at h
  | some (.ok (w', c')) =>
      simp [writeback] at h
      exact ⟨c', by simp [h.1], h.2.symm⟩

/-- Every failure produced by the `remove` loop carries `REMOVE_KEY_NOT_FOUND`. -/
theorem removeAux_error_val (t : Nat) (lt : T → T → Bool) :
    ∀ fuel (x : BNode T) k e x',
      removeAux t lt fuel x k = some (.error (e, x')) → e = REMOVE_KEY_NOT_FOUND := by
  intro fuel
  induction fuel with
  | zero => intro x k e x' h; simp [removeAux] at h
  | succ fuel ih =>
      intro x k e x' h
      rw [removeAux] at h
      repeat' split at h
      all_goals try (exact ih _ _ _ _ h)
      all_goals try simp_all
      all_goals
        obtain ⟨c', hc', rfl⟩ := writeback_eq_error _ _ _ _ _ h
      all_goals exact ih _ _ _ _ hc'


/-- C10: the key-absent failures of `remove` and `searchKey` carry distinct
exception values: every failure thrown by `remove` is `REMOVE_KEY_NOT_FOUND`
(`'r'`), every failure thrown by `searchKey` is `SEARCH_KEY_NOT_FOUND`
(`'s'`), and the two are different characters, so a caller catching a
`BTREE_EXCEPTION` can tell which of the two operations raised it. -/
theorem C10_distinct_exceptions (t : Nat) (lt : T → T → Bool) :
    (∀ (root : BNode T) k e x', remove t lt root k = .error (e, x') →
        e = REMOVE_KEY_NOT_FOUND) ∧
    (∀ (root : BNode T) k e, searchKey lt root k = .error e →
        e = SEARCH_KEY_NOT_FOUND) ∧
    REMOVE_KEY_NOT_FOUND = 'r' ∧ SEARCH_KEY_NOT_FOUND = 's' ∧
    REMOVE_KEY_NOT_FOUND ≠ SEARCH_KEY_NOT_FOUND := by
  refine ⟨?_, ?_, rfl, rfl, by decide⟩
  · intro root k e x' h
    unfold remove at h
    cases haux : removeAux t lt (height root + 1) root k with
    | none => rw [haux] at h; injection h with h1; injection h1 with h2 h3; exact h2.symm
    | some r =>
        rw [haux] at h
        cases r with
        | ok v => simp at h
        | error p =>
            obtain ⟨e', x''⟩ := p
            obtain ⟨rfl, rfl⟩ : e' = e ∧ x'' = x' := by
              injection h with h1; injection h1 with h2 h3; exact ⟨h2, h3⟩
            exact removeAux_error_val t lt _ _ _ _ _ haux
  · intro root k e h
    unfold searchKey at h
    cases hs : search lt root k with
    | none => rw [hs] at h; injection h with h1; exact h1.symm
    | some p => obtain ⟨n, i⟩ := p; rw [hs] at h; simp at h

/-- C10 witness at a concrete input: removing from and searching an empty
tree fails with `'r'` and `'s'` respectively. -/
theorem C10_distinct_exceptions_witness :
    ('r' : Char) = REMOVE_KEY_NOT_FOUND ∧ ('s' : Char) = SEARCH_KEY_NOT_FOUND :=
  ⟨((C10_distinct_exceptions 2 natlt).1 emptyTree 0 'r' emptyTree rfl).symm,
   ((C10_distinct_exceptions 2 natlt).2.1 emptyTree 0 's' rfl).symm⟩


/-- C7 counterexample: inserting 1..7 in order into an empty tree with
minimum degree 2 yields a tree of height 2 (two levels) whose root holds
TWO keys, not one; the claimed conjunction fails at this input. -/
theorem C7_counterexample :
    ¬ (height (applyOps 2 natlt emptyTree ([1, 2, 3, 4, 5, 6, 7].map Op.ins)) = 2 ∧
       (applyOps 2 natlt emptyTree ([1, 2, 3, 4, 5, 6, 7].map Op.ins)).keys.length = 1) := by
  decide

/-- C7 amended: inserting 1..7 in order (t = 2) produces a tree of height 2
whose root holds exactly two keys. -/
theorem C7_amended_root_two_keys :
    height (applyOps 2 natlt emptyTree ([1, 2, 3, 4, 5, 6, 7].map Op.ins)) = 2 ∧
    (applyOps 2 natlt emptyTree ([1, 2, 3, 4, 5, 6, 7].map Op.ins)).keys.length = 2 := by
  decide


/-- C2 counterexample: on the (reachable) tree with root `[2]` and leaves
`[1]`, `[3]`, removing the absent key 5 does fail with `KeyNotFound`, but the
failed call restructures the tree: the descent's fix-up merges everything into
a single leaf `[1,2,3]`, shrinking the height from 2 to 1, so the tree after
the failed call is not structurally identical to the tree before it. -/
theorem C2_counterexample :
    cntEq natlt 5
        (traverse (applyOps 2 natlt emptyTree [.ins 1, .ins 2, .ins 3, .ins 4, .del 4])) = 0 ∧
    remove 2 natlt (applyOps 2 natlt emptyTree [.ins 1, .ins 2, .ins 3, .ins 4, .del 4]) 5 =
      .error (REMOVE_KEY_NOT_FOUND, BNode.node [1, 2, 3] true []) ∧
    height (applyOps 2 natlt emptyTree [.ins 1, .ins 2, .ins 3, .ins 4, .del 4]) = 2 ∧
    height (BNode.node ([1, 2, 3] : List Nat) true []) = 1 := by
  decide

/-- C6 counterexample: in the (reachable) state with root `[3]` and children
`[3]`, `[3,3,3]`, inserting `k = 3` splits the full child at index 1 and
promotes the median key 3.  Here `k` is not less than the promoted key
(`natlt 3 3 = false`), yet the target child index does not shift right
(it stays 1 instead of becoming 2): the code shifts only when the promoted
key is strictly less than `k`. -/
theorem C6_counterexample :
    ¬ (splitIndexAdjust natlt
          (splitChild 2 natlt
            (applyOps 2 natlt emptyTree (List.replicate 5 (Op.ins 3))) 1) 1 3 = 1 + 1 ↔
       natlt 3
          (((applyOps 2 natlt emptyTree (List.replicate 5 (Op.ins 3))).children.getD 1
              default).keys.getD (2 - 1) default) = false) := by
  decide


theorem sufGT_le_length (lt : T → T → Bool) (k : T) (l : List T) : sufGT lt k l ≤ l.length := by
  induction l with
  | nil => simp [sufGT]
  | cons x xs ih =>
      simp only [sufGT]
      split
      · split
        · simp_all
        · simpa using Nat.le_succ_of_le ih
      · simpa using Nat.le_succ_of_le ih

theorem insertPos_le_length (lt : T → T → Bool) (ks : List T) (k : T) :
    insertPos lt ks k ≤ ks.length := Nat.sub_le _ _

theorem sufGT_all (lt : T → T → Bool) (k : T) (l : List T)
    (h : ∀ e ∈ l, lt k e = true) : sufGT lt k l = l.length := by
  induction l with
  | nil => simp [sufGT]
  | cons x xs ih =>
      have hx := h x (by simp)
      have hxs := ih (fun e he => h e (by simp [he]))
      simp [sufGT, hxs, hx]

theorem sufGT_cons (lt : T → T → Bool) (k x : T) (xs : List T) :
    sufGT lt k (x :: xs) = if sufGT lt k xs = xs.length
      then (if lt k x then sufGT lt k xs + 1 else sufGT lt k xs)
      else sufGT lt k xs := by
  rw [sufGT]

theorem sufGT_append (lt : T → T → Bool) (k : T) (A B : List T)
    (hB : ∀ e ∈ B, lt k e = true)
    (hA : A = [] ∨ lt k (A.getD (A.length - 1) default) = false) :
    sufGT lt k (A ++ B) = B.length := by
  induction A with
  | nil => simpa using sufGT_all lt k B hB
  | cons a rest ih =>
      rcases rest with - | ⟨b, A'⟩
      · have ha : lt k a = false := by
          rcases hA with h | h
          · exact absurd h (by simp)
          · simpa using h
        have hB' := sufGT_all lt k B hB
        rw [show ([a] ++ B) = a :: B from rfl, sufGT_cons]
        simp [hB', ha]
      · have ih' : sufGT lt k (b :: A' ++ B) = B.length := by
          apply ih
          right
          rcases hA with h | h
          · exact absurd h (by simp)
          · simpa using h
        rw [show ((a :: b :: A') ++ B) = a :: (b :: A' ++ B) from rfl, sufGT_cons, ih']
        have hne : ¬ (B.length = (b :: A' ++ B).length) := by
          simp only [List.length_cons, List.length_append]
          omega
        simp [hne]
        intro h
        exact absurd h (by omega)

theorem insertPos_append (lt : T → T → Bool) (k : T) (A B : List T)
    (hB : ∀ e ∈ B, lt k e = true)
    (hA : A = [] ∨ lt k (A.getD (A.length - 1) default) = false) :
    insertPos lt (A ++ B) k = A.length := by
  unfold insertPos
  rw [sufGT_append lt k A B hB hA]
  simp


theorem getD_append_len (A : List T) (b : T) (B : List T) (d : T) :
    (A ++ b :: B).getD A.length d = b := by
  induction A with
  | nil => rfl
  | cons a A ih => simpa using ih

theorem getD_take (l : List T) (i j : Nat) (h : j < i) (d : T) :
    (l.take i).getD j d = l.getD j d := by
  induction l generalizing i j with
  | nil => simp
  | cons a l ih =>
      match i, j with
      | 0, j => exact absurd h (by omega)
      | i + 1, 0 => simp
      | i + 1, j + 1 => simpa using ih i j (by omega)

/-- The keys of `splitChild t lt x i`: the median of the full child, inserted
into `x`'s keys at the scan position. -/
theorem splitChild_keys (t : Nat) (lt : T → T → Bool) (x : BNode T) (i : Nat) :
    (splitChild t lt x i).keys =
      x.keys.take
          (insertPos lt x.keys ((x.children.getD i default).keys.getD (t - 1) default)) ++
        ((x.children.getD i default).keys.getD (t - 1) default) ::
          x.keys.drop
            (insertPos lt x.keys ((x.children.getD i default).keys.getD (t - 1) default)) := by
  cases x with
  | node ks lf cs => simp [splitChild, setChild, nodeInsert]

/-- C6 amended: during `insert`'s descent, after the full child at the scan
index `i` is split, the median key is promoted into slot `i` of the current
node, and the target child index shifts right by one exactly when the
promoted key is strictly less than `k` under the comparator.  The two
hypotheses say that the promoted median sits strictly below the keys at
indices `≥ i` and not below the key at `i - 1`, which is how a sorted node
with its strict separators looks. -/
theorem C6_amended_shift_iff (t : Nat) (lt : T → T → Bool) (x : BNode T) (k : T)
    (hmedB : ∀ e ∈ x.keys.drop (insertPos lt x.keys k),
        lt ((x.children.getD (insertPos lt x.keys k) default).keys.getD (t - 1) default) e
          = true)
    (hmedA : insertPos lt x.keys k = 0 ∨
        lt ((x.children.getD (insertPos lt x.keys k) default).keys.getD (t - 1) default)
          (x.keys.getD (insertPos lt x.keys k - 1) default) = false) :
    (splitChild t lt x (insertPos lt x.keys k)).keys.getD (insertPos lt x.keys k) default =
      (x.children.getD (insertPos lt x.keys k) default).keys.getD (t - 1) default ∧
    (splitIndexAdjust lt (splitChild t lt x (insertPos lt x.keys k)) (insertPos lt x.keys k) k
        = insertPos lt x.keys k + 1 ↔
      lt ((x.children.getD (insertPos lt x.keys k) default).keys.getD (t - 1) default) k
        = true) := by
  set i := insertPos lt x.keys k with hidef
  set m := (x.children.getD i default).keys.getD (t - 1) default with hmdef
  have hiLen : i ≤ x.keys.length := insertPos_le_length lt x.keys k
  have hAlen : (x.keys.take i).length = i := by simpa using hiLen
  have hp : insertPos lt x.keys m = i := by
    conv_lhs => rw [← List.take_append_drop i x.keys]
    rw [insertPos_append lt m _ _ hmedB ?_, hAlen]
    rcases Nat.eq_zero_or_pos i with h0 | h0
    · left
      rw [h0]
      rfl
    · right
      rw [hAlen]
      rcases hmedA with h | h
      · exact absurd h (by omega)
      · rw [getD_take _ _ _ (by omega)]
        exact h
  have hkeys : (splitChild t lt x i).keys = x.keys.take i ++ m :: x.keys.drop i := by
    rw [splitChild_keys, ← hmdef, hp]
  have hslot : (splitChild t lt x i).keys.getD i default = m := by
    have hgl := getD_append_len (x.keys.take i) m (x.keys.drop i) default
    rw [hAlen] at hgl
    rw [hkeys]
    exact hgl
  refine ⟨hslot, ?_⟩
  unfold splitIndexAdjust
  rw [hslot]
  cases hlt : lt m k
  · simp
  · simp

/-- C6 amended witness: splitting the full child `[3,4,5]` of the root `[2]`
while inserting 6 promotes 4 and shifts the target index from 1 to 2, with
`natlt 4 6 = true`. -/
theorem C6_amended_shift_iff_witness :
    splitIndexAdjust natlt
        (splitChild 2 natlt (BNode.node [2] false [BNode.node [1] true [], BNode.node [3, 4, 5] true []]) 1) 1 6
      = 1 + 1 :=
  ((C6_amended_shift_iff 2 natlt
      (BNode.node [2] false [BNode.node [1] true [], BNode.node [3, 4, 5] true []]) 6
      (by decide) (by decide)).2).mpr (by decide)


theorem eraseIdx_last (l : List T) : l.eraseIdx (l.length - 1) = l.dropLast := by
  induction l with
  | nil => rfl
  | cons a l ih =>
      cases l with
      | nil => rfl
      | cons b l' => simpa using ih

theorem set_getD_eraseIdx_tail (l : List (BNode T)) (h : l.length ≠ 1) :
    (l.set 0 (l.getD 1 default)).eraseIdx 1 = l.tail := by
  match l with
  | [] => rfl
  | [a] => exact absurd rfl h
  | a :: b :: rest => rfl

theorem sufGT_eq_zero (lt : T → T → Bool) (k : T) (l : List T)
    (h : lt k (l.getD (l.length - 1) default) = false) (hne : l ≠ []) :
    sufGT lt k l = 0 := by
  have := sufGT_append lt k l [] (by simp) (Or.inr h)
  simpa using this

theorem insertPos_all_gt (lt : T → T → Bool) (k : T) (l : List T)
    (h : ∀ e ∈ l, lt k e = true) : insertPos lt l k = 0 := by
  unfold insertPos
  rw [sufGT_all lt k l h]
  simp

theorem insertPos_last_le (lt : T → T → Bool) (k : T) (l : List T)
    (h : lt k (l.getD (l.length - 1) default) = false) (hne : l ≠ []) :
    insertPos lt l k = l.length := by
  unfold insertPos
  rw [sufGT_eq_zero lt k l h hne]
  simp

theorem heightList_append (a b : List (BNode T)) :
    heightList (a ++ b) = max (heightList a) (heightList b) := by
  induction a with
  | nil => simp [heightList]
  | cons c a ih => simp [heightList, ih, Nat.max_assoc]

theorem heightsAll_getD (h : Nat) (cs : List (BNode T)) (hall : heightsAll h cs)
    (j : Nat) (hj : j < cs.length) : height (cs.getD j default) = h := by
  induction cs generalizing j with
  | nil => simp at hj
  | cons c cs ih =>
      obtain ⟨hc, hcs⟩ := hall
      cases j with
      | zero => simpa using hc
      | succ j => simpa using ih hcs j (by simpa using hj)


@[simp] theorem nodeInsert_fst_keys (lt : T → T → Bool) (x : BNode T) (k : T) :
    (nodeInsert lt x k).1.keys =
      x.keys.take (insertPos lt x.keys k) ++ k :: x.keys.drop (insertPos lt x.keys k) := by
  cases x; rfl

@[simp] theorem nodeInsert_fst_leaf (lt : T → T → Bool) (x : BNode T) (k : T) :
    (nodeInsert lt x k).1.leaf = x.leaf := by
  cases x; rfl

@[simp] theorem nodeInsert_fst_children (lt : T → T → Bool) (x : BNode T) (k : T) :
    (nodeInsert lt x k).1.children =
      x.children.take (insertPos lt x.keys k + 1) ++
        x.children.drop (insertPos lt x.keys k) := by
  cases x; rfl

@[simp] theorem nodeInsert_snd (lt : T → T → Bool) (x : BNode T) (k : T) :
    (nodeInsert lt x k).2 = insertPos lt x.keys k := by
  cases x; rfl

@[simp] theorem nodeDelete_fst (x : BNode T) (i : Nat) :
    (nodeDelete x i).1 = x.keys.getD i default := by
  cases x; rfl

@[simp] theorem nodeDelete_snd_keys (x : BNode T) (i : Nat) :
    (nodeDelete x i).2.keys = x.keys.eraseIdx i := by
  cases x; rfl

@[simp] theorem nodeDelete_snd_leaf (x : BNode T) (i : Nat) :
    (nodeDelete x i).2.leaf = x.leaf := by
  cases x; rfl

@[simp] theorem nodeDelete_snd_children (x : BNode T) (i : Nat) :
    (nodeDelete x i).2.children = x.children.eraseIdx (i + 1) := by
  cases x; rfl

theorem set_append_len (A B : List (BNode T)) (v : BNode T) :
    (A ++ B).set A.length v = A ++ B.set 0 v := by
  induction A with
  | nil => simp
  | cons a A ih => simpa using ih


/-- The borrow-from-left-sibling branch of `fixChildSize` performs exactly
the rotation described by the spec, provided the separating key sits
strictly below the deficient child's keys. -/
theorem fix_borrowLeft (t : Nat) (lt : T → T → Bool) (ks : List T) (cs : List (BNode T)) (i : Nat)
    (ht : 2 ≤ t)
    (hkid : (cs.getD i default).keys.length = t - 1)
    (hkidsh : if (cs.getD i default).leaf = true then (cs.getD i default).children = []
              else (cs.getD i default).children.length = (cs.getD i default).keys.length + 1)
    (h0 : i ≠ 0)
    (hlk : t ≤ (cs.getD (i - 1) default).keys.length)
    (hlksh : if (cs.getD (i - 1) default).leaf = true then (cs.getD (i - 1) default).children = []
             else (cs.getD (i - 1) default).children.length =
               (cs.getD (i - 1) default).keys.length + 1)
    (hstr : ∀ e ∈ (cs.getD i default).keys, lt (ks.getD (i - 1) default) e = true) :
    fixChildSize t lt (BNode.node ks false cs) i =
      .modified (specRotateLeft (BNode.node ks false cs) i) := by
  have hkidlt : (cs.getD i default).keys.length < t := by omega
  have hp := insertPos_all_gt lt (ks.getD (i - 1) default) (cs.getD i default).keys hstr
  rcases hkq : cs.getD i default with ⟨kks, klf, kcs⟩
  rcases hlq : cs.getD (i - 1) default with ⟨lks, llf, lcs⟩
  rw [hkq] at hkid hkidsh hkidlt hp
  rw [hlq] at hlk hlksh
  simp only [keys_node, leaf_node, children_node] at hkid hkidsh hkidlt hp hlk hlksh
  unfold specRotateLeft
  simp only [fixChildSize, children_node, keys_node, leaf_node, hkq, hlq]
  rw [if_pos hkidlt, if_pos ⟨h0, hlk⟩]
  simp only [nodeDelete, nodeDelete_fst, nodeInsert_fst_keys, nodeInsert_fst_leaf,
    nodeInsert_fst_children, nodeInsert_snd, keys_node, leaf_node, children_node, hp,
    List.take_zero, List.drop_zero, List.nil_append, Nat.zero_add]
  have hll : lks.length - 1 + 1 = lks.length := by omega
  rw [hll, eraseIdx_last]
  have hLKch : lcs.eraseIdx lks.length = (if llf = true then [] else lcs.dropLast) := by
    cases llf with
    | true =>
        have h1 : lcs = [] := by simpa using hlksh
        subst h1
        simp
    | false =>
        have hlcs : lcs.length = lks.length + 1 := by simpa using hlksh
        rw [show lks.length = lcs.length - 1 by omega, eraseIdx_last]
        simp
  have hgetD : lcs.getD lks.length default = lcs.getD (lcs.length - 1) default := by
    cases llf with
    | true =>
        have h1 : lcs = [] := by simpa using hlksh
        subst h1
        simp
    | false =>
        have hlcs : lcs.length = lks.length + 1 := by simpa using hlksh
        rw [show lcs.length - 1 = lks.length by omega]
  have hdrop : List.drop 1 (List.take 1 kcs ++ kcs) = kcs := by
    cases kcs <;> simp
  rw [hLKch, hgetD, hdrop]


/-- The borrow-from-right-sibling branch of `fixChildSize` performs exactly
the mirror rotation described by the spec, provided the separating key is
not below the deficient child's last key. -/
theorem fix_borrowRight (t : Nat) (lt : T → T → Bool) (ks : List T) (cs : List (BNode T)) (i : Nat)
    (ht : 2 ≤ t)
    (hkid : (cs.getD i default).keys.length = t - 1)
    (hkidsh : if (cs.getD i default).leaf = true then (cs.getD i default).children = []
              else (cs.getD i default).children.length = (cs.getD i default).keys.length + 1)
    (hnoleft : ¬ (i ≠ 0 ∧ t ≤ (cs.getD (i - 1) default).keys.length))
    (hiK : i ≠ ks.length)
    (hrk : t ≤ (cs.getD (i + 1) default).keys.length)
    (hrksh : if (cs.getD (i + 1) default).leaf = true then (cs.getD (i + 1) default).children = []
             else (cs.getD (i + 1) default).children.length =
               (cs.getD (i + 1) default).keys.length + 1)
    (hsep : lt (ks.getD i default)
        ((cs.getD i default).keys.getD ((cs.getD i default).keys.length - 1) default) = false) :
    fixChildSize t lt (BNode.node ks false cs) i =
      .modified (specRotateRight (BNode.node ks false cs) i) := by
  have hkidlt : (cs.getD i default).keys.length < t := by omega
  have hkne : (cs.getD i default).keys ≠ [] := by
    intro h
    rw [h] at hkid
    simp at hkid
    omega
  have hp := insertPos_last_le lt (ks.getD i default) (cs.getD i default).keys hsep hkne
  rcases hkq : cs.getD i default with ⟨kks, klf, kcs⟩
  rcases hrq : cs.getD (i + 1) default with ⟨rks, rlf, rcs⟩
  rw [hkq] at hkid hkidsh hkidlt hp
  rw [hrq] at hrk hrksh
  simp only [keys_node, leaf_node, children_node] at hkid hkidsh hkidlt hp hrk hrksh
  unfold specRotateRight
  simp only [fixChildSize, children_node, keys_node, leaf_node, hkq, hrq]
  rw [if_pos hkidlt, if_neg hnoleft, if_pos ⟨hiK, hrk⟩]
  simp only [nodeDelete, nodeDelete_fst, nodeInsert_fst_keys, nodeInsert_fst_leaf,
    nodeInsert_fst_children, nodeInsert_snd, keys_node, leaf_node, children_node, hp,
    List.take_length, List.drop_length, Nat.zero_add]
  have hlen2 : (kks ++ [ks.getD i default]).length = kks.length + 1 := by simp
  rw [hlen2]
  have hE0 : rks.eraseIdx 0 = rks.tail := by cases rks <;> rfl
  rw [hE0]
  have hRch : (if rlf = true then [] else rcs.set 0 (rcs.getD 1 default)).eraseIdx 1 = rcs.tail := by
    cases rlf with
    | true =>
        have h1 : rcs = [] := by simpa using hrksh
        subst h1
        simp
    | false =>
        have hrcs : rcs.length = rks.length + 1 := by simpa using hrksh
        simp only [Bool.false_eq_true, if_false]
        exact set_getD_eraseIdx_tail rcs (by omega)
  rw [hRch]
  have hKch : (kcs.take (kks.length + 1) ++ kcs.drop kks.length).set (kks.length + 1)
        (rcs.getD 0 default) =
      (if klf = true then [] else kcs ++ [rcs.getD 0 default]) := by
    cases klf with
    | true =>
        have h1 : kcs = [] := by simpa using hkidsh
        subst h1
        simp
    | false =>
        have hkcs : kcs.length = kks.length + 1 := by simpa using hkidsh
        simp only [Bool.false_eq_true, if_false]
        obtain ⟨w, hw⟩ : ∃ w, kcs.drop kks.length = [w] := by
          apply List.length_eq_one.mp
          rw [List.length_drop]
          omega
        rw [show kks.length + 1 = kcs.length from hkcs.symm, List.take_length, hw,
          set_append_len]
        simp
  simp only [List.take_length, List.drop_length] at hKch
  cases klf with
  | true =>
      have h1 : kcs = [] := by simpa using hkidsh
      subst h1
      simp_all
  | false =>
      have hkcs : kcs.length = kks.length + 1 := by simpa using hkidsh
      simp_all


theorem height_node (ks : List T) (lf : Bool) (cs : List (BNode T)) :
    height (BNode.node ks lf cs) = heightList cs + 1 := by
  rw [height]

theorem height_pos (x : BNode T) : 1 ≤ height x := by
  cases x
  rw [height_node]
  omega

/-- The merged node of the spec sits exactly one level below its parent. -/
theorem specMerge_height (ks : List T) (cs : List (BNode T)) (j : Nat)
    (hbal : balanced (BNode.node ks false cs))
    (hj1 : j + 1 < cs.length)
    (hlsh : (cs.getD j default).leaf = true → (cs.getD j default).children = []) :
    height (specMerge (BNode.node ks false cs) j) + 1 = height (BNode.node ks false cs) := by
  have hb : heightsAll (heightList cs) cs := by
    rw [balanced] at hbal
    simpa using hbal.2
  have hl := heightsAll_getD (heightList cs) cs hb j (by omega)
  unfold specMerge
  simp only [children_node, keys_node]
  cases hlf : (cs.getD j default).leaf with
  | true =>
      rw [height_node, height_node]
      have h1 : height (cs.getD j default) = 1 := by
        cases hq : cs.getD j default with
        | node a b c =>
            rw [hq] at hlsh hlf
            simp only [children_node, leaf_node] at hlsh hlf
            rw [height_node, hlsh hlf]
            simp [heightList]
      simp only [hlf, if_true, heightList]
      omega
  | false =>
      rw [height_node, height_node]
      simp only [hlf, Bool.false_eq_true, if_false]
      rw [heightList_append]
      have hr := heightsAll_getD (heightList cs) cs hb (j + 1) hj1
      have hLl : heightList (cs.getD j default).children + 1 = heightList cs := by
        cases hq : cs.getD j default with
        | node a b c =>
            rw [hq, height_node] at hl
            simpa using hl
      have hRr : heightList (cs.getD (j + 1) default).children + 1 = heightList cs := by
        cases hq : cs.getD (j + 1) default with
        | node a b c =>
            rw [hq, height_node] at hr
            simpa using hr
      omega


/-- When neither sibling can spare a key and a left sibling exists, the
fix-up merges the deficient child into its left sibling around the
separating key; the parent loses that key (becoming the new root's
replacement when it empties). -/
theorem fix_mergeLeft (t : Nat) (lt : T → T → Bool) (ks : List T) (cs : List (BNode T)) (i : Nat)
    (hkid : (cs.getD i default).keys.length < t)
    (hnoleft : ¬ (i ≠ 0 ∧ t ≤ (cs.getD (i - 1) default).keys.length))
    (hnoright : ¬ (i ≠ ks.length ∧ t ≤ (cs.getD (i + 1) default).keys.length))
    (h0 : i ≠ 0)
    (hi : i ≤ ks.length) :
    (1 < ks.length →
      fixChildSize t lt (BNode.node ks false cs) i =
        .modified (BNode.node (ks.eraseIdx (i - 1)) false
          ((cs.eraseIdx i).set (i - 1) (specMerge (BNode.node ks false cs) (i - 1))))) ∧
    (ks.length = 1 →
      fixChildSize t lt (BNode.node ks false cs) i =
        .newRoot (specMerge (BNode.node ks false cs) (i - 1))) := by
  have hidx : i - 1 + 1 = i := by omega
  have hbody : fixChildSize t lt (BNode.node ks false cs) i =
      ofMerge (mergeChildren (BNode.node ks false cs) (i - 1)) := by
    simp only [fixChildSize, children_node, keys_node, leaf_node]
    rw [if_pos hkid, if_neg hnoleft, if_neg hnoright, if_pos h0]
  have hmerge : mergeChildren (BNode.node ks false cs) (i - 1) =
      (if (ks.eraseIdx (i - 1)).length = 0
        then MergeResult.newRoot (specMerge (BNode.node ks false cs) (i - 1))
        else MergeResult.modified (BNode.node (ks.eraseIdx (i - 1)) false
          ((cs.eraseIdx i).set (i - 1) (specMerge (BNode.node ks false cs) (i - 1))))) := by
    simp only [mergeChildren, nodeDelete_fst, nodeDelete_snd_keys, nodeDelete_snd_leaf,
      nodeDelete_snd_children, setChild, children_node, keys_node, leaf_node, nodeDelete,
      specMerge, hidx]
  have hlen : (ks.eraseIdx (i - 1)).length = ks.length - 1 := by
    rw [List.length_eraseIdx]
    simp only [if_pos (show i - 1 < ks.length by omega)]
  constructor
  · intro hgt
    rw [hbody, hmerge, if_neg (by omega)]
    rfl
  · intro heq
    rw [hbody, hmerge, if_pos (by omega)]
    rfl

/-- When neither sibling can spare a key and there is no left sibling
(`i = 0`), the fix-up merges the deficient child with its right sibling. -/
theorem fix_mergeRight (t : Nat) (lt : T → T → Bool) (ks : List T) (cs : List (BNode T))
    (hkid : (cs.getD 0 default).keys.length < t)
    (hnoright : ¬ (0 ≠ ks.length ∧ t ≤ (cs.getD 1 default).keys.length))
    (hks : 1 ≤ ks.length) :
    (1 < ks.length →
      fixChildSize t lt (BNode.node ks false cs) 0 =
        .modified (BNode.node (ks.eraseIdx 0) false
          ((cs.eraseIdx 1).set 0 (specMerge (BNode.node ks false cs) 0)))) ∧
    (ks.length = 1 →
      fixChildSize t lt (BNode.node ks false cs) 0 =
        .newRoot (specMerge (BNode.node ks false cs) 0)) := by
  have hbody : fixChildSize t lt (BNode.node ks false cs) 0 =
      ofMerge (mergeChildren (BNode.node ks false cs) 0) := by
    simp only [fixChildSize, children_node, keys_node, leaf_node]
    rw [if_pos hkid, if_neg (by simp), if_neg hnoright, if_neg (by simp)]
  have hmerge : mergeChildren (BNode.node ks false cs) 0 =
      (if (ks.eraseIdx 0).length = 0
        then MergeResult.newRoot (specMerge (BNode.node ks false cs) 0)
        else MergeResult.modified (BNode.node (ks.eraseIdx 0) false
          ((cs.eraseIdx 1).set 0 (specMerge (BNode.node ks false cs) 0)))) := by
    simp only [mergeChildren, nodeDelete_fst, nodeDelete_snd_keys, nodeDelete_snd_leaf,
      nodeDelete_snd_children, setChild, children_node, keys_node, leaf_node, nodeDelete,
      specMerge]
  have hlen : (ks.eraseIdx 0).length = ks.length - 1 := by
    rw [List.length_eraseIdx]
    simp only [if_pos (show 0 < ks.length by omega)]
  constructor
  · intro hgt
    rw [hbody, hmerge, if_neg (by omega)]
    rfl
  · intro heq
    rw [hbody, hmerge, if_pos (by omega)]
    rfl


/-- C5: the deletion fix-up, applied to a child with exactly `t-1` keys:
if the left sibling has `≥ t` keys it rotates the parent's separating key
down into the deficient child's front, the left sibling's last child across,
and the left sibling's last key up into the parent; else if the right
sibling has `≥ t` keys it does the symmetric rotation; otherwise it merges
the deficient child with a sibling (preferring the left one when it exists)
absorbing the separating parent key; and when that merge empties the parent
the merged node is returned as the new root, one level below the old parent
(the rotation conjuncts carry the strict-separation hypotheses under which
the B-tree's key order places the borrowed key at the child's front or
back). -/
theorem C5_fixChildSize_spec (t : Nat) (lt : T → T → Bool) (ks : List T) (cs : List (BNode T))
    (i : Nat) (ht : 2 ≤ t) (hcs : cs.length = ks.length + 1) (hks : 1 ≤ ks.length)
    (hi : i ≤ ks.length)
    (hkid : (cs.getD i default).keys.length = t - 1)
    (hkidsh : if (cs.getD i default).leaf = true then (cs.getD i default).children = []
              else (cs.getD i default).children.length = (cs.getD i default).keys.length + 1) :
    ((i ≠ 0 → t ≤ (cs.getD (i - 1) default).keys.length →
      (if (cs.getD (i - 1) default).leaf = true then (cs.getD (i - 1) default).children = []
       else (cs.getD (i - 1) default).children.length =
         (cs.getD (i - 1) default).keys.length + 1) →
      (∀ e ∈ (cs.getD i default).keys, lt (ks.getD (i - 1) default) e = true) →
      fixChildSize t lt (BNode.node ks false cs) i =
        .modified (specRotateLeft (BNode.node ks false cs) i))) ∧
    (¬ (i ≠ 0 ∧ t ≤ (cs.getD (i - 1) default).keys.length) →
      i ≠ ks.length → t ≤ (cs.getD (i + 1) default).keys.length →
      (if (cs.getD (i + 1) default).leaf = true then (cs.getD (i + 1) default).children = []
       else (cs.getD (i + 1) default).children.length =
         (cs.getD (i + 1) default).keys.length + 1) →
      lt (ks.getD i default)
        ((cs.getD i default).keys.getD ((cs.getD i default).keys.length - 1) default) = false →
      fixChildSize t lt (BNode.node ks false cs) i =
        .modified (specRotateRight (BNode.node ks false cs) i)) ∧
    (¬ (i ≠ 0 ∧ t ≤ (cs.getD (i - 1) default).keys.length) →
      ¬ (i ≠ ks.length ∧ t ≤ (cs.getD (i + 1) default).keys.length) →
      i ≠ 0 →
      (1 < ks.length →
        fixChildSize t lt (BNode.node ks false cs) i =
          .modified (BNode.node (ks.eraseIdx (i - 1)) false
            ((cs.eraseIdx i).set (i - 1) (specMerge (BNode.node ks false cs) (i - 1))))) ∧
      (ks.length = 1 →
        fixChildSize t lt (BNode.node ks false cs) i =
          .newRoot (specMerge (BNode.node ks false cs) (i - 1)) ∧
        (balanced (BNode.node ks false cs) →
          ((cs.getD (i - 1) default).leaf = true → (cs.getD (i - 1) default).children = []) →
          height (specMerge (BNode.node ks false cs) (i - 1)) + 1 =
            height (BNode.node ks false cs)))) ∧
    (¬ (i ≠ 0 ∧ t ≤ (cs.getD (i - 1) default).keys.length) →
      ¬ (i ≠ ks.length ∧ t ≤ (cs.getD (i + 1) default).keys.length) →
      i = 0 →
      (1 < ks.length →
        fixChildSize t lt (BNode.node ks false cs) i =
          .modified (BNode.node (ks.eraseIdx 0) false
            ((cs.eraseIdx 1).set 0 (specMerge (BNode.node ks false cs) 0)))) ∧
      (ks.length = 1 →
        fixChildSize t lt (BNode.node ks false cs) i =
          .newRoot (specMerge (BNode.node ks false cs) 0) ∧
        (balanced (BNode.node ks false cs) →
          height (specMerge (BNode.node ks false cs) 0) + 1 =
            height (BNode.node ks false cs)))) := by
  have hlt : (cs.getD i default).keys.length < t := by omega
  refine ⟨?_, ?_, ?_, ?_⟩
  · intro h0 hlk hlksh hstr
    exact fix_borrowLeft t lt ks cs i ht hkid hkidsh h0 hlk hlksh hstr
  · intro hnoleft hiK hrk hrksh hsep
    exact fix_borrowRight t lt ks cs i ht hkid hkidsh hnoleft hiK hrk hrksh hsep
  · intro hnoleft hnoright h0
    obtain ⟨hmod, hroot⟩ := fix_mergeLeft t lt ks cs i hlt hnoleft hnoright h0 hi
    refine ⟨hmod, fun h1 => ⟨hroot h1, fun hbal hlsh => ?_⟩⟩
    exact specMerge_height ks cs (i - 1) hbal (by omega) hlsh
  · intro hnoleft hnoright h0
    subst h0
    obtain ⟨hmod, hroot⟩ := fix_mergeRight t lt ks cs hlt hnoright hks
    refine ⟨hmod, fun h1 => ⟨hroot h1, fun hbal => ?_⟩⟩
    apply specMerge_height ks cs 0 hbal (by omega)
    intro hlf
    rw [if_pos hlf] at hkidsh
    exact hkidsh

/-- C5 witness: a concrete left-sibling rotation at `t = 2`. -/
theorem C5_fixChildSize_spec_witness :
    fixChildSize 2 natlt
        (BNode.node [5] false [BNode.node [1, 2] true [], BNode.node [7] true []]) 1 =
      .modified (specRotateLeft
        (BNode.node [5] false [BNode.node [1, 2] true [], BNode.node [7] true []]) 1) :=
  (C5_fixChildSize_spec 2 natlt [5] [BNode.node [1, 2] true [], BNode.node [7] true []] 1
      (by decide) (by decide) (by decide) (by decide) (by decide) (by decide)).1
    (by decide) (by decide) (by decide) (by decide)


theorem WeakOrder.asym {lt : T → T → Bool} (W : WeakOrder lt) {a b : T}
    (h : lt a b = true) : lt b a = false := by
  by_contra hc
  have hba : lt b a = true := by
    cases hba : lt b a
    · exact absurd hba hc
    · rfl
  have := W.trans a b a h hba
  rw [W.irrefl] at this
  exact Bool.noConfusion this

theorem eqv_refl {lt : T → T → Bool} (W : WeakOrder lt) (a : T) : eqv lt a a :=
  ⟨W.irrefl a, W.irrefl a⟩

theorem eqv_symm {lt : T → T → Bool} {a b : T} (h : eqv lt a b) : eqv lt b a :=
  ⟨h.2, h.1⟩

theorem eqv_trans {lt : T → T → Bool} (W : WeakOrder lt) {a b c : T}
    (h1 : eqv lt a b) (h2 : eqv lt b c) : eqv lt a c :=
  ⟨W.negTrans a b c h1.1 h2.1, W.negTrans c b a h2.2 h1.2⟩

theorem keyLE_trans {lt : T → T → Bool} (W : WeakOrder lt) {a b c : T}
    (h1 : keyLE lt a b) (h2 : keyLE lt b c) : keyLE lt a c :=
  W.negTrans c b a h2 h1

theorem keyLE_of_lt {lt : T → T → Bool} (W : WeakOrder lt) {a b : T}
    (h : lt a b = true) : keyLE lt a b := W.asym h

theorem keyLE_congr {lt : T → T → Bool} (W : WeakOrder lt) {a b a' b' : T}
    (ha : eqv lt a a') (hb : eqv lt b b') (h : keyLE lt a b) : keyLE lt a' b' := by
  have h1 : keyLE lt a' a := ha.1
  have h2 : keyLE lt b b' := hb.2
  exact keyLE_trans W (keyLE_trans W h1 h) h2

/-- Pointwise equivalence of key lists under the comparator. -/
def EqvL (lt : T → T → Bool) (l1 l2 : List T) : Prop :=
  List.Forall₂ (eqv lt) l1 l2

theorem EqvL_refl {lt : T → T → Bool} (W : WeakOrder lt) (l : List T) : EqvL lt l l := by
  induction l with
  | nil => exact List.Forall₂.nil
  | cons a l ih => exact List.Forall₂.cons (eqv_refl W a) ih

theorem EqvL_symm {lt : T → T → Bool} {l1 l2 : List T} (h : EqvL lt l1 l2) :
    EqvL lt l2 l1 := by
  induction h with
  | nil => exact List.Forall₂.nil
  | cons hab _ ih => exact List.Forall₂.cons (eqv_symm hab) ih

theorem EqvL_trans {lt : T → T → Bool} (W : WeakOrder lt) {l1 l2 l3 : List T}
    (h1 : EqvL lt l1 l2) (h2 : EqvL lt l2 l3) : EqvL lt l1 l3 := by
  induction h1 generalizing l3 with
  | nil => cases h2; exact List.Forall₂.nil
  | cons hab htail ih =>
      cases h2 with
      | cons hbc htail2 => exact List.Forall₂.cons (eqv_trans W hab hbc) (ih htail2)

theorem EqvL_append {lt : T → T → Bool} {a1 a2 b1 b2 : List T}
    (h1 : EqvL lt a1 b1) (h2 : EqvL lt a2 b2) : EqvL lt (a1 ++ a2) (b1 ++ b2) := by
  induction h1 with
  | nil => simpa using h2
  | cons hab _ ih => exact List.Forall₂.cons hab ih

theorem EqvL_length {lt : T → T → Bool} {l1 l2 : List T} (h : EqvL lt l1 l2) :
    l1.length = l2.length := List.Forall₂.length_eq h

/-- `Pairwise keyLE` transports along pointwise equivalence. -/
theorem sortedLE_of_EqvL {lt : T → T → Bool} (W : WeakOrder lt) {l1 l2 : List T}
    (he : EqvL lt l1 l2) (hs : sortedLE lt l1) : sortedLE lt l2 := by
  induction he with
  | nil => exact List.Pairwise.nil
  | cons hab htail ih =>
      rename_i a b l1' l2'
      rw [sortedLE, List.pairwise_cons] at hs ⊢
      refine ⟨?_, ih hs.2⟩
      intro b' hb'
      obtain ⟨a', ha', haa'⟩ : ∃ a' ∈ l1', eqv lt a' b' := by
        clear ih hs
        induction htail with
        | nil => simp at hb'
        | cons h2 h3 ih2 =>
            rename_i u v l1'' l2''
            rcases List.mem_cons.mp hb' with rfl | hmem
            · exact ⟨u, by simp, h2⟩
            · obtain ⟨a', ha', he'⟩ := ih2 hmem
              exact ⟨a', by simp [ha'], he'⟩
      exact keyLE_congr W hab haa' (hs.1 a' ha')

/-- `cntEq` is invariant under pointwise equivalence. -/
theorem cntEq_of_EqvL {lt : T → T → Bool} (W : WeakOrder lt) (k : T) {l1 l2 : List T}
    (he : EqvL lt l1 l2) : cntEq lt k l1 = cntEq lt k l2 := by
  induction he with
  | nil => rfl
  | cons hab htail ih =>
      rename_i a b l1' l2'
      unfold cntEq at ih ⊢
      simp only [List.countP_cons]
      rw [ih]
      have : (!lt a k && !lt k a) = (!lt b k && !lt k b) := by
        cases hak : lt a k with
        | true =>
            have : lt b k = true := by
              cases hbk : lt b k
              · have := W.negTrans a b k hab.1 hbk
                rw [this] at hak
                exact Bool.noConfusion hak
              · rfl
            simp [hak, this]
        | false =>
            have hbk : lt b k = false := W.negTrans b a k hab.2 hak
            cases hka : lt k a with
            | true =>
                have hkb : lt k b = true := by
                  cases hkb : lt k b
                  · have := W.negTrans k b a hkb hab.2
                    rw [this] at hka
                    exact Bool.noConfusion hka
                  · rfl
                simp [hak, hbk, hka, hkb]
            | false =>
                have hkb : lt k b = false := W.negTrans k a b hka hab.1
                simp [hak, hbk, hka, hkb]
      rw [this]


theorem findIndex_le_length (lt : T → T → Bool) (ks : List T) (k : T) :
    findIndex lt ks k ≤ ks.length := by
  induction ks with
  | nil => simp [findIndex]
  | cons a ks ih =>
      rw [findIndex]
      split
      · simpa using ih
      · simp

theorem findIndex_lt_early (lt : T → T → Bool) (ks : List T) (k : T) (j : Nat)
    (hj : j < findIndex lt ks k) : lt (ks.getD j default) k = true := by
  induction ks generalizing j with
  | nil => simp [findIndex] at hj
  | cons a ks ih =>
      rw [findIndex] at hj
      split at hj
      · cases j with
        | zero => simpa using ‹lt a k = true›
        | succ j => simpa using ih j (by omega)
      · omega

theorem findIndex_stop (lt : T → T → Bool) (ks : List T) (k : T)
    (h : findIndex lt ks k < ks.length) :
    lt (ks.getD (findIndex lt ks k) default) k = false := by
  induction ks with
  | nil => simp [findIndex] at h
  | cons a ks ih =>
      rw [findIndex] at h ⊢
      by_cases ha : lt a k = true
      · rw [if_pos ha] at h ⊢
        rw [List.getD_cons_succ]
        exact ih (by simpa using h)
      · rw [if_neg ha] at h ⊢
        rw [List.getD_cons_zero]
        simpa using ha

theorem findIndex_build (lt : T → T → Bool) (ks : List T) (k : T) (i : Nat)
    (hi : i ≤ ks.length)
    (hlo : ∀ j, j < i → lt (ks.getD j default) k = true)
    (hhi : i = ks.length ∨ lt (ks.getD i default) k = false) :
    findIndex lt ks k = i := by
  induction ks generalizing i with
  | nil =>
      simp only [findIndex]
      simp at hi
      omega
  | cons a ks ih =>
      rw [findIndex]
      cases i with
      | zero =>
          rcases hhi with h | h
          · simp at h
          · simp only [List.getD_cons_zero] at h
            rw [if_neg (by simp [h])]
      | succ i =>
          have ha : lt a k = true := by simpa using hlo 0 (by omega)
          rw [if_pos ha]
          have := ih i (by simpa using hi)
            (fun j hj => by simpa using hlo (j + 1) (by omega))
            (by rcases hhi with h | h
                · left; simpa using h
                · right; simpa using h)
          omega

theorem insertPos_drop (lt : T → T → Bool) (ks : List T) (k : T) :
    ∀ e ∈ ks.drop (insertPos lt ks k), lt k e = true := by
  induction ks with
  | nil => simp
  | cons a ks ih =>
      intro e he
      unfold insertPos at he
      rw [sufGT_cons] at he
      by_cases hs : sufGT lt k ks = ks.length
      · rw [if_pos hs] at he
        by_cases ha : lt k a = true
        · rw [if_pos ha, hs] at he
          rw [show (a :: ks).length - (ks.length + 1) = 0 by simp] at he
          rw [List.drop_zero] at he
          rcases List.mem_cons.mp he with rfl | hmem
          · exact ha
          · refine ih e ?_
            unfold insertPos
            rw [hs]
            simpa using hmem
        · rw [if_neg ha, hs] at he
          rw [show (a :: ks).length - ks.length = 1 by simp] at he
          rw [List.drop_one, List.tail_cons] at he
          refine ih e ?_
          unfold insertPos
          rw [hs]
          simpa using he
      · rw [if_neg hs] at he
        have hlt : sufGT lt k ks < ks.length :=
          Nat.lt_of_le_of_ne (sufGT_le_length lt k ks) hs
        rw [show (a :: ks).length - sufGT lt k ks = (ks.length - sufGT lt k ks) + 1 by
          simp only [List.length_cons]; omega] at he
        rw [List.drop_succ_cons] at he
        exact ih e he

theorem insertPos_prev (lt : T → T → Bool) (ks : List T) (k : T)
    (h : 0 < insertPos lt ks k) :
    lt k (ks.getD (insertPos lt ks k - 1) default) = false := by
  induction ks with
  | nil => simp [insertPos, sufGT] at h
  | cons a ks ih =>
      unfold insertPos at h ⊢
      rw [sufGT_cons] at h ⊢
      by_cases hs : sufGT lt k ks = ks.length
      · rw [if_pos hs] at h ⊢
        by_cases ha : lt k a = true
        · rw [if_pos ha, hs] at h
          rw [show (a :: ks).length - (ks.length + 1) = 0 by simp] at h
          omega
        · rw [if_neg ha, hs] at h ⊢
          rw [show (a :: ks).length - ks.length = 1 by simp]
          simpa using ha
      · rw [if_neg hs] at h ⊢
        have hlt : sufGT lt k ks < ks.length :=
          Nat.lt_of_le_of_ne (sufGT_le_length lt k ks) hs
        have hih := ih (by unfold insertPos; omega)
        unfold insertPos at hih
        rw [show (a :: ks).length - sufGT lt k ks - 1
            = (ks.length - sufGT lt k ks - 1) + 1 by simp only [List.length_cons]; omega]
        rw [List.getD_cons_succ]
        exact hih


theorem getD_set_self {α : Type} (l : List α) (j : Nat) (c d : α) (hj : j < l.length) :
    (l.set j c).getD j d = c := by
  induction l generalizing j with
  | nil => simp at hj
  | cons a l ih =>
      cases j with
      | zero => simp
      | succ j => simpa using ih j (by simpa using hj)

theorem getD_set_ne {α : Type} (l : List α) (i j : Nat) (c d : α) (hij : i ≠ j) :
    (l.set i c).getD j d = l.getD j d := by
  induction l generalizing i j with
  | nil => simp
  | cons a l ih =>
      cases i with
      | zero =>
          cases j with
          | zero => omega
          | succ j => simp
      | succ i =>
          cases j with
          | zero => simp
          | succ j => simpa using ih i j (by omega)

theorem take_set_of_le {α : Type} (l : List α) (i j : Nat) (c : α) (hij : j ≤ i) :
    (l.set i c).take j = l.take j := by
  induction l generalizing i j with
  | nil => simp
  | cons a l ih =>
      cases i with
      | zero =>
          have : j = 0 := by omega
          simp [this]
      | succ i =>
          cases j with
          | zero => simp
          | succ j => simpa using ih i j (by omega)

theorem drop_set_of_lt {α : Type} (l : List α) (i j : Nat) (c : α) (hij : i < j) :
    (l.set i c).drop j = l.drop j := by
  induction l generalizing i j with
  | nil => simp
  | cons a l ih =>
      cases i with
      | zero =>
          cases j with
          | zero => omega
          | succ j => simp
      | succ i =>
          cases j with
          | zero => omega
          | succ j => simpa using ih i j (by omega)

theorem getD_take_any {α : Type} (l : List α) (i j : Nat) (d : α) (h : j < i) :
    (l.take i).getD j d = l.getD j d := by
  induction l generalizing i j with
  | nil => simp
  | cons a l ih =>
      match i, j with
      | 0, j => exact absurd h (by omega)
      | i + 1, 0 => simp
      | i + 1, j + 1 => simpa using ih i j (by omega)

theorem travSeq_cons (c : BNode T) (cs : List (BNode T)) (ks : List T) :
    travSeq (c :: cs) ks = traverse c ++ travSeqK ks cs := by
  cases ks with
  | nil => simp [travSeq, travSeqK]
  | cons k ks' => simp [travSeq, travSeqK]

theorem travSeq_split_child (j : Nat) :
    ∀ (cs : List (BNode T)) (ks : List T), cs.length = ks.length + 1 → j ≤ ks.length →
    travSeq cs ks = travSeq (cs.take j) (ks.take j) ++ traverse (cs.getD j default)
      ++ travSeqK (ks.drop j) (cs.drop (j + 1)) := by
  induction j with
  | zero =>
      intro cs ks hlen hj
      rcases cs with - | ⟨c, cs'⟩
      · simp at hlen
      · simp only [List.take_zero, List.drop_zero, List.getD_cons_zero, travSeq,
          List.nil_append]
        rw [show (c :: cs').drop 1 = cs' from rfl, travSeq_cons]
  | succ j ih =>
      intro cs ks hlen hj
      rcases cs with - | ⟨c, cs'⟩
      · simp at hlen
      · rcases ks with - | ⟨k, ks'⟩
        · simp at hj
        · have hlen' : cs'.length = ks'.length + 1 := by simpa using hlen
          have hj' : j ≤ ks'.length := by simpa using hj
          have hrec := ih cs' ks' hlen' hj'
          simp only [List.take_succ_cons, List.drop_succ_cons, List.getD_cons_succ]
          rw [show travSeq (c :: cs') (k :: ks') = traverse c ++ k :: travSeq cs' ks' from rfl]
          rw [show travSeq (c :: cs'.take j) (k :: ks'.take j)
              = traverse c ++ k :: travSeq (cs'.take j) (ks'.take j) from rfl]
          rw [hrec]
          simp


theorem travSeq_split_key (j : Nat) (cs : List (BNode T)) (ks : List T)
    (hlen : cs.length = ks.length + 1) (hj : j < ks.length) :
    travSeq cs ks = travSeq (cs.take (j + 1)) (ks.take j) ++ ks.getD j default ::
      travSeq (cs.drop (j + 1)) (ks.drop (j + 1)) := by
  rw [travSeq_split_child j cs ks hlen (by omega)]
  have h1 : travSeq (cs.take (j + 1)) (ks.take j)
      = travSeq (cs.take j) (ks.take j) ++ traverse (cs.getD j default) := by
    have hlen2 : (cs.take (j + 1)).length = (ks.take j).length + 1 := by
      simp only [List.length_take]
      omega
    have := travSeq_split_child j (cs.take (j + 1)) (ks.take j) hlen2
      (by simp only [List.length_take]; omega)
    rw [this]
    have e1 : (cs.take (j + 1)).take j = cs.take j := by
      rw [List.take_take]
      simp [Nat.min_eq_left]
    have e2 : (ks.take j).take j = ks.take j := by simp
    have e3 : (cs.take (j + 1)).getD j default = cs.getD j default :=
      getD_take_any cs (j + 1) j default (by omega)
    have e4 : (ks.take j).drop j = [] := by simp
    rw [e1, e2, e3, e4]
    simp [travSeqK]
  rw [h1]
  have h2 : travSeqK (ks.drop j) (cs.drop (j + 1))
      = ks.getD j default :: travSeq (cs.drop (j + 1)) (ks.drop (j + 1)) := by
    have : ks.drop j = ks.getD j default :: ks.drop (j + 1) := by
      rw [List.getD_eq_getElem?_getD]
      rw [List.getElem?_eq_getElem hj]
      simp only [Option.getD_some]
      exact List.drop_eq_getElem_cons hj
    rw [this, travSeqK]
  rw [h2]

theorem travSeq_snoc_key (cs : List (BNode T)) (ks : List T) (k : T)
    (hlen : cs.length = ks.length + 1) :
    travSeq cs (ks ++ [k]) = travSeq cs ks ++ [k] := by
  induction cs generalizing ks with
  | nil => simp at hlen
  | cons c cs' ih =>
      rcases ks with - | ⟨k0, ks'⟩
      · have : cs' = [] := by simpa using hlen
        subst this
        simp [travSeq]
      · have hlen' : cs'.length = ks'.length + 1 := by simpa using hlen
        rw [show (k0 :: ks') ++ [k] = k0 :: (ks' ++ [k]) from rfl]
        rw [show travSeq (c :: cs') (k0 :: (ks' ++ [k]))
            = traverse c ++ k0 :: travSeq cs' (ks' ++ [k]) from rfl]
        rw [show travSeq (c :: cs') (k0 :: ks')
            = traverse c ++ k0 :: travSeq cs' ks' from rfl]
        rw [ih ks' hlen']
        simp

theorem travSeq_snoc_both (cs : List (BNode T)) (ks : List T) (c : BNode T) (k : T)
    (hlen : cs.length = ks.length + 1) :
    travSeq (cs ++ [c]) (ks ++ [k]) = travSeq cs ks ++ k :: traverse c := by
  induction cs generalizing ks with
  | nil => simp at hlen
  | cons c0 cs' ih =>
      rcases ks with - | ⟨k0, ks'⟩
      · have : cs' = [] := by simpa using hlen
        subst this
        simp [travSeq]
      · have hlen' : cs'.length = ks'.length + 1 := by simpa using hlen
        rw [show (c0 :: cs') ++ [c] = c0 :: (cs' ++ [c]) from rfl]
        rw [show (k0 :: ks') ++ [k] = k0 :: (ks' ++ [k]) from rfl]
        rw [show travSeq (c0 :: (cs' ++ [c])) (k0 :: (ks' ++ [k]))
            = traverse c0 ++ k0 :: travSeq (cs' ++ [c]) (ks' ++ [k]) from rfl]
        rw [show travSeq (c0 :: cs') (k0 :: ks')
            = traverse c0 ++ k0 :: travSeq cs' ks' from rfl]
        rw [ih ks' hlen']
        simp

theorem travSeq_keys_equiv {lt : T → T → Bool} (W : WeakOrder lt) :
    ∀ (cs : List (BNode T)) (ks1 ks2 : List T), EqvL lt ks1 ks2 →
    EqvL lt (travSeq cs ks1) (travSeq cs ks2) := by
  intro cs
  induction cs with
  | nil =>
      intro ks1 ks2 h
      simpa [travSeq] using h
  | cons c cs' ih =>
      intro ks1 ks2 h
      cases h with
      | nil => exact EqvL_refl W _
      | cons hk htail =>
          rename_i k1 k2 ks1' ks2'
          rw [show travSeq (c :: cs') (k1 :: ks1')
              = traverse c ++ k1 :: travSeq cs' ks1' from rfl]
          rw [show travSeq (c :: cs') (k2 :: ks2')
              = traverse c ++ k2 :: travSeq cs' ks2' from rfl]
          exact EqvL_append (EqvL_refl W _) (List.Forall₂.cons hk (ih ks1' ks2' htail))

theorem insert_equiv_front {lt : T → T → Bool} (W : WeakOrder lt) :
    ∀ (p : Nat) (l : List T) (k : T), (∀ e ∈ l.take p, eqv lt e k) →
    EqvL lt (l.take p ++ k :: l.drop p) (k :: l) := by
  intro p
  induction p with
  | zero => intro l k h; simpa using EqvL_refl W (k :: l)
  | succ p ih =>
      intro l k h
      rcases l with - | ⟨a, l'⟩
      · simpa using EqvL_refl W [k]
      · have ha : eqv lt a k := h a (by simp)
        have htail := ih l' k (fun e he => h e (by simp [he]))
        simp only [List.take_succ_cons, List.drop_succ_cons, List.cons_append]
        refine List.Forall₂.cons ha ?_
        refine EqvL_trans W htail ?_
        exact List.Forall₂.cons (eqv_symm ha) (EqvL_refl W l')


theorem subAll_getD {t : Nat} {cs : List (BNode T)} (h : subAll t cs) (j : Nat)
    (hj : j < cs.length) : subOk t (cs.getD j default) := by
  induction cs generalizing j with
  | nil => simp at hj
  | cons c cs ih =>
      obtain ⟨hc, hcs⟩ := h
      cases j with
      | zero => simpa using hc
      | succ j => simpa using ih hcs j (by simpa using hj)

theorem subAll_set {t : Nat} {cs : List (BNode T)} (h : subAll t cs) {c : BNode T}
    (hc : subOk t c) (j : Nat) : subAll t (cs.set j c) := by
  induction cs generalizing j with
  | nil => simpa using h
  | cons c0 cs ih =>
      obtain ⟨h0, hcs⟩ := h
      cases j with
      | zero => exact ⟨hc, hcs⟩
      | succ j => exact ⟨h0, ih hcs j⟩

theorem subAll_append {t : Nat} {a b : List (BNode T)} (ha : subAll t a) (hb : subAll t b) :
    subAll t (a ++ b) := by
  induction a with
  | nil => simpa using hb
  | cons c a ih =>
      obtain ⟨hc, ha'⟩ := ha
      exact ⟨hc, ih ha'⟩

theorem subAll_take {t : Nat} {cs : List (BNode T)} (h : subAll t cs) (j : Nat) :
    subAll t (cs.take j) := by
  induction cs generalizing j with
  | nil => simpa using h
  | cons c cs ih =>
      obtain ⟨hc, hcs⟩ := h
      cases j with
      | zero => exact trivial
      | succ j => exact ⟨hc, ih hcs j⟩

theorem subAll_drop {t : Nat} {cs : List (BNode T)} (h : subAll t cs) (j : Nat) :
    subAll t (cs.drop j) := by
  induction cs generalizing j with
  | nil => simpa using h
  | cons c cs ih =>
      obtain ⟨hc, hcs⟩ := h
      cases j with
      | zero => exact ⟨hc, hcs⟩
      | succ j => simpa using ih hcs j

theorem subAll_eraseIdx {t : Nat} {cs : List (BNode T)} (h : subAll t cs) (j : Nat) :
    subAll t (cs.eraseIdx j) := by
  induction cs generalizing j with
  | nil => simpa using h
  | cons c cs ih =>
      obtain ⟨hc, hcs⟩ := h
      cases j with
      | zero => simpa using hcs
      | succ j => exact ⟨hc, ih hcs j⟩

theorem balancedAll_getD {cs : List (BNode T)} (h : balancedAll cs) (j : Nat)
    (hj : j < cs.length) : balanced (cs.getD j default) := by
  induction cs generalizing j with
  | nil => simp at hj
  | cons c cs ih =>
      obtain ⟨hc, hcs⟩ := h
      cases j with
      | zero => simpa using hc
      | succ j => simpa using ih hcs j (by simpa using hj)

theorem balancedAll_set {cs : List (BNode T)} (h : balancedAll cs) {c : BNode T}
    (hc : balanced c) (j : Nat) : balancedAll (cs.set j c) := by
  induction cs generalizing j with
  | nil => simpa using h
  | cons c0 cs ih =>
      obtain ⟨h0, hcs⟩ := h
      cases j with
      | zero => exact ⟨hc, hcs⟩
      | succ j => exact ⟨h0, ih hcs j⟩

theorem balancedAll_append {a b : List (BNode T)} (ha : balancedAll a) (hb : balancedAll b) :
    balancedAll (a ++ b) := by
  induction a with
  | nil => simpa using hb
  | cons c a ih =>
      obtain ⟨hc, ha'⟩ := ha
      exact ⟨hc, ih ha'⟩

theorem balancedAll_take {cs : List (BNode T)} (h : balancedAll cs) (j : Nat) :
    balancedAll (cs.take j) := by
  induction cs generalizing j with
  | nil => simpa using h
  | cons c cs ih =>
      obtain ⟨hc, hcs⟩ := h
      cases j with
      | zero => exact trivial
      | succ j => exact ⟨hc, ih hcs j⟩

theorem balancedAll_drop {cs : List (BNode T)} (h : balancedAll cs) (j : Nat) :
    balancedAll (cs.drop j) := by
  induction cs generalizing j with
  | nil => simpa using h
  | cons c cs ih =>
      obtain ⟨hc, hcs⟩ := h
      cases j with
      | zero => exact ⟨hc, hcs⟩
      | succ j => simpa using ih hcs j

theorem balancedAll_eraseIdx {cs : List (BNode T)} (h : balancedAll cs) (j : Nat) :
    balancedAll (cs.eraseIdx j) := by
  induction cs generalizing j with
  | nil => simpa using h
  | cons c cs ih =>
      obtain ⟨hc, hcs⟩ := h
      cases j with
      | zero => simpa using hcs
      | succ j => exact ⟨hc, ih hcs j⟩

theorem heightsAll_set {h : Nat} {cs : List (BNode T)} (hall : heightsAll h cs) {c : BNode T}
    (hc : height c = h) (j : Nat) : heightsAll h (cs.set j c) := by
  induction cs generalizing j with
  | nil => simpa using hall
  | cons c0 cs ih =>
      obtain ⟨h0, hcs⟩ := hall
      cases j with
      | zero => exact ⟨hc, hcs⟩
      | succ j => exact ⟨h0, ih hcs j⟩

theorem heightsAll_append {h : Nat} {a b : List (BNode T)} (ha : heightsAll h a)
    (hb : heightsAll h b) : heightsAll h (a ++ b) := by
  induction a with
  | nil => simpa using hb
  | cons c a ih =>
      obtain ⟨hc, ha'⟩ := ha
      exact ⟨hc, ih ha'⟩

theorem heightsAll_take {h : Nat} {cs : List (BNode T)} (hall : heightsAll h cs) (j : Nat) :
    heightsAll h (cs.take j) := by
  induction cs generalizing j with
  | nil => simpa using hall
  | cons c cs ih =>
      obtain ⟨hc, hcs⟩ := hall
      cases j with
      | zero => exact trivial
      | succ j => exact ⟨hc, ih hcs j⟩

theorem heightsAll_drop {h : Nat} {cs : List (BNode T)} (hall : heightsAll h cs) (j : Nat) :
    heightsAll h (cs.drop j) := by
  induction cs generalizing j with
  | nil => simpa using hall
  | cons c cs ih =>
      obtain ⟨hc, hcs⟩ := hall
      cases j with
      | zero => exact ⟨hc, hcs⟩
      | succ j => simpa using ih hcs j

theorem heightsAll_eraseIdx {h : Nat} {cs : List (BNode T)} (hall : heightsAll h cs) (j : Nat) :
    heightsAll h (cs.eraseIdx j) := by
  induction cs generalizing j with
  | nil => simpa using hall
  | cons c cs ih =>
      obtain ⟨hc, hcs⟩ := hall
      cases j with
      | zero => simpa using hcs
      | succ j => exact ⟨hc, ih hcs j⟩

theorem heightList_of_heightsAll {h : Nat} {cs : List (BNode T)} (hall : heightsAll h cs)
    (hne : cs ≠ []) : heightList cs = h := by
  induction cs with
  | nil => exact absurd rfl hne
  | cons c cs ih =>
      obtain ⟨hc, hcs⟩ := hall
      rcases cs with - | ⟨c1, cs'⟩
      · simp [heightList, hc]
      · rw [heightList, hc, ih hcs (by simp)]
        simp

theorem heightsAll_of_heightList {cs : List (BNode T)} (h : Nat)
    (hall : heightsAll h cs) : heightsAll (heightList cs) cs := by
  rcases cs with - | ⟨c, cs'⟩
  · exact trivial
  · rw [heightList_of_heightsAll hall (by simp)]
    exact hall


theorem drop_eq_getD_cons {α : Type} {l : List α} {j : Nat} (d : α) (h : j < l.length) :
    l.drop j = l.getD j d :: l.drop (j + 1) := by
  rw [List.getD_eq_getElem?_getD, List.getElem?_eq_getElem h]
  simpa using List.drop_eq_getElem_cons h

theorem keys_sublist_travSeq (cs : List (BNode T)) (ks : List T) :
    ks.Sublist (travSeq cs ks) := by
  induction cs generalizing ks with
  | nil => simp [travSeq]
  | cons c cs' ih =>
      rcases ks with - | ⟨k, ks'⟩
      · simp
      · rw [show travSeq (c :: cs') (k :: ks') = traverse c ++ k :: travSeq cs' ks' from rfl]
        refine List.Sublist.trans ?_ (List.sublist_append_right (traverse c) _)
        exact List.Sublist.cons₂ k (ih ks')

theorem keys_sublist_traverse (x : BNode T) : x.keys.Sublist (traverse x) := by
  cases x with
  | node ks lf cs =>
      cases lf with
      | true => simp [traverse]
      | false => simpa [traverse] using keys_sublist_travSeq cs ks

theorem travSeq_take_child (j : Nat) (cs : List (BNode T)) (ks : List T)
    (hlen : cs.length = ks.length + 1) (hj : j ≤ ks.length) :
    travSeq (cs.take (j + 1)) (ks.take j) =
      travSeq (cs.take j) (ks.take j) ++ traverse (cs.getD j default) := by
  have hlen2 : (cs.take (j + 1)).length = (ks.take j).length + 1 := by
    simp only [List.length_take]
    omega
  have := travSeq_split_child j (cs.take (j + 1)) (ks.take j) hlen2
    (by simp only [List.length_take]; omega)
  rw [this]
  have e1 : (cs.take (j + 1)).take j = cs.take j := by
    rw [List.take_take]
    simp [Nat.min_eq_left]
  have e2 : (ks.take j).take j = ks.take j := by simp
  have e3 : (cs.take (j + 1)).getD j default = cs.getD j default :=
    getD_take_any cs (j + 1) j default (by omega)
  have e4 : (ks.take j).drop j = [] := by simp
  rw [e1, e2, e3, e4]
  simp [travSeqK]

theorem child_sublist_travSeq (j : Nat) (cs : List (BNode T)) (ks : List T)
    (hlen : cs.length = ks.length + 1) (hj : j ≤ ks.length) :
    (traverse (cs.getD j default)).Sublist (travSeq cs ks) := by
  rw [travSeq_split_child j cs ks hlen hj, List.append_assoc]
  exact List.Sublist.trans (List.sublist_append_left _ _) (List.sublist_append_right _ _)

theorem sorted_child_of_travSeq {lt : T → T → Bool} (j : Nat) (cs : List (BNode T))
    (ks : List T) (hlen : cs.length = ks.length + 1) (hj : j ≤ ks.length)
    (hs : sortedLE lt (travSeq cs ks)) : sortedLE lt (traverse (cs.getD j default)) :=
  List.Pairwise.sublist (child_sublist_travSeq j cs ks hlen hj) hs

theorem sorted_keys_of_travSeq {lt : T → T → Bool} (cs : List (BNode T)) (ks : List T)
    (hs : sortedLE lt (travSeq cs ks)) : sortedLE lt ks :=
  List.Pairwise.sublist (keys_sublist_travSeq cs ks) hs

/-- Every key of child `j` is at most the separating key `ks[j]`. -/
theorem child_le_sep {lt : T → T → Bool} (j : Nat) (cs : List (BNode T)) (ks : List T)
    (hlen : cs.length = ks.length + 1) (hj : j < ks.length)
    (hs : sortedLE lt (travSeq cs ks)) :
    ∀ e ∈ traverse (cs.getD j default), keyLE lt e (ks.getD j default) := by
  intro e he
  rw [travSeq_split_key j cs ks hlen hj, travSeq_take_child j cs ks hlen (by omega)]
    at hs
  rw [sortedLE, List.pairwise_append] at hs
  exact hs.2.2 e (List.mem_append.mpr (Or.inr he)) (ks.getD j default) (by simp)

/-- The separating key `ks[j]` is at most every key of child `j+1`. -/
theorem sep_le_child {lt : T → T → Bool} (j : Nat) (cs : List (BNode T)) (ks : List T)
    (hlen : cs.length = ks.length + 1) (hj : j < ks.length)
    (hs : sortedLE lt (travSeq cs ks)) :
    ∀ e ∈ traverse (cs.getD (j + 1) default), keyLE lt (ks.getD j default) e := by
  intro e he
  rw [travSeq_split_key j cs ks hlen hj] at hs
  rw [sortedLE, List.pairwise_append] at hs
  have hcons := hs.2.1
  rw [List.pairwise_cons] at hcons
  refine hcons.1 e ?_
  have hsub : (traverse (cs.getD (j + 1) default)).Sublist
      (travSeq (cs.drop (j + 1)) (ks.drop (j + 1))) := by
    have hd : cs.drop (j + 1) = cs.getD (j + 1) default :: cs.drop (j + 2) :=
      drop_eq_getD_cons default (by omega)
    rw [hd, travSeq_cons]
    exact List.sublist_append_left _ _
  exact hsub.mem he

theorem sorted_getD_getD {lt : T → T → Bool} (W : WeakOrder lt) (ks : List T)
    (hs : sortedLE lt ks) (a b : Nat) (hab : a ≤ b) (hb : b < ks.length) :
    keyLE lt (ks.getD a default) (ks.getD b default) := by
  rcases Nat.eq_or_lt_of_le hab with rfl | hlt
  · exact W.irrefl _
  · rw [sortedLE, List.pairwise_iff_getElem] at hs
    have := hs a b (by omega) hb hlt
    rw [List.getD_eq_getElem?_getD, List.getElem?_eq_getElem (by omega : a < ks.length),
      List.getD_eq_getElem?_getD, List.getElem?_eq_getElem hb]
    simpa using this

theorem mem_take_getD {α : Type} {l : List α} {p : Nat} {e : α} (d : α)
    (he : e ∈ l.take p) : ∃ j, j < p ∧ j < l.length ∧ l.getD j d = e := by
  obtain ⟨j, hj, hget⟩ := List.mem_iff_getElem.mp he
  refine ⟨j, ?_, ?_, ?_⟩
  · have := hj
    simp only [List.length_take] at this
    omega
  · have := hj
    simp only [List.length_take] at this
    omega
  · rw [List.getD_eq_getElem?_getD, List.getElem?_eq_getElem
      (by simp only [List.length_take] at hj; omega : j < l.length)]
    rw [List.getElem_take] at hget
    simpa using hget

end BT

namespace BT

/-- C1 (code bug): after the 20-operation sequence `dupIns ++ dupFollowUp` on an
initially empty tree with minimum degree 2, the resulting tree violates the size
invariant: it contains a non-root node with zero keys (fewer than t-1 = 1).
Root cause: `splitChild` (bTree.cpp 314-315) with equivalent keys inserts the
promoted median at an index `p ≥ i+2` and then overwrites child `i+1`, losing a
subtree and duplicating another; a later borrow-from-left on the corrupted node
moves a key up that redirects `findIndex`, so `remove` descends into a child
that still has only t-1 keys and deletes from it. -/
theorem C1_code_bug :
    ¬ (sizesOk 2 (applyOps 2 natlt (emptyTree : BNode Nat) (dupIns ++ dupFollowUp)) ∧
       childCountsOk (applyOps 2 natlt (emptyTree : BNode Nat) (dupIns ++ dupFollowUp)) ∧
       leavesAligned (applyOps 2 natlt (emptyTree : BNode Nat) (dupIns ++ dupFollowUp))) := by
  intro h
  have htr : applyOps 2 natlt (emptyTree : BNode Nat) (dupIns ++ dupFollowUp) =
      .node [4] false
        [.node [4] false [.node [4] true [], .node [4] true []],
         .node [5, 5, 6] false
           [.node [4, 4] true [], .node [5] true [], .node [] true [], .node [5, 6] true []]] := by
    decide
  have h1 := h.1
  rw [htr] at h1
  simp [sizesOk, allNodesL, allNodes, BNode.children, BNode.keys] at h1

/-- C4 (code bug): after the 13 inserts of `dupIns` (minimum degree 2), the
in-order traversal is `[4,4,4,4,4,4,5,5,5,6,5,6]`: it is not non-decreasing
(6 precedes 5), and it holds only 12 keys although 13 were inserted. Root
cause: `splitChild` (bTree.cpp 314-315) with equivalent keys inserts the
promoted median at an index `p ≥ i+2` in the parent and then assigns
`x->child[i+1] = newNode`, overwriting a live child (its keys are lost; in the
C++ the pointer also leaks) and leaving another child doubled in place. -/
theorem C4_code_bug :
    ¬ sortedLE natlt (traverse (applyOps 2 natlt (emptyTree : BNode Nat) dupIns)) ∧
    (traverse (applyOps 2 natlt (emptyTree : BNode Nat) dupIns)).length = 12 ∧
    dupIns.length = 13 := by
  refine ⟨?_, by decide, by decide⟩
  intro h
  have htr : traverse (applyOps 2 natlt (emptyTree : BNode Nat) dupIns) =
      [4, 4, 4, 4, 4, 4, 5, 5, 5, 6, 5, 6] := by decide
  rw [htr] at h
  have hsub : [6, 5].Sublist [4, 4, 4, 4, 4, 4, 5, 5, 5, 6, 5, 6] := by decide
  have h65 : natlt 5 6 = false := List.pairwise_iff_forall_sublist.1 h hsub
  exact absurd h65 (by decide)

/-- C3 (code bug): key 5 is inserted six times by `dupIns` and `remove 5` then
succeeds only four times (the counts are witnessed below), so after four
successful removes a key equal to 5 has been inserted and not yet removed; yet
`search` returns no location for 5 and `searchKey` fails. Root cause: the
`splitChild` corruption (bTree.cpp 314-315) silently discards a subtree holding
two of the six copies of 5, so the tree runs out of copies of 5 early. -/
theorem C3_code_bug :
    (dupIns.countP (fun op => match op with | .ins k => !natlt k 5 && !natlt 5 k | _ => false)
      = 6) ∧
    exOk (remove 2 natlt (applyOps 2 natlt (emptyTree : BNode Nat) dupIns) 5) = true ∧
    exOk (remove 2 natlt (applyOps 2 natlt (emptyTree : BNode Nat)
      (dupIns ++ [.del 5])) 5) = true ∧
    exOk (remove 2 natlt (applyOps 2 natlt (emptyTree : BNode Nat)
      (dupIns ++ [.del 5, .del 5])) 5) = true ∧
    exOk (remove 2 natlt (applyOps 2 natlt (emptyTree : BNode Nat)
      (dupIns ++ [.del 5, .del 5, .del 5])) 5) = true ∧
    search natlt (applyOps 2 natlt (emptyTree : BNode Nat)
      (dupIns ++ [.del 5, .del 5, .del 5, .del 5])) 5 = none ∧
    searchKey natlt (applyOps 2 natlt (emptyTree : BNode Nat)
      (dupIns ++ [.del 5, .del 5, .del 5, .del 5])) 5 = .error SEARCH_KEY_NOT_FOUND := by
  decide

end BT

namespace BT

variable {T : Type} [Inhabited T]

theorem sortedLT_sublist {lt : T → T → Bool} {l1 l2 : List T} (h : l1.Sublist l2)
    (hs : sortedLT lt l2) : sortedLT lt l1 :=
  List.Pairwise.sublist h hs

theorem sortedLE_of_sortedLT {lt : T → T → Bool} (W : WeakOrder lt) {l : List T}
    (hs : sortedLT lt l) : sortedLE lt l := by
  unfold sortedLE
  refine hs.imp ?_
  intro a b hab
  exact keyLE_of_lt W hab

/-- Gluing a fresh key between a strictly smaller prefix and a strictly larger
suffix keeps the list strictly increasing. -/
theorem sortedLT_glue {lt : T → T → Bool} {l1 l2 : List T} {k : T}
    (hs : sortedLT lt (l1 ++ l2))
    (h1 : ∀ a ∈ l1, lt a k = true) (h2 : ∀ b ∈ l2, lt k b = true) :
    sortedLT lt (l1 ++ k :: l2) := by
  rw [sortedLT, List.pairwise_append] at hs ⊢
  refine ⟨hs.1, ?_, ?_⟩
  · rw [List.pairwise_cons]
    exact ⟨h2, hs.2.1⟩
  · intro a ha b hb
    rcases List.mem_cons.mp hb with rfl | hb'
    · exact h1 a ha
    · exact hs.2.2 a ha b hb'

theorem lt_of_lt_eqv {lt : T → T → Bool} (W : WeakOrder lt) {a b c : T}
    (h1 : lt a b = true) (h2 : eqv lt b c) : lt a c = true := by
  cases hac : lt a c with
  | true => rfl
  | false =>
      have := W.negTrans a c b hac h2.2
      rw [this] at h1
      exact Bool.noConfusion h1

theorem lt_of_eqv_lt {lt : T → T → Bool} (W : WeakOrder lt) {a b c : T}
    (h1 : eqv lt a b) (h2 : lt b c = true) : lt a c = true := by
  cases hac : lt a c with
  | true => rfl
  | false =>
      have := W.negTrans b a c h1.2 hac
      rw [this] at h2
      exact Bool.noConfusion h2

/-- In a strictly sorted key list, `findIndex` stops exactly at the position
of the (necessarily unique) key equivalent to the probe. -/
theorem found_at_keys {lt : T → T → Bool} (W : WeakOrder lt) {ks : List T} {k a : T}
    (hs : sortedLT lt ks) (ha : a ∈ ks) (hak : eqv lt a k) :
    findIndex lt ks k < ks.length ∧ ks.getD (findIndex lt ks k) default = a := by
  obtain ⟨m, hm, hget⟩ := List.mem_iff_getElem.mp ha
  have hgetD : ks.getD m default = a := by
    rw [List.getD_eq_getElem?_getD, List.getElem?_eq_getElem hm, hget]
    rfl
  have hfi : findIndex lt ks k = m := by
    refine findIndex_build lt ks k m (by omega) ?_ ?_
    · intro j hj
      have hja : lt (ks.getD j default) a = true := by
        rw [sortedLT, List.pairwise_iff_getElem] at hs
        have := hs j m (by omega) hm hj
        rw [List.getD_eq_getElem?_getD, List.getElem?_eq_getElem (by omega : j < ks.length)]
        rw [← hget]
        simpa using this
      exact lt_of_lt_eqv W hja hak
    · right
      rw [hgetD]
      exact hak.1
  rw [hfi]
  exact ⟨hm, hgetD⟩

/-- Generic-relation version of `child_le_sep`: every element of child `j`
stands in relation `R` to the separating key `ks[j]` whenever the whole
interleaved traversal is `R`-pairwise. -/
theorem rel_child_sep {R : T → T → Prop} (j : Nat) (cs : List (BNode T)) (ks : List T)
    (hlen : cs.length = ks.length + 1) (hj : j < ks.length)
    (hs : (travSeq cs ks).Pairwise R) :
    ∀ e ∈ traverse (cs.getD j default), R e (ks.getD j default) := by
  intro e he
  rw [travSeq_split_key j cs ks hlen hj, travSeq_take_child j cs ks hlen (by omega)] at hs
  rw [List.pairwise_append] at hs
  exact hs.2.2 e (List.mem_append.mpr (Or.inr he)) (ks.getD j default) (by simp)

/-- Generic-relation version of `sep_le_child`. -/
theorem rel_sep_child {R : T → T → Prop} (j : Nat) (cs : List (BNode T)) (ks : List T)
    (hlen : cs.length = ks.length + 1) (hj : j < ks.length)
    (hs : (travSeq cs ks).Pairwise R) :
    ∀ e ∈ traverse (cs.getD (j + 1) default), R (ks.getD j default) e := by
  intro e he
  rw [travSeq_split_key j cs ks hlen hj] at hs
  rw [List.pairwise_append] at hs
  have hcons := hs.2.1
  rw [List.pairwise_cons] at hcons
  refine hcons.1 e ?_
  have hsub : (traverse (cs.getD (j + 1) default)).Sublist
      (travSeq (cs.drop (j + 1)) (ks.drop (j + 1))) := by
    have hd : cs.drop (j + 1) = cs.getD (j + 1) default :: cs.drop (j + 2) :=
      drop_eq_getD_cons default (by omega)
    rw [hd, travSeq_cons]
    exact List.sublist_append_left _ _
  exact hsub.mem he

/-- The keys of a strictly sorted traversal relate strictly across positions. -/
theorem sortedLT_getD_getD {lt : T → T → Bool} {ks : List T}
    (hs : sortedLT lt ks) {a b : Nat} (hab : a < b) (hb : b < ks.length) :
    lt (ks.getD a default) (ks.getD b default) = true := by
  rw [sortedLT, List.pairwise_iff_getElem] at hs
  have := hs a b (by omega) hb hab
  rw [List.getD_eq_getElem?_getD, List.getElem?_eq_getElem (by omega : a < ks.length),
    List.getD_eq_getElem?_getD, List.getElem?_eq_getElem hb]
  simpa using this

end BT

namespace BT

variable {T : Type} [Inhabited T]

/-- Completeness of the descent index: when the probe key is not matched at
the current node, the unique equivalent element of the subtree's traversal
lies in the child selected by `findIndex`. -/
theorem present_in_child {lt : T → T → Bool} (W : WeakOrder lt) {ks : List T}
    {cs : List (BNode T)} {k a : T}
    (hlen : cs.length = ks.length + 1)
    (hsorted : sortedLT lt (travSeq cs ks))
    (ha : a ∈ travSeq cs ks) (hak : eqv lt a k)
    (hnf : ¬ (findIndex lt ks k < ks.length ∧
      lt (ks.getD (findIndex lt ks k) default) k = false ∧
      lt k (ks.getD (findIndex lt ks k) default) = false)) :
    a ∈ traverse (cs.getD (findIndex lt ks k) default) := by
  set i := findIndex lt ks k with hidef
  clear_value i
  have hi_le : i ≤ ks.length := hidef ▸ findIndex_le_length lt ks k
  rw [travSeq_split_child i cs ks hlen hi_le] at ha hsorted
  rcases List.mem_append.mp ha with ha' | hS
  rcases List.mem_append.mp ha' with hP | hC
  · -- a in the part strictly left of the selected child: contradiction
    exfalso
    rcases Nat.eq_zero_or_pos i with h0 | hpos
    · rw [h0] at hP
      simp [travSeq] at hP
    · have hks : ks.take i = ks.take (i - 1) ++ [ks.getD (i - 1) default] := by
        conv_lhs => rw [show i = (i - 1) + 1 by omega]
        rw [List.take_succ, List.getElem?_eq_getElem (by omega : i - 1 < ks.length)]
        rw [List.getD_eq_getElem?_getD, List.getElem?_eq_getElem (by omega : i - 1 < ks.length)]
        rfl
      rw [hks, travSeq_snoc_key _ _ _ (by simp only [List.length_take]; omega)] at hP
      have hlast : lt (ks.getD (i - 1) default) k = true := by
        rw [hidef]
        exact findIndex_lt_early lt ks k _ (by omega)
      have hak' : lt a k = true := by
        rcases List.mem_append.mp hP with hQ | hone
        · have hPpw : (travSeq (cs.take i) (ks.take (i - 1))
              ++ [ks.getD (i - 1) default]).Pairwise (fun u v => lt u v = true) := by
            refine List.Pairwise.sublist ?_ hsorted
            rw [← travSeq_snoc_key _ _ _ (by simp only [List.length_take]; omega), ← hks]
            exact List.Sublist.trans (List.sublist_append_left _ _)
              (List.sublist_append_left _ _)
          rw [List.pairwise_append] at hPpw
          have := hPpw.2.2 a hQ (ks.getD (i - 1) default) (by simp)
          exact W.trans _ _ _ this hlast
        · have : a = ks.getD (i - 1) default := by simpa using hone
          rw [this]
          exact hlast
      have h1 : lt a k = false := hak.1
      rw [hak'] at h1
      exact Bool.noConfusion h1
  · exact hC
  · -- a in the part strictly right of the selected child: contradiction
    exfalso
    rcases Nat.lt_or_ge i ks.length with hlt | hge
    · have hstop : lt (ks.getD i default) k = false := by
        rw [hidef]
        exact findIndex_stop lt ks k (hidef ▸ hlt)
      have hki : lt k (ks.getD i default) = true := by
        cases hx : lt k (ks.getD i default) with
        | true => rfl
        | false => exact absurd ⟨hlt, hstop, hx⟩ hnf
      have hdropks : ks.drop i = ks.getD i default :: ks.drop (i + 1) :=
        drop_eq_getD_cons default hlt
      rw [hdropks, travSeqK] at hS
      rcases List.mem_cons.mp hS with rfl | htail
      · rw [hak.2] at hki
        exact Bool.noConfusion hki
      · have hSpw : (ks.getD i default ::
            travSeq (cs.drop (i + 1)) (ks.drop (i + 1))).Pairwise
              (fun u v => lt u v = true) := by
          refine List.Pairwise.sublist ?_ hsorted
          rw [hdropks, travSeqK]
          exact List.sublist_append_right _ _
        rw [List.pairwise_cons] at hSpw
        have h1 := hSpw.1 a htail
        have h2 := W.trans _ _ _ hki h1
        have h3 : lt k a = false := hak.2
        rw [h2] at h3
        exact Bool.noConfusion h3
    · have hieq : i = ks.length := by omega
      rw [hieq, List.drop_length, travSeqK] at hS
      simp at hS

end BT

namespace BT

variable {T : Type} [Inhabited T]

/-- `insertPos` lands exactly at `i` when everything from `i` on is strictly
greater than the probe and the key before `i` (if any) is not. -/
theorem insertPos_eq_of (lt : T → T → Bool) (ks : List T) (k : T) (i : Nat)
    (hi : i ≤ ks.length)
    (hhi : ∀ j, i ≤ j → j < ks.length → lt k (ks.getD j default) = true)
    (hlo : i = 0 ∨ lt k (ks.getD (i - 1) default) = false) :
    insertPos lt ks k = i := by
  have h := insertPos_append lt k (ks.take i) (ks.drop i) ?_ ?_
  · rw [List.take_append_drop] at h
    rw [h, List.length_take]
    omega
  · intro e he
    obtain ⟨j, hj, hget⟩ := List.mem_iff_getElem.mp he
    have hjlen : j < ks.length - i := by simpa using hj
    have : e = ks.getD (i + j) default := by
      rw [← hget, List.getElem_drop, List.getD_eq_getElem?_getD,
        List.getElem?_eq_getElem (by omega : i + j < ks.length)]
      rfl
    rw [this]
    exact hhi (i + j) (by omega) (by omega)
  · rcases Nat.eq_zero_or_pos i with h0 | hpos
    · left
      rw [h0]
      rfl
    · right
      rw [List.length_take, show min i ks.length = i by omega,
        getD_take ks i (i - 1) (by omega)]
      rcases hlo with h0 | hlt
      · omega
      · exact hlt

theorem travSeq_snoc_child (cs : List (BNode T)) (ks : List T) (c : BNode T)
    (hlen : cs.length = ks.length) :
    travSeq (cs ++ [c]) ks = travSeq cs ks ++ traverse c := by
  induction cs generalizing ks with
  | nil =>
      have : ks = [] := by
        cases ks
        · rfl
        · simp at hlen
      subst this
      simp [travSeq]
  | cons c0 cs' ih =>
      rcases ks with - | ⟨k0, ks'⟩
      · simp at hlen
      · have hlen' : cs'.length = ks'.length := by simpa using hlen
        rw [show (c0 :: cs') ++ [c] = c0 :: (cs' ++ [c]) from rfl]
        rw [show travSeq (c0 :: (cs' ++ [c])) (k0 :: ks')
            = traverse c0 ++ k0 :: travSeq (cs' ++ [c]) ks' from rfl]
        rw [show travSeq (c0 :: cs') (k0 :: ks')
            = traverse c0 ++ k0 :: travSeq cs' ks' from rfl]
        rw [ih ks' hlen']
        simp

theorem take_succ_set {α : Type} (l : List α) (i : Nat) (c : α) (hi : i < l.length) :
    (l.set i c).take (i + 1) = l.take i ++ [c] := by
  induction l generalizing i with
  | nil => simp at hi
  | cons a l ih =>
      cases i with
      | zero => simp
      | succ i => simpa using ih i (by simpa using hi)

theorem drop_set_self {α : Type} (l : List α) (i : Nat) (c : α) (hi : i < l.length) :
    (l.set i c).drop i = c :: l.drop (i + 1) := by
  induction l generalizing i with
  | nil => simp at hi
  | cons a l ih =>
      cases i with
      | zero => simp
      | succ i => simpa using ih i (by simpa using hi)

theorem getD_mem {α : Type} (l : List α) (j : Nat) (d : α) (hj : j < l.length) :
    l.getD j d ∈ l := by
  rw [List.getD_eq_getElem?_getD, List.getElem?_eq_getElem hj]
  simpa using List.getElem_mem hj

theorem set_append_of_len (A B : List (BNode T)) (v : BNode T) (n : Nat)
    (h : n = A.length) : (A ++ B).set n v = A ++ B.set 0 v := by
  rw [h, set_append_len]

/-- Under a strictly sorted traversal the promoted median lands exactly at
slot `i` of the parent's key array, so `splitChild` replaces child `i` by its
two halves around the median, with no clobbering. -/
theorem splitChild_sorted_eq (t : Nat) (lt : T → T → Bool) (W : WeakOrder lt)
    (ks : List T) (cs : List (BNode T)) (i : Nat) (ht : 2 ≤ t)
    (hlen : cs.length = ks.length + 1) (hi : i ≤ ks.length)
    (hfull : (cs.getD i default).keys.length = 2 * t - 1)
    (hsorted : sortedLT lt (travSeq cs ks)) :
    splitChild t lt (BNode.node ks false cs) i =
      BNode.node
        (ks.take i ++ (cs.getD i default).keys.getD (t - 1) default :: ks.drop i) false
        (cs.take i ++ splitKept t (cs.getD i default) :: splitMoved t (cs.getD i default)
          :: cs.drop (i + 1)) := by
  have hkssort : sortedLT lt ks := sortedLT_sublist (keys_sublist_travSeq cs ks) hsorted
  have hmedmem : (cs.getD i default).keys.getD (t - 1) default
      ∈ traverse (cs.getD i default) :=
    (keys_sublist_traverse (cs.getD i default)).mem
      (getD_mem _ _ _ (by omega : t - 1 < (cs.getD i default).keys.length))
  have hp : insertPos lt ks ((cs.getD i default).keys.getD (t - 1) default) = i := by
    refine insertPos_eq_of lt ks _ i hi ?_ ?_
    · intro j hij hjlen
      have hmi : lt ((cs.getD i default).keys.getD (t - 1) default)
          (ks.getD i default) = true := by
        have := rel_child_sep (R := fun u v => lt u v = true) i cs ks hlen
          (by omega) hsorted
        exact this _ hmedmem
      rcases Nat.eq_or_lt_of_le hij with rfl | hij'
      · exact hmi
      · exact W.trans _ _ _ hmi (sortedLT_getD_getD hkssort hij' hjlen)
    · rcases Nat.eq_zero_or_pos i with h0 | hpos
      · left; exact h0
      · right
        have hsep : lt (ks.getD (i - 1) default)
            ((cs.getD i default).keys.getD (t - 1) default) = true := by
          have := rel_sep_child (R := fun u v => lt u v = true) (i - 1) cs ks hlen
            (by omega) hsorted
          rw [show i - 1 + 1 = i by omega] at this
          exact this _ hmedmem
        exact W.asym hsep
  have hilen : i < cs.length := by omega
  simp only [splitChild, setChild, nodeInsert, keys_node, children_node, leaf_node, hp,
    splitKept, splitMoved]
  rw [take_succ_set cs i _ hilen, drop_set_self cs i _ hilen]
  rw [set_append_of_len _ _ _ _
    (by simp only [List.length_append, List.length_take, List.length_cons,
      List.length_nil]; omega)]
  simp [List.append_assoc]

end BT

namespace BT

variable {T : Type} [Inhabited T]

/-- A full node's traversal splits into its kept half, the median, and the
moved half. -/
theorem split_traverse (t : Nat) (y : BNode T) (ht : 2 ≤ t)
    (hfull : y.keys.length = 2 * t - 1)
    (hsh : if y.leaf = true then y.children = []
           else y.children.length = y.keys.length + 1) :
    traverse y =
      traverse (splitKept t y) ++ y.keys.getD (t - 1) default
        :: traverse (splitMoved t y) := by
  rcases y with ⟨cks, clf, ccs⟩
  simp only [keys_node, leaf_node, children_node] at hfull hsh
  cases clf with
  | true =>
      have hccs : ccs = [] := by simpa using hsh
      subst hccs
      simp only [splitKept, splitMoved, traverse, keys_node, leaf_node, children_node,
        if_pos rfl]
      have h1 : (cks.drop t).take (t - 1) = cks.drop t := by
        rw [List.take_of_length_le]
        rw [List.length_drop]
        omega
      rw [h1]
      conv_lhs => rw [← List.take_append_drop (t - 1) cks]
      congr 1
      rw [drop_eq_getD_cons default (by omega : t - 1 < cks.length)]
      rw [show t - 1 + 1 = t by omega]
  | false =>
      have hccs : ccs.length = cks.length + 1 := by simpa using hsh
      simp only [splitKept, splitMoved, traverse, keys_node, leaf_node, children_node,
        Bool.false_eq_true, if_false]
      rw [travSeq_split_key (t - 1) ccs cks hccs (by omega)]
      rw [show t - 1 + 1 = t by omega]
      have h1 : (ccs.drop t).take t = ccs.drop t := by
        rw [List.take_of_length_le]
        rw [List.length_drop]
        omega
      have h2 : (cks.drop t).take (t - 1) = cks.drop t := by
        rw [List.take_of_length_le]
        rw [List.length_drop]
        omega
      rw [h1, h2]

theorem travSeq_append_eqlen (A : List (BNode T)) (K : List T) (B : List (BNode T))
    (L : List T) (h : A.length = K.length) (hB : B ≠ []) :
    travSeq (A ++ B) (K ++ L) = travSeq A K ++ travSeq B L := by
  induction A generalizing K with
  | nil =>
      have : K = [] := by
        cases K
        · rfl
        · simp at h
      subst this
      simp [travSeq]
  | cons a A' ih =>
      rcases K with - | ⟨k, K'⟩
      · simp at h
      · have h' : A'.length = K'.length := by simpa using h
        rw [show (a :: A') ++ B = a :: (A' ++ B) from rfl,
          show (k :: K') ++ L = k :: (K' ++ L) from rfl]
        rw [show travSeq (a :: (A' ++ B)) (k :: (K' ++ L))
            = traverse a ++ k :: travSeq (A' ++ B) (K' ++ L) from rfl]
        rw [show travSeq (a :: A') (k :: K') = traverse a ++ k :: travSeq A' K' from rfl]
        rw [ih K' h']
        simp

/-- `splitChild` leaves the in-order traversal unchanged when the median is
inserted at slot `i` (the shape produced by `splitChild_sorted_eq`). -/
theorem splitChild_sorted_traverse (t : Nat) (ks : List T) (cs : List (BNode T)) (i : Nat)
    (ht : 2 ≤ t) (hlen : cs.length = ks.length + 1) (hi : i ≤ ks.length)
    (hfull : (cs.getD i default).keys.length = 2 * t - 1)
    (hsh : if (cs.getD i default).leaf = true then (cs.getD i default).children = []
           else (cs.getD i default).children.length = (cs.getD i default).keys.length + 1) :
    travSeq
      (cs.take i ++ splitKept t (cs.getD i default) :: splitMoved t (cs.getD i default)
        :: cs.drop (i + 1))
      (ks.take i ++ (cs.getD i default).keys.getD (t - 1) default :: ks.drop i)
    = travSeq cs ks := by
  rw [travSeq_append_eqlen _ _ _ _
    (by simp only [List.length_take]; omega) (by simp)]
  rw [travSeq_cons, travSeqK, travSeq_cons]
  rw [travSeq_split_child i cs ks hlen hi]
  rw [split_traverse t (cs.getD i default) ht hfull hsh]
  have hK : travSeqK (ks.drop i) (cs.drop (i + 1))
      = travSeqK (ks.drop i) (cs.drop (i + 1)) := rfl
  simp [List.append_assoc]

/-- Structure of the kept half: a sound non-root node of the original height. -/
theorem splitKept_ok (t : Nat) (y : BNode T) (ht : 2 ≤ t)
    (hfull : y.keys.length = 2 * t - 1) (hsub : subOk t y) (hbal : balanced y) :
    subOk t (splitKept t y) ∧ balanced (splitKept t y) ∧
      height (splitKept t y) = height y := by
  rcases y with ⟨cks, clf, ccs⟩
  rw [subOk] at hsub
  simp only [keys_node, leaf_node, children_node] at hfull
  obtain ⟨hbounds, hsh, hsubc⟩ := hsub
  cases clf with
  | true =>
      have hccs : ccs = [] := by simpa using hsh
      subst hccs
      refine ⟨?_, ?_, ?_⟩
      · rw [splitKept]
        simp only [keys_node, leaf_node, children_node, if_pos rfl]
        rw [subOk]
        refine ⟨?_, by simp, trivial⟩
        simp only [keys_node, List.length_take]
        omega
      · rw [splitKept]
        simp [balanced]
      · rw [splitKept]
        simp [height_node, heightList]
  | false =>
      have hccs : ccs.length = cks.length + 1 := by simpa using hsh
      rw [balanced] at hbal
      simp only [Bool.false_eq_true, if_false] at hbal
      obtain ⟨hbalc, hhts⟩ := hbal
      have htake : heightsAll (heightList ccs) (ccs.take t) := heightsAll_take hhts t
      have htne : ccs.take t ≠ [] := by
        have : (ccs.take t).length = t := by
          rw [List.length_take]
          omega
        intro hc
        rw [hc] at this
        simp at this
        omega
      have htl : heightList (ccs.take t) = heightList ccs :=
        heightList_of_heightsAll htake htne
      refine ⟨?_, ?_, ?_⟩
      · rw [splitKept]
        simp only [keys_node, leaf_node, children_node, Bool.false_eq_true, if_false]
        rw [subOk]
        refine ⟨?_, ?_, subAll_take hsubc t⟩
        · simp only [keys_node, List.length_take]
          omega
        · simp only [leaf_node, children_node, keys_node, Bool.false_eq_true, if_false,
            List.length_take]
          omega
      · rw [splitKept]
        simp only [leaf_node, children_node, Bool.false_eq_true, if_false]
        rw [balanced]
        simp only [Bool.false_eq_true, if_false]
        exact ⟨balancedAll_take hbalc t, htl ▸ htake⟩
      · rw [splitKept]
        simp only [leaf_node, children_node, Bool.false_eq_true, if_false]
        rw [height_node, height_node, htl]

/-- Structure of the moved half: a sound non-root node of the original height. -/
theorem splitMoved_ok (t : Nat) (y : BNode T) (ht : 2 ≤ t)
    (hfull : y.keys.length = 2 * t - 1) (hsub : subOk t y) (hbal : balanced y) :
    subOk t (splitMoved t y) ∧ balanced (splitMoved t y) ∧
      height (splitMoved t y) = height y := by
  rcases y with ⟨cks, clf, ccs⟩
  rw [subOk] at hsub
  simp only [keys_node, leaf_node, children_node] at hfull
  obtain ⟨hbounds, hsh, hsubc⟩ := hsub
  cases clf with
  | true =>
      have hccs : ccs = [] := by simpa using hsh
      subst hccs
      refine ⟨?_, ?_, ?_⟩
      · rw [splitMoved]
        simp only [keys_node, leaf_node, children_node, if_pos rfl]
        rw [subOk]
        refine ⟨?_, by simp, trivial⟩
        simp only [keys_node, List.length_take, List.length_drop]
        omega
      · rw [splitMoved]
        simp [balanced]
      · rw [splitMoved]
        simp [height_node, heightList]
  | false =>
      have hccs : ccs.length = cks.length + 1 := by simpa using hsh
      rw [balanced] at hbal
      simp only [Bool.false_eq_true, if_false] at hbal
      obtain ⟨hbalc, hhts⟩ := hbal
      have hdall : heightsAll (heightList ccs) ((ccs.drop t).take t) :=
        heightsAll_take (heightsAll_drop hhts t) t
      have htne : (ccs.drop t).take t ≠ [] := by
        have : ((ccs.drop t).take t).length = t := by
          rw [List.length_take, List.length_drop]
          omega
        intro hc
        rw [hc] at this
        simp at this
        omega
      have htl : heightList ((ccs.drop t).take t) = heightList ccs :=
        heightList_of_heightsAll hdall htne
      refine ⟨?_, ?_, ?_⟩
      · rw [splitMoved]
        simp only [keys_node, leaf_node, children_node, Bool.false_eq_true, if_false]
        rw [subOk]
        refine ⟨?_, ?_, subAll_take (subAll_drop hsubc t) t⟩
        · simp only [keys_node, List.length_take, List.length_drop]
          omega
        · simp only [leaf_node, children_node, keys_node, Bool.false_eq_true, if_false,
            List.length_take, List.length_drop]
          omega
      · rw [splitMoved]
        simp only [leaf_node, children_node, Bool.false_eq_true, if_false]
        rw [balanced]
        simp only [Bool.false_eq_true, if_false]
        exact ⟨balancedAll_take (balancedAll_drop hbalc t) t, htl ▸ hdall⟩
      · rw [splitMoved]
        simp only [leaf_node, children_node, Bool.false_eq_true, if_false]
        rw [height_node, height_node, htl]

end BT

namespace BT

variable {T : Type} [Inhabited T]

/-- Everything strictly left of child `j` in the interleaving is strictly
below `k` as soon as the separators there are. -/
theorem travSeq_prefix_lt {lt : T → T → Bool} (W : WeakOrder lt)
    (cs : List (BNode T)) (ks : List T) (j : Nat) (k : T)
    (hlen : cs.length = ks.length + 1) (hj : j ≤ ks.length)
    (hsorted : sortedLT lt (travSeq cs ks))
    (hkey : ∀ u, u < j → lt (ks.getD u default) k = true) :
    ∀ a ∈ travSeq (cs.take j) (ks.take j), lt a k = true := by
  intro a hP
  rcases Nat.eq_zero_or_pos j with h0 | hpos
  · rw [h0] at hP
    simp [travSeq] at hP
  · have hks : ks.take j = ks.take (j - 1) ++ [ks.getD (j - 1) default] := by
      conv_lhs => rw [show j = (j - 1) + 1 by omega]
      rw [List.take_succ, List.getElem?_eq_getElem (by omega : j - 1 < ks.length)]
      rw [List.getD_eq_getElem?_getD, List.getElem?_eq_getElem (by omega : j - 1 < ks.length)]
      rfl
    rw [hks, travSeq_snoc_key _ _ _ (by simp only [List.length_take]; omega)] at hP
    have hlast : lt (ks.getD (j - 1) default) k = true := hkey (j - 1) (by omega)
    rcases List.mem_append.mp hP with hQ | hone
    · have hPpw : (travSeq (cs.take j) (ks.take (j - 1))
          ++ [ks.getD (j - 1) default]).Pairwise (fun u v => lt u v = true) := by
        refine List.Pairwise.sublist ?_ hsorted
        rw [← travSeq_snoc_key _ _ _ (by simp only [List.length_take]; omega), ← hks]
        rw [travSeq_split_child j cs ks hlen hj]
        exact List.Sublist.trans (List.sublist_append_left _ _)
          (List.sublist_append_left _ _)
      rw [List.pairwise_append] at hPpw
      have := hPpw.2.2 a hQ (ks.getD (j - 1) default) (by simp)
      exact W.trans _ _ _ this hlast
    · have : a = ks.getD (j - 1) default := by simpa using hone
      rw [this]
      exact hlast

/-- Everything strictly right of child `j` in the interleaving is strictly
above `k` as soon as the separator at `j` is. -/
theorem travSeqK_suffix_gt {lt : T → T → Bool} (W : WeakOrder lt)
    (cs : List (BNode T)) (ks : List T) (j : Nat) (k : T)
    (hlen : cs.length = ks.length + 1) (hj : j ≤ ks.length)
    (hsorted : sortedLT lt (travSeq cs ks))
    (hkey : j < ks.length → lt k (ks.getD j default) = true) :
    ∀ a ∈ travSeqK (ks.drop j) (cs.drop (j + 1)), lt k a = true := by
  intro a hS
  rcases Nat.lt_or_ge j ks.length with hlt | hge
  · have hki : lt k (ks.getD j default) = true := hkey hlt
    have hdropks : ks.drop j = ks.getD j default :: ks.drop (j + 1) :=
      drop_eq_getD_cons default hlt
    rw [hdropks, travSeqK] at hS
    rcases List.mem_cons.mp hS with rfl | htail
    · exact hki
    · have hSpw : (ks.getD j default ::
          travSeq (cs.drop (j + 1)) (ks.drop (j + 1))).Pairwise
            (fun u v => lt u v = true) := by
        refine List.Pairwise.sublist ?_ hsorted
        rw [travSeq_split_child j cs ks hlen hj, hdropks, travSeqK]
        exact List.sublist_append_right _ _
      rw [List.pairwise_cons] at hSpw
      exact W.trans _ _ _ hki (hSpw.1 a htail)
  · have hjeq : j = ks.length := by omega
    rw [hjeq, List.drop_length, travSeqK] at hS
    simp at hS

theorem travSeq_set_child (j : Nat) (cs : List (BNode T)) (ks : List T) (c : BNode T)
    (hlen : cs.length = ks.length + 1) (hj : j ≤ ks.length) :
    travSeq (cs.set j c) ks =
      travSeq (cs.take j) (ks.take j) ++ traverse c
        ++ travSeqK (ks.drop j) (cs.drop (j + 1)) := by
  have hlen2 : (cs.set j c).length = ks.length + 1 := by
    rw [List.length_set]
    exact hlen
  rw [travSeq_split_child j (cs.set j c) ks hlen2 hj]
  rw [take_set_of_le cs j j c (Nat.le_refl j)]
  rw [drop_set_of_lt cs j (j + 1) c (by omega)]
  rw [getD_set_self cs j c default (by omega)]

/-- Writing the enlarged child back into slot `j` turns a sorted-position
decomposition of the child's traversal into one of the whole node's. -/
theorem insert_writeback {lt : T → T → Bool} (W : WeakOrder lt)
    (ks : List T) (cs : List (BNode T)) (j : Nat) (k : T) (c2 : BNode T)
    (hlen : cs.length = ks.length + 1) (hj : j ≤ ks.length)
    (hsorted : sortedLT lt (travSeq cs ks))
    (hlo : ∀ u, u < j → lt (ks.getD u default) k = true)
    (hhi : j < ks.length → lt k (ks.getD j default) = true)
    (hL : ∃ L1 L2, traverse (cs.getD j default) = L1 ++ L2 ∧
      traverse c2 = L1 ++ k :: L2 ∧
      (∀ a ∈ L1, lt a k = true) ∧ (∀ b ∈ L2, lt k b = true)) :
    ∃ L1 L2, travSeq cs ks = L1 ++ L2 ∧ travSeq (cs.set j c2) ks = L1 ++ k :: L2 ∧
      (∀ a ∈ L1, lt a k = true) ∧ (∀ b ∈ L2, lt k b = true) := by
  obtain ⟨L1, L2, hsplit, hnew, hb1, hb2⟩ := hL
  refine ⟨travSeq (cs.take j) (ks.take j) ++ L1,
    L2 ++ travSeqK (ks.drop j) (cs.drop (j + 1)), ?_, ?_, ?_, ?_⟩
  · rw [travSeq_split_child j cs ks hlen hj, hsplit]
    simp [List.append_assoc]
  · rw [travSeq_set_child j cs ks c2 hlen hj, hnew]
    simp [List.append_assoc]
  · intro a ha
    rcases List.mem_append.mp ha with h | h
    · exact travSeq_prefix_lt W cs ks j k hlen hj hsorted hlo a h
    · exact hb1 a h
  · intro b hb
    rcases List.mem_append.mp hb with h | h
    · exact hb2 b h
    · exact travSeqK_suffix_gt W cs ks j k hlen hj hsorted hhi b h

end BT

namespace BT

variable {T : Type} [Inhabited T]

theorem getD_append_left {α : Type} (A B : List α) (j : Nat) (d : α) (hj : j < A.length) :
    (A ++ B).getD j d = A.getD j d := by
  induction A generalizing j with
  | nil => simp at hj
  | cons a A ih =>
      cases j with
      | zero => simp
      | succ j => simpa using ih j (by simpa using hj)

theorem getD_append_len_of {α : Type} [Inhabited α] (A : List α) (b : α) (B : List α)
    (d : α) (n : Nat) (h : n = A.length) : (A ++ b :: B).getD n d = b := by
  subst h
  induction A with
  | nil => rfl
  | cons a A ih => simpa using ih

theorem insertPos_take_getD {lt : T → T → Bool} (W : WeakOrder lt) (ks : List T) (k : T)
    (hs : sortedLT lt ks) (hfresh : ∀ a ∈ ks, ¬ eqv lt a k) (u : Nat)
    (hu : u < insertPos lt ks k) : lt (ks.getD u default) k = true := by
  have hple : insertPos lt ks k ≤ ks.length := insertPos_le_length lt ks k
  have hprev : lt k (ks.getD (insertPos lt ks k - 1) default) = false :=
    insertPos_prev lt ks k (by omega)
  have hprevmem : ks.getD (insertPos lt ks k - 1) default ∈ ks :=
    getD_mem ks _ default (by omega)
  have hprevlt : lt (ks.getD (insertPos lt ks k - 1) default) k = true := by
    cases hc : lt (ks.getD (insertPos lt ks k - 1) default) k with
    | true => rfl
    | false => exact absurd ⟨hc, hprev⟩ (hfresh _ hprevmem)
  rcases Nat.eq_or_lt_of_le (show u ≤ insertPos lt ks k - 1 by omega) with rfl | hlt
  · exact hprevlt
  · exact W.trans _ _ _ (sortedLT_getD_getD hs hlt (by omega)) hprevlt

theorem insertPos_drop_getD (lt : T → T → Bool) (ks : List T) (k : T)
    (hp : insertPos lt ks k < ks.length) :
    lt k (ks.getD (insertPos lt ks k) default) = true := by
  refine insertPos_drop lt ks k _ ?_
  rw [drop_eq_getD_cons default hp]
  simp

theorem subOk_elim {t : Nat} {y : BNode T} (h : subOk t y) :
    (t - 1 ≤ y.keys.length ∧ y.keys.length ≤ 2 * t - 1) ∧
    (if y.leaf = true then y.children = []
     else y.children.length = y.keys.length + 1) ∧
    subAll t y.children := by
  rcases y with ⟨a, b, c⟩
  rw [subOk] at h
  simpa using h

theorem subOk_intro {t : Nat} {y : BNode T} (h1 : t - 1 ≤ y.keys.length)
    (h2 : y.keys.length ≤ 2 * t - 1)
    (h3 : if y.leaf = true then y.children = []
          else y.children.length = y.keys.length + 1)
    (h4 : subAll t y.children) : subOk t y := by
  rcases y with ⟨a, b, c⟩
  rw [subOk]
  simp only [keys_node, leaf_node, children_node] at h1 h2 h3 h4
  exact ⟨⟨h1, h2⟩, h3, h4⟩

theorem getD_append_right_of {α : Type} (A B : List α) (d : α) (n : Nat)
    (h : A.length ≤ n) : (A ++ B).getD n d = B.getD (n - A.length) d := by
  induction A generalizing n with
  | nil => simp
  | cons a A ih =>
      cases n with
      | zero => simp at h
      | succ n => simpa using ih n (by simpa using h)

/-- Writing an enlarged child back into slot `j` of an internal node
preserves the whole node's structure, balance and height, and extends the
sorted-position decomposition of the traversal. -/
theorem insert_node_glue (t : Nat) (lt : T → T → Bool) (W : WeakOrder lt)
    (KS : List T) (CS : List (BNode T)) (j : Nat) (k : T) (c2 : BNode T)
    (hlen : CS.length = KS.length + 1) (hj : j ≤ KS.length)
    (hsorted : sortedLT lt (travSeq CS KS))
    (hsub : subAll t CS)
    (hbalA : balancedAll CS) (hhtsA : heightsAll (heightList CS) CS)
    (hlo : ∀ u, u < j → lt (KS.getD u default) k = true)
    (hhi : j < KS.length → lt k (KS.getD j default) = true)
    (hL : ∃ L1 L2, traverse (CS.getD j default) = L1 ++ L2 ∧
      traverse c2 = L1 ++ k :: L2 ∧
      (∀ a ∈ L1, lt a k = true) ∧ (∀ b ∈ L2, lt k b = true))
    (hc2lo : t - 1 ≤ c2.keys.length) (hc2hi : c2.keys.length ≤ 2 * t - 1)
    (hc2sh : if c2.leaf = true then c2.children = []
             else c2.children.length = c2.keys.length + 1)
    (hc2sub : subAll t c2.children)
    (hc2bal : balanced c2)
    (hc2ht : height c2 = height (CS.getD j default)) :
    (∃ L1 L2, travSeq CS KS = L1 ++ L2 ∧
      traverse (setChild (BNode.node KS false CS) j c2) = L1 ++ k :: L2 ∧
      (∀ a ∈ L1, lt a k = true) ∧ (∀ b ∈ L2, lt k b = true)) ∧
    (setChild (BNode.node KS false CS) j c2).leaf = false ∧
    (setChild (BNode.node KS false CS) j c2).keys = KS ∧
    (setChild (BNode.node KS false CS) j c2).children.length = KS.length + 1 ∧
    subAll t (setChild (BNode.node KS false CS) j c2).children ∧
    balanced (setChild (BNode.node KS false CS) j c2) ∧
    height (setChild (BNode.node KS false CS) j c2) = heightList CS + 1 := by
  have hjcs : j < CS.length := by omega
  have hkidht : height (CS.getD j default) = heightList CS :=
    heightsAll_getD _ CS hhtsA j hjcs
  have hall : heightsAll (heightList CS) (CS.set j c2) := by
    refine heightsAll_set hhtsA ?_ j
    rw [hc2ht, hkidht]
  have hne : CS.set j c2 ≠ [] := by
    intro hc
    have h0 : (CS.set j c2).length = 0 := by rw [hc]; rfl
    rw [List.length_set] at h0
    omega
  have hl2 : heightList (CS.set j c2) = heightList CS :=
    heightList_of_heightsAll hall hne
  have hsubc2 : subOk t c2 := subOk_intro hc2lo hc2hi hc2sh hc2sub
  refine ⟨?_, ?_, ?_, ?_, ?_, ?_, ?_⟩
  · obtain ⟨L1, L2, h1, h2, h3, h4⟩ :=
      insert_writeback W KS CS j k c2 hlen hj hsorted hlo hhi hL
    refine ⟨L1, L2, h1, ?_, h3, h4⟩
    rw [setChild]
    simp only [keys_node, leaf_node, children_node, traverse]
    exact h2
  · simp [setChild]
  · simp [setChild]
  · rw [setChild]
    simp only [children_node, List.length_set]
    exact hlen
  · rw [setChild]
    simp only [children_node]
    exact subAll_set hsub hsubc2 j
  · rw [setChild]
    simp only [leaf_node, children_node]
    rw [balanced]
    simp only [Bool.false_eq_true, if_false]
    exact ⟨balancedAll_set hbalA hc2bal j, hl2 ▸ hall⟩
  · rw [setChild]
    simp only [leaf_node, children_node, height_node]
    rw [hl2]

/-- Main correctness of the descent loop of `insert` on a subtree whose keys
avoid the probe's equivalence class: with enough fuel it succeeds, the
traversal gains exactly `k` at its sorted position, and the node keeps its
shape (gaining at most one key) and height. -/
theorem insertAux_spec (t : Nat) (lt : T → T → Bool) (W : WeakOrder lt) (ht : 2 ≤ t) :
    ∀ (fuel : Nat) (x : BNode T) (k : T),
    height x ≤ fuel →
    x.keys.length < 2 * t - 1 →
    (if x.leaf = true then x.children = [] else x.children.length = x.keys.length + 1) →
    subAll t x.children →
    balanced x →
    sortedLT lt (traverse x) →
    (∀ a ∈ traverse x, ¬ eqv lt a k) →
    ∃ x2, insertAux t lt fuel x k = some x2 ∧
      (∃ L1 L2, traverse x = L1 ++ L2 ∧ traverse x2 = L1 ++ k :: L2 ∧
        (∀ a ∈ L1, lt a k = true) ∧ (∀ b ∈ L2, lt k b = true)) ∧
      x2.leaf = x.leaf ∧
      (x2.keys.length = x.keys.length ∨ x2.keys.length = x.keys.length + 1) ∧
      (if x2.leaf = true then x2.children = []
       else x2.children.length = x2.keys.length + 1) ∧
      subAll t x2.children ∧
      balanced x2 ∧
      height x2 = height x := by
  intro fuel
  induction fuel with
  | zero =>
      intro x k hfuel
      have := height_pos x
      omega
  | succ fuel ih =>
      intro x k hfuel hroom hsh hsub hbal hsorted hfresh
      rcases x with ⟨ks, lf, cs⟩
      cases lf with
      | true =>
          -- leaf: plain nodeInsert at the sorted position
          have hcs : cs = [] := by simpa using hsh
          subst hcs
          refine ⟨(nodeInsert lt (BNode.node ks true []) k).1, ?_, ?_, ?_, ?_, ?_, ?_, ?_, ?_⟩
          · rw [insertAux]
            simp
          · refine ⟨ks.take (insertPos lt ks k), ks.drop (insertPos lt ks k), ?_, ?_, ?_, ?_⟩
            · simp [traverse]
            · simp [nodeInsert, traverse]
            · intro a ha
              obtain ⟨u, hu, hulen, hget⟩ := mem_take_getD default ha
              rw [← hget]
              refine insertPos_take_getD W ks k ?_ ?_ u hu
              · simpa [traverse] using hsorted
              · intro a' ha'
                exact hfresh a' (by simpa [traverse] using ha')
            · exact insertPos_drop lt ks k
          · simp [nodeInsert]
          · right
            simp only [nodeInsert, keys_node, List.length_append, List.length_take,
              List.length_cons, List.length_drop]
            have := insertPos_le_length lt ks k
            omega
          · simp [nodeInsert]
          · simp [nodeInsert, subAll]
          · simp [nodeInsert, balanced]
          · simp [nodeInsert, height_node, heightList]
      | false =>
          have hcslen : cs.length = ks.length + 1 := by simpa using hsh
          have htrav : traverse (BNode.node ks false cs) = travSeq cs ks := by
            simp [traverse]
          rw [htrav] at hsorted hfresh
          have hkssort : sortedLT lt ks :=
            sortedLT_sublist (keys_sublist_travSeq cs ks) hsorted
          have hksfresh : ∀ a ∈ ks, ¬ eqv lt a k := fun a ha =>
            hfresh a ((keys_sublist_travSeq cs ks).mem ha)
          have hple : insertPos lt ks k ≤ ks.length := insertPos_le_length lt ks k
          have hpcs : insertPos lt ks k < cs.length := by omega
          have hsubp : subOk t (cs.getD (insertPos lt ks k) default) :=
            subAll_getD hsub _ hpcs
          have hbalcs : balancedAll cs ∧ heightsAll (heightList cs) cs := by
            rw [balanced] at hbal
            simpa using hbal
          have hbalp : balanced (cs.getD (insertPos lt ks k) default) :=
            balancedAll_getD hbalcs.1 _ hpcs
          have hhtp : height (cs.getD (insertPos lt ks k) default) = heightList cs :=
            heightsAll_getD _ cs hbalcs.2 _ hpcs
          have hfuelp : height (cs.getD (insertPos lt ks k) default) ≤ fuel := by
            rw [height_node] at hfuel
            omega
          have hsortp : sortedLT lt (traverse (cs.getD (insertPos lt ks k) default)) :=
            sortedLT_sublist (child_sublist_travSeq _ cs ks hcslen hple) hsorted
          have hfreshp : ∀ a ∈ traverse (cs.getD (insertPos lt ks k) default),
              ¬ eqv lt a k := fun a ha =>
            hfresh a ((child_sublist_travSeq _ cs ks hcslen hple).mem ha)
          have hkidb := (subOk_elim hsubp).1
          by_cases hfull : (cs.getD (insertPos lt ks k) default).keys.length = 2 * t - 1
          · -- full child: split, adjust the index, descend
            have hsplitEq := splitChild_sorted_eq t lt W ks cs (insertPos lt ks k) ht
              hcslen hple hfull hsorted
            have hkidsh := (subOk_elim hsubp).2.1
            have htrav2 : travSeq
                (cs.take (insertPos lt ks k)
                  ++ splitKept t (cs.getD (insertPos lt ks k) default)
                  :: splitMoved t (cs.getD (insertPos lt ks k) default)
                  :: cs.drop (insertPos lt ks k + 1))
                (ks.take (insertPos lt ks k)
                  ++ (cs.getD (insertPos lt ks k) default).keys.getD (t - 1) default
                  :: ks.drop (insertPos lt ks k)) = travSeq cs ks :=
              splitChild_sorted_traverse t ks cs (insertPos lt ks k) ht hcslen hple
                hfull hkidsh
            have hkeptok := splitKept_ok t (cs.getD (insertPos lt ks k) default) ht
              hfull hsubp hbalp
            have hmovedok := splitMoved_ok t (cs.getD (insertPos lt ks k) default) ht
              hfull hsubp hbalp
            set p := insertPos lt ks k with hpdef
            set med := (cs.getD p default).keys.getD (t - 1) default with hmeddef
            set kept := splitKept t (cs.getD p default) with hkeptdef
            set moved := splitMoved t (cs.getD p default) with hmoveddef
            set ks2 := ks.take p ++ med :: ks.drop p with hks2def
            set cs2 := cs.take p ++ kept :: moved :: cs.drop (p + 1) with hcs2def
            have hks2len : ks2.length = ks.length + 1 := by
              rw [hks2def]
              simp only [List.length_append, List.length_take, List.length_cons,
                List.length_drop]
              omega
            have hcs2len : cs2.length = ks2.length + 1 := by
              rw [hcs2def, hks2len]
              simp only [List.length_append, List.length_take, List.length_cons,
                List.length_drop]
              omega
            have hsort2 : sortedLT lt (travSeq cs2 ks2) := htrav2 ▸ hsorted
            have hmedmem : med ∈ travSeq cs ks := by
              refine (child_sublist_travSeq p cs ks hcslen hple).mem ?_
              refine (keys_sublist_traverse (cs.getD p default)).mem ?_
              rw [hmeddef]
              exact getD_mem _ _ _ (by omega)
            have hks2get : ks2.getD p default = med := by
              rw [hks2def]
              exact getD_append_len_of _ _ _ _ _ (by simp only [List.length_take]; omega)
            have hkeptlen : kept.keys.length = t - 1 := by
              rw [hkeptdef, splitKept]
              simp only [keys_node, List.length_take]
              omega
            have hmovedlen : moved.keys.length = t - 1 := by
              rw [hmoveddef, splitMoved]
              simp only [keys_node, List.length_take, List.length_drop]
              omega
            have hsub2 : subAll t cs2 := by
              rw [hcs2def]
              refine subAll_append (subAll_take hsub p) ?_
              exact ⟨hkeptok.1, hmovedok.1, subAll_drop hsub (p + 1)⟩
            have hbal2 : balancedAll cs2 := by
              rw [hcs2def]
              refine balancedAll_append (balancedAll_take hbalcs.1 p) ?_
              exact ⟨hkeptok.2.1, hmovedok.2.1, balancedAll_drop hbalcs.1 (p + 1)⟩
            have hhts2 : heightsAll (heightList cs) cs2 := by
              rw [hcs2def]
              refine heightsAll_append (heightsAll_take hbalcs.2 p) ?_
              exact ⟨by rw [hkeptok.2.2, hhtp], by rw [hmovedok.2.2, hhtp],
                heightsAll_drop hbalcs.2 (p + 1)⟩
            have hcs2ne : cs2 ≠ [] := by
              intro hc
              have h0 : cs2.length = 0 := by rw [hc]; rfl
              omega
            have hhl2 : heightList cs2 = heightList cs :=
              heightList_of_heightsAll hhts2 hcs2ne
            have hhts2x : heightsAll (heightList cs2) cs2 := hhl2 ▸ hhts2
            have hfreshmed := hfresh med hmedmem
            have hULo : ∀ u, u < p → lt (ks2.getD u default) k = true := by
              intro u hu
              rw [hks2def, getD_append_left _ _ u default
                (by simp only [List.length_take]; omega)]
              rw [getD_take ks p u hu]
              exact insertPos_take_getD W ks k hkssort hksfresh u (by omega)
            by_cases hmk : lt med k = true
            · -- the median is below the probe: descend right of it
              have hcs2get : cs2.getD (p + 1) default = moved := by
                rw [hcs2def, show cs.take p ++ kept :: moved :: cs.drop (p + 1)
                    = (cs.take p ++ [kept]) ++ moved :: cs.drop (p + 1) by simp]
                exact getD_append_len_of _ _ _ _ _
                  (by simp only [List.length_append, List.length_take, List.length_cons,
                    List.length_nil]; omega)
              have hmovsh := (subOk_elim hmovedok.1).2.1
              have hmovsub := (subOk_elim hmovedok.1).2.2
              have hsortmv : sortedLT lt (traverse moved) := by
                rw [← hcs2get]
                exact sortedLT_sublist
                  (child_sublist_travSeq (p + 1) cs2 ks2 hcs2len (by omega)) hsort2
              have hfreshmv : ∀ a ∈ traverse moved, ¬ eqv lt a k := by
                intro a ha
                refine hfresh a ?_
                rw [← htrav2]
                rw [← hcs2get] at ha
                exact (child_sublist_travSeq (p + 1) cs2 ks2 hcs2len (by omega)).mem ha
              obtain ⟨c2, hc2eq, hc2L, hc2leaf, hc2len, hc2sh, hc2sub, hc2bal, hc2ht⟩ :=
                ih moved k (by rw [hmovedok.2.2]; exact hfuelp)
                  (by omega) hmovsh hmovsub hmovedok.2.1 hsortmv hfreshmv
              have hglue := insert_node_glue t lt W ks2 cs2 (p + 1) k c2 hcs2len
                (by omega) hsort2 hsub2 hbal2 hhts2x ?hlo ?hhi ?hLL ?hc2lo ?hc2hi
                hc2sh hc2sub hc2bal (by rw [hcs2get]; exact hc2ht)
              case hlo =>
                intro u hu
                rcases Nat.lt_or_ge u p with hup | hup
                · exact hULo u hup
                · have hueq : u = p := by omega
                  rw [hueq, hks2get]
                  exact hmk
              case hhi =>
                intro hplt
                have hpklen : p < ks.length := by omega
                have hgd : ks2.getD (p + 1) default = ks.getD p default := by
                  rw [hks2def, getD_append_right_of _ _ _ _
                    (by simp only [List.length_take]; omega)]
                  rw [List.length_take, show p + 1 - min p ks.length = 1 by omega]
                  rw [show (med :: ks.drop p).getD 1 default
                      = (ks.drop p).getD 0 default from rfl]
                  rw [drop_eq_getD_cons default hpklen]
                  rfl
                rw [hgd, hpdef]
                rw [hpdef] at hpklen
                exact insertPos_drop_getD lt ks k hpklen
              case hLL =>
                rw [hcs2get]
                exact hc2L
              case hc2lo =>
                rw [hmovedlen] at hc2len
                omega
              case hc2hi =>
                rw [hmovedlen] at hc2len
                omega
              obtain ⟨hGL, hGleaf, hGkeys, hGchlen, hGsub, hGbal, hGht⟩ := hglue
              refine ⟨setChild (BNode.node ks2 false cs2) (p + 1) c2, ?_, ?_, ?_, ?_,
                ?_, ?_, ?_, ?_⟩
              · rw [insertAux]
                simp only [leaf_node, Bool.false_eq_true, if_false, keys_node,
                  children_node]
                rw [← hpdef, if_pos hfull, hsplitEq]
                have hadj : splitIndexAdjust lt (BNode.node ks2 false cs2) p k
                    = p + 1 := by
                  rw [splitIndexAdjust]
                  simp only [keys_node, hks2get]
                  rw [if_pos hmk]
                rw [hadj]
                simp only [children_node, hcs2get, hc2eq]
                rfl
              · rw [htrav, ← htrav2]
                exact hGL
              · rw [hGleaf]
                simp
              · right
                rw [hGkeys]
                simp only [keys_node]
                exact hks2len
              · simp only [hGleaf, Bool.false_eq_true, if_false]
                rw [hGchlen, hGkeys]
              · exact hGsub
              · exact hGbal
              · rw [hGht, hhl2, height_node]
            · -- the median is not below the probe: descend left of it
              have hkm : lt k med = true := by
                cases hc : lt k med with
                | true => rfl
                | false =>
                    exact absurd ⟨by simpa using hmk, hc⟩ hfreshmed
              have hcs2get : cs2.getD p default = kept := by
                rw [hcs2def]
                exact getD_append_len_of _ _ _ _ _
                  (by simp only [List.length_take]; omega)
              have hkpsh := (subOk_elim hkeptok.1).2.1
              have hkpsub := (subOk_elim hkeptok.1).2.2
              have hsortkp : sortedLT lt (traverse kept) := by
                rw [← hcs2get]
                exact sortedLT_sublist
                  (child_sublist_travSeq p cs2 ks2 hcs2len (by omega)) hsort2
              have hfreshkp : ∀ a ∈ traverse kept, ¬ eqv lt a k := by
                intro a ha
                refine hfresh a ?_
                rw [← htrav2]
                rw [← hcs2get] at ha
                exact (child_sublist_travSeq p cs2 ks2 hcs2len (by omega)).mem ha
              obtain ⟨c2, hc2eq, hc2L, hc2leaf, hc2len, hc2sh, hc2sub, hc2bal, hc2ht⟩ :=
                ih kept k (by rw [hkeptok.2.2]; exact hfuelp)
                  (by omega) hkpsh hkpsub hkeptok.2.1 hsortkp hfreshkp
              have hglue := insert_node_glue t lt W ks2 cs2 p k c2 hcs2len
                (by omega) hsort2 hsub2 hbal2 hhts2x ?hlo2 ?hhi2 ?hLL2 ?hc2lo2 ?hc2hi2
                hc2sh hc2sub hc2bal (by rw [hcs2get]; exact hc2ht)
              case hlo2 => exact hULo
              case hhi2 =>
                intro hplt
                rw [hks2get]
                exact hkm
              case hLL2 =>
                rw [hcs2get]
                exact hc2L
              case hc2lo2 =>
                rw [hkeptlen] at hc2len
                omega
              case hc2hi2 =>
                rw [hkeptlen] at hc2len
                omega
              obtain ⟨hGL, hGleaf, hGkeys, hGchlen, hGsub, hGbal, hGht⟩ := hglue
              refine ⟨setChild (BNode.node ks2 false cs2) p c2, ?_, ?_, ?_, ?_,
                ?_, ?_, ?_, ?_⟩
              · rw [insertAux]
                simp only [leaf_node, Bool.false_eq_true, if_false, keys_node,
                  children_node]
                rw [← hpdef, if_pos hfull, hsplitEq]
                have hadj : splitIndexAdjust lt (BNode.node ks2 false cs2) p k = p := by
                  rw [splitIndexAdjust]
                  simp only [keys_node, hks2get]
                  rw [if_neg (by simp [hmk])]
                rw [hadj]
                simp only [children_node, hcs2get, hc2eq]
                rfl
              · rw [htrav, ← htrav2]
                exact hGL
              · rw [hGleaf]
                simp
              · right
                rw [hGkeys]
                simp only [keys_node]
                exact hks2len
              · simp only [hGleaf, Bool.false_eq_true, if_false]
                rw [hGchlen, hGkeys]
              · exact hGsub
              · exact hGbal
              · rw [hGht, hhl2, height_node]
          · -- the child is not full: descend directly
            have hkpsh := (subOk_elim hsubp).2.1
            have hkpsub := (subOk_elim hsubp).2.2
            obtain ⟨c2, hc2eq, hc2L, hc2leaf, hc2len, hc2sh, hc2sub, hc2bal, hc2ht⟩ :=
              ih (cs.getD (insertPos lt ks k) default) k hfuelp
                (by omega) hkpsh hkpsub hbalp hsortp hfreshp
            have hglue := insert_node_glue t lt W ks cs (insertPos lt ks k) k c2 hcslen
              hple hsorted hsub hbalcs.1 hbalcs.2 ?hlo3 ?hhi3 hc2L ?hc2lo3 ?hc2hi3
              hc2sh hc2sub hc2bal hc2ht
            case hlo3 =>
              intro u hu
              exact insertPos_take_getD W ks k hkssort hksfresh u hu
            case hhi3 =>
              intro hplt
              exact insertPos_drop_getD lt ks k hplt
            case hc2lo3 => omega
            case hc2hi3 => omega
            obtain ⟨hGL, hGleaf, hGkeys, hGchlen, hGsub, hGbal, hGht⟩ := hglue
            refine ⟨setChild (BNode.node ks false cs) (insertPos lt ks k) c2, ?_, ?_,
              ?_, ?_, ?_, ?_, ?_, ?_⟩
            · rw [insertAux]
              simp only [leaf_node, Bool.false_eq_true, if_false, keys_node,
                children_node]
              rw [if_neg hfull, hc2eq]
              rfl
            · rw [htrav]
              exact hGL
            · rw [hGleaf]
              simp
            · left
              rw [hGkeys]
              simp only [keys_node]
            · simp only [hGleaf, Bool.false_eq_true, if_false]
              rw [hGchlen, hGkeys]
            · exact hGsub
            · exact hGbal
            · rw [hGht, height_node]

end BT

namespace BT

variable {T : Type} [Inhabited T]

theorem rootOk_elim {t : Nat} {y : BNode T} (h : rootOk t y) :
    y.keys.length ≤ 2 * t - 1 ∧
    (if y.leaf = true then y.children = []
     else 1 ≤ y.keys.length ∧ y.children.length = y.keys.length + 1) ∧
    subAll t y.children := by
  rcases y with ⟨a, b, c⟩
  rw [rootOk] at h
  simpa using h

theorem rootOk_intro {t : Nat} {y : BNode T} (h1 : y.keys.length ≤ 2 * t - 1)
    (h2 : if y.leaf = true then y.children = []
          else 1 ≤ y.keys.length ∧ y.children.length = y.keys.length + 1)
    (h3 : subAll t y.children) : rootOk t y := by
  rcases y with ⟨a, b, c⟩
  rw [rootOk]
  simp only [keys_node, leaf_node, children_node] at h1 h2 h3 ⊢
  exact ⟨h1, h2, h3⟩

/-- `insert` on a well-formed tree with pairwise non-equivalent keys, fed a
key equivalent to none of the stored ones: the invariant is preserved and the
traversal gains exactly `k`. -/
theorem insert_spec (t : Nat) (lt : T → T → Bool) (W : WeakOrder lt) (ht : 2 ≤ t)
    (x : BNode T) (k : T) (hInv : Inv t lt x)
    (hfresh : ∀ a ∈ traverse x, ¬ eqv lt a k) :
    Inv t lt (insert t lt x k) ∧
    (traverse (insert t lt x k)).Perm (k :: traverse x) := by
  obtain ⟨hroot, hbal, hsorted⟩ := hInv
  obtain ⟨hrlen, hrsh, hrsub⟩ := rootOk_elim hroot
  by_cases hfull : x.keys.length = 2 * t - 1
  · -- grow a new root and split the old one
    have htrx : travSeq [x] ([] : List T) = traverse x := rfl
    have hsorted0 : sortedLT lt (travSeq [x] ([] : List T)) := by
      rw [htrx]
      exact hsorted
    have hget0 : ([x] : List (BNode T)).getD 0 default = x := rfl
    have hsplitEq := splitChild_sorted_eq t lt W [] [x] 0 ht (by simp) (by simp)
      (by rw [hget0]; exact hfull) hsorted0
    have hsubx : subOk t x := by
      refine subOk_intro (by omega) (by omega) ?_ hrsub
      rcases hlf : x.leaf with - | -
      · rw [hlf] at hrsh
        simp only [if_false, Bool.false_eq_true] at hrsh ⊢
        exact hrsh.2
      · rw [hlf] at hrsh
        simpa using hrsh
    have hkeptok := splitKept_ok t x ht hfull hsubx hbal
    have hmovedok := splitMoved_ok t x ht hfull hsubx hbal
    have hsplitEq' : splitChild t lt (BNode.node [] false [x]) 0 =
        BNode.node [x.keys.getD (t - 1) default] false [splitKept t x, splitMoved t x] := by
      rw [hsplitEq, hget0]
      simp
    have htrav2 : travSeq [splitKept t x, splitMoved t x]
        [x.keys.getD (t - 1) default] = traverse x := by
      have h := splitChild_sorted_traverse t ([] : List T) [x] 0 ht (by simp) (by simp)
        (by rw [hget0]; exact hfull) ?_
      · rw [hget0] at h
        simp only [List.take_nil, List.drop_nil, List.nil_append, List.take_zero,
          List.drop_succ_cons, List.drop_nil] at h
        rw [← htrx]
        exact h
      · rw [hget0]
        rcases hlf : x.leaf with - | -
        · rw [hlf] at hrsh
          simp only [if_false, Bool.false_eq_true] at hrsh ⊢
          exact hrsh.2
        · rw [hlf] at hrsh
          simpa using hrsh
    have hhts : heightsAll (heightList [splitKept t x, splitMoved t x])
        [splitKept t x, splitMoved t x] := by
      have h1 : height (splitKept t x) = height x := hkeptok.2.2
      have h2 : height (splitMoved t x) = height x := hmovedok.2.2
      have hl : heightList [splitKept t x, splitMoved t x] = height x := by
        simp [heightList, h1, h2]
      rw [hl]
      exact ⟨h1, h2, trivial⟩
    have hbalr : balanced (BNode.node [x.keys.getD (t - 1) default] false
        [splitKept t x, splitMoved t x]) := by
      rw [balanced]
      simp only [Bool.false_eq_true, if_false]
      exact ⟨⟨hkeptok.2.1, hmovedok.2.1, trivial⟩, hhts⟩
    have hsortr : sortedLT lt (traverse (BNode.node [x.keys.getD (t - 1) default] false
        [splitKept t x, splitMoved t x])) := by
      have : traverse (BNode.node [x.keys.getD (t - 1) default] false
          [splitKept t x, splitMoved t x]) = travSeq [splitKept t x, splitMoved t x]
            [x.keys.getD (t - 1) default] := by
        simp [traverse]
      rw [this, htrav2]
      exact hsorted
    have hfreshr : ∀ a ∈ traverse (BNode.node [x.keys.getD (t - 1) default] false
        [splitKept t x, splitMoved t x]), ¬ eqv lt a k := by
      intro a ha
      refine hfresh a ?_
      have : traverse (BNode.node [x.keys.getD (t - 1) default] false
          [splitKept t x, splitMoved t x]) = travSeq [splitKept t x, splitMoved t x]
            [x.keys.getD (t - 1) default] := by
        simp [traverse]
      rw [this, htrav2] at ha
      exact ha
    obtain ⟨x2, hx2eq, hx2L, hx2leaf, hx2len, hx2sh, hx2sub, hx2bal, hx2ht⟩ :=
      insertAux_spec t lt W ht
        (height (BNode.node [x.keys.getD (t - 1) default] false
          [splitKept t x, splitMoved t x]) + 1)
        (BNode.node [x.keys.getD (t - 1) default] false [splitKept t x, splitMoved t x])
        k (by omega) (by simp only [keys_node, List.length_cons, List.length_nil]; omega)
        (by simp) (by exact ⟨hkeptok.1, hmovedok.1, trivial⟩) hbalr hsortr hfreshr
    have hinsEq : insert t lt x k = x2 := by
      rw [insert, if_pos hfull, hsplitEq', hx2eq]
      rfl
    obtain ⟨L1, L2, hLsplit, hLnew, hLb1, hLb2⟩ := hx2L
    have htr2 : traverse (BNode.node [x.keys.getD (t - 1) default] false
        [splitKept t x, splitMoved t x]) = traverse x := by
      have : traverse (BNode.node [x.keys.getD (t - 1) default] false
          [splitKept t x, splitMoved t x]) = travSeq [splitKept t x, splitMoved t x]
            [x.keys.getD (t - 1) default] := by
        simp [traverse]
      rw [this, htrav2]
    rw [htr2] at hLsplit
    rw [hinsEq]
    refine ⟨⟨?_, hx2bal, ?_⟩, ?_⟩
    · refine rootOk_intro ?_ ?_ hx2sub
      · simp only [keys_node, List.length_cons, List.length_nil] at hx2len
        omega
      · rw [show x2.leaf = false by rw [hx2leaf]; simp]
        simp only [Bool.false_eq_true, if_false]
        constructor
        · simp only [keys_node, List.length_cons, List.length_nil] at hx2len
          omega
        · rw [show x2.leaf = false by rw [hx2leaf]; simp] at hx2sh
          simpa using hx2sh
    · rw [hLnew]
      rw [hLsplit] at hsorted
      exact sortedLT_glue hsorted hLb1 hLb2
    · rw [hLnew, hLsplit]
      exact List.perm_middle
  · -- the root has room: no pre-split
    have hsh' : (if x.leaf = true then x.children = []
        else x.children.length = x.keys.length + 1) := by
      rcases hlf : x.leaf with - | -
      · rw [hlf] at hrsh
        simp only [if_false, Bool.false_eq_true] at hrsh ⊢
        exact hrsh.2
      · rw [hlf] at hrsh
        simpa using hrsh
    obtain ⟨x2, hx2eq, hx2L, hx2leaf, hx2len, hx2sh, hx2sub, hx2bal, hx2ht⟩ :=
      insertAux_spec t lt W ht (height x + 1) x k (by omega) (by omega)
        hsh' hrsub hbal hsorted hfresh
    have hinsEq : insert t lt x k = x2 := by
      rw [insert, if_neg hfull, hx2eq]
      rfl
    obtain ⟨L1, L2, hLsplit, hLnew, hLb1, hLb2⟩ := hx2L
    rw [hinsEq]
    refine ⟨⟨?_, hx2bal, ?_⟩, ?_⟩
    · refine rootOk_intro (by omega) ?_ hx2sub
      rcases hlf2 : x2.leaf with - | -
      · rw [hlf2] at hx2sh
        simp only [Bool.false_eq_true, if_false] at hx2sh ⊢
        refine ⟨?_, hx2sh⟩
        rw [hlf2] at hx2leaf
        rcases hlfx : x.leaf with - | -
        · rw [hlfx] at hrsh
          simp only [Bool.false_eq_true, if_false] at hrsh
          omega
        · rw [hlfx] at hx2leaf
          exact absurd hx2leaf.symm (by simp)
      · rw [hlf2] at hx2sh
        simpa using hx2sh
    · rw [hLnew]
      rw [hLsplit] at hsorted
      exact sortedLT_glue hsorted hLb1 hLb2
    · rw [hLnew, hLsplit]
      exact List.perm_middle

end BT

namespace BT

variable {T : Type} [Inhabited T]

/-- Under the structural discipline, being a leaf is the same as having
height 1. -/
theorem leaf_iff_height {t : Nat} {y : BNode T} (h : subOk t y) (ht : 2 ≤ t) :
    y.leaf = true ↔ height y = 1 := by
  obtain ⟨hb, hsh, hsub⟩ := subOk_elim h
  constructor
  · intro hlf
    rw [hlf] at hsh
    simp only [if_true] at hsh
    rcases y with ⟨a, b, c⟩
    simp only [children_node] at hsh
    subst hsh
    simp [height_node, heightList]
  · intro hht
    cases hlf : y.leaf with
    | true => rfl
    | false =>
        rw [hlf] at hsh
        simp only [Bool.false_eq_true, if_false] at hsh
        exfalso
        have hne : y.children ≠ [] := by
          intro hc
          rw [hc] at hsh
          simp only [List.length_nil] at hsh
          omega
        rcases hc : y.children with - | ⟨c0, rest⟩
        · exact hne hc
        · have : height c0 ≤ heightList y.children := by
            rw [hc, heightList]
            omega
          have hc0 : 1 ≤ height c0 := height_pos c0
          rcases y with ⟨a, b, cc⟩
          simp only [children_node] at hc this
          rw [height_node] at hht
          rw [hc] at hht
          rw [heightList] at hht
          omega

theorem getD_eraseIdx_lt {α : Type} (l : List α) (i u : Nat) (d : α) (hu : u < i) :
    (l.eraseIdx i).getD u d = l.getD u d := by
  induction l generalizing i u with
  | nil => simp
  | cons a l ih =>
      cases i with
      | zero => omega
      | succ i =>
          cases u with
          | zero => simp
          | succ u => simpa using ih i u (by omega)

theorem getD_eraseIdx_ge {α : Type} (l : List α) (i u : Nat) (d : α) (hu : i ≤ u) :
    (l.eraseIdx i).getD u d = l.getD (u + 1) d := by
  induction l generalizing i u with
  | nil => simp
  | cons a l ih =>
      cases i with
      | zero =>
          simp only [List.eraseIdx_cons_zero, List.getD_cons_succ]
      | succ i =>
          cases u with
          | zero => omega
          | succ u => simpa using ih i u (by omega)

/-- Decompose a child list around two adjacent positions. -/
theorem cs_decomp (cs : List (BNode T)) (i : Nat) (hi : i + 1 ≤ cs.length) (h1 : 1 ≤ i) :
    cs = cs.take (i - 1) ++ cs.getD (i - 1) default :: cs.getD i default
      :: cs.drop (i + 1) := by
  conv_lhs => rw [← List.take_append_drop (i - 1) cs]
  congr 1
  rw [drop_eq_getD_cons default (by omega : i - 1 < cs.length)]
  congr 1
  rw [show i - 1 + 1 = i by omega]
  rw [drop_eq_getD_cons default (by omega : i < cs.length)]

theorem ks_decomp (ks : List T) (j : Nat) (hj : j < ks.length) :
    ks = ks.take j ++ ks.getD j default :: ks.drop (j + 1) := by
  conv_lhs => rw [← List.take_append_drop j ks]
  congr 1
  rw [drop_eq_getD_cons default hj]

/-- The interleaved traversal of a merged pair of key/child runs. -/
theorem travSeq_merge (lkc : List (BNode T)) (lkk : List T) (kidc : List (BNode T))
    (kidk : List T) (sep : T) (h : lkc.length = lkk.length + 1) :
    travSeq (lkc ++ kidc) (lkk ++ sep :: kidk)
      = travSeq lkc lkk ++ sep :: travSeq kidc kidk := by
  have hB : lkc = lkc.dropLast ++ [lkc.getLast (by
      intro hc
      rw [hc] at h
      simp at h)] := by
    exact (List.dropLast_append_getLast _).symm
  rw [hB]
  rw [show (lkc.dropLast ++ [lkc.getLast _]) ++ kidc
      = lkc.dropLast ++ (lkc.getLast (by
          intro hc
          rw [hc] at h
          simp at h) :: kidc) by simp]
  rw [travSeq_append_eqlen _ _ _ _ (by
    rw [List.length_dropLast]
    omega) (by simp)]
  rw [travSeq_snoc_child _ _ _ (by rw [List.length_dropLast]; omega)]
  rw [travSeq_cons, travSeqK]
  simp [List.append_assoc]

/-- Traversal of the merged node: the left child, the separator, then the
right child. -/
theorem specMerge_traverse (ks : List T) (cs : List (BNode T)) (j : Nat) (t : Nat)
    (ht : 2 ≤ t)
    (hlen : cs.length = ks.length + 1) (hj : j < ks.length)
    (hsubL : subOk t (cs.getD j default)) (hsubR : subOk t (cs.getD (j + 1) default))
    (hleaf : (cs.getD j default).leaf = (cs.getD (j + 1) default).leaf) :
    traverse (specMerge (BNode.node ks false cs) j)
      = traverse (cs.getD j default) ++ ks.getD j default
        :: traverse (cs.getD (j + 1) default) := by
  obtain ⟨hbL, hshL, hsL⟩ := subOk_elim hsubL
  obtain ⟨hbR, hshR, hsR⟩ := subOk_elim hsubR
  rw [specMerge]
  simp only [children_node, keys_node]
  rcases hqL : cs.getD j default with ⟨Lk, Lf, Lc⟩
  rcases hqR : cs.getD (j + 1) default with ⟨Rk, Rf, Rc⟩
  rw [hqL] at hshL
  rw [hqR] at hshR
  rw [hqL, hqR] at hleaf
  simp only [keys_node, leaf_node, children_node] at hshL hshR hleaf
  subst hleaf
  simp only [keys_node, leaf_node, children_node]
  cases hLf : Lf with
  | true =>
      rw [hLf] at hshL hshR
      simp only [if_true] at hshL hshR
      subst hshL
      subst hshR
      simp [traverse, travSeq]
  | false =>
      rw [hLf] at hshL hshR
      simp only [Bool.false_eq_true, if_false] at hshL hshR
      simp only [traverse, Bool.false_eq_true, if_false]
      rw [travSeq_merge Lc Lk Rc Rk (ks.getD j default) (by omega)]

end BT

namespace BT

variable {T : Type} [Inhabited T]

theorem dropLast_append_getD {α : Type} (l : List α) (d : α) (hne : l ≠ []) :
    l.dropLast ++ [l.getD (l.length - 1) d] = l := by
  have hlen : 0 < l.length := List.length_pos.mpr hne
  conv_rhs => rw [← List.dropLast_append_getLast hne]
  congr 2
  rw [List.getLast_eq_getElem, List.getD_eq_getElem?_getD,
    List.getElem?_eq_getElem (by omega : l.length - 1 < l.length)]
  rfl

theorem set_append_cons_succ {α : Type} (A : List α) (b : α) (B : List α) (v : α)
    (n : Nat) (h : n = A.length + 1) : (A ++ b :: B).set n v = A ++ b :: B.set 0 v := by
  subst h
  induction A with
  | nil => simp
  | cons a A ih => simpa using ih

theorem set_append_len_g {α : Type} (A B : List α) (v : α) (n : Nat)
    (h : n = A.length) : (A ++ B).set n v = A ++ B.set 0 v := by
  subst h
  induction A with
  | nil => simp
  | cons a A ih => simpa using ih

/-- The left-rotation exchanges the borrowed pieces without changing the
in-order word of the two children around their separator. -/
theorem rotatePair_traverse (lk kid : BNode T) (sep : T)
    (hlkkeys : 1 ≤ lk.keys.length)
    (hlksh : if lk.leaf = true then lk.children = []
             else lk.children.length = lk.keys.length + 1)
    (hkidsh : if kid.leaf = true then kid.children = []
              else kid.children.length = kid.keys.length + 1)
    (hleaf : lk.leaf = kid.leaf) :
    traverse (BNode.node lk.keys.dropLast lk.leaf
        (if lk.leaf = true then [] else lk.children.dropLast))
      ++ lk.keys.getD (lk.keys.length - 1) default
      :: traverse (BNode.node (sep :: kid.keys) kid.leaf
           (if kid.leaf = true then [] else
             lk.children.getD (lk.children.length - 1) default :: kid.children))
    = traverse lk ++ sep :: traverse kid := by
  rcases lk with ⟨Lk, Lf, Lc⟩
  rcases kid with ⟨Kk, Kf, Kc⟩
  simp only [keys_node, leaf_node, children_node] at hlkkeys hlksh hkidsh hleaf ⊢
  subst hleaf
  cases hLf : Lf with
  | true =>
      rw [hLf] at hlksh hkidsh
      simp only [if_true] at hlksh hkidsh
      subst hlksh
      subst hkidsh
      simp only [if_true, traverse]
      rw [show Lk.dropLast ++ Lk.getD (Lk.length - 1) default :: sep :: Kk
          = (Lk.dropLast ++ [Lk.getD (Lk.length - 1) default]) ++ sep :: Kk by simp]
      rw [dropLast_append_getD Lk default (by
        intro hc
        rw [hc] at hlkkeys
        simp at hlkkeys)]
  | false =>
      rw [hLf] at hlksh hkidsh
      simp only [Bool.false_eq_true, if_false] at hlksh hkidsh
      simp only [Bool.false_eq_true, if_false, traverse]
      have hLcne : Lc ≠ [] := by
        intro hc
        rw [hc] at hlksh
        simp at hlksh
      have hLkne : Lk ≠ [] := by
        intro hc
        rw [hc] at hlkkeys
        simp at hlkkeys
      have hsnoc : travSeq Lc Lk
          = travSeq Lc.dropLast Lk.dropLast ++ Lk.getD (Lk.length - 1) default
            :: traverse (Lc.getD (Lc.length - 1) default) := by
        conv_lhs => rw [← dropLast_append_getD Lc default hLcne,
          ← dropLast_append_getD Lk default hLkne]
        rw [travSeq_snoc_both _ _ _ _ (by
          rw [List.length_dropLast, List.length_dropLast]
          omega)]
      rw [hsnoc]
      rw [show travSeq (Lc.getD (Lc.length - 1) default :: Kc) (sep :: Kk)
          = traverse (Lc.getD (Lc.length - 1) default) ++ sep :: travSeq Kc Kk from rfl]
      simp [List.append_assoc]

end BT

namespace BT

variable {T : Type} [Inhabited T]

/-- The shrunken left sibling of a left-rotation is still a sound node of the
same height. -/
theorem rotateLeft_lk2_ok (t : Nat) (ht : 2 ≤ t) (lk : BNode T)
    (hsub : subOk t lk) (hbal : balanced lk) (hlk : t ≤ lk.keys.length) :
    subOk t (BNode.node lk.keys.dropLast lk.leaf
      (if lk.leaf = true then [] else lk.children.dropLast)) ∧
    balanced (BNode.node lk.keys.dropLast lk.leaf
      (if lk.leaf = true then [] else lk.children.dropLast)) ∧
    height (BNode.node lk.keys.dropLast lk.leaf
      (if lk.leaf = true then [] else lk.children.dropLast)) = height lk := by
  obtain ⟨hb, hsh, hsubc⟩ := subOk_elim hsub
  rcases lk with ⟨Lk, Lf, Lc⟩
  simp only [keys_node, leaf_node, children_node] at hb hsh hsubc hlk ⊢
  cases hLf : Lf with
  | true =>
      rw [hLf] at hsh
      simp only [if_true] at hsh ⊢
      subst hsh
      refine ⟨?_, by simp [balanced], by simp [height_node, heightList]⟩
      rw [subOk]
      simp only [keys_node, leaf_node, children_node, if_true, List.length_dropLast]
      exact ⟨⟨by omega, by omega⟩, trivial, trivial⟩
  | false =>
      rw [hLf] at hsh
      simp only [Bool.false_eq_true, if_false] at hsh ⊢
      rw [balanced] at hbal
      rw [hLf] at hbal
      simp only [Bool.false_eq_true, if_false] at hbal
      obtain ⟨hbc, hhts⟩ := hbal
      have hdl : Lc.dropLast = Lc.take (Lc.length - 1) := List.dropLast_eq_take Lc
      have hdlne : Lc.dropLast ≠ [] := by
        rw [hdl]
        intro hc
        have : (Lc.take (Lc.length - 1)).length = Lc.length - 1 := by
          rw [List.length_take]
          omega
        rw [hc] at this
        simp at this
        omega
      have hhtake : heightsAll (heightList Lc) Lc.dropLast := by
        rw [hdl]
        exact heightsAll_take hhts _
      have hhl : heightList Lc.dropLast = heightList Lc :=
        heightList_of_heightsAll hhtake hdlne
      refine ⟨?_, ?_, ?_⟩
      · rw [subOk]
        simp only [keys_node, leaf_node, children_node, Bool.false_eq_true, if_false,
          List.length_dropLast]
        refine ⟨⟨by omega, by omega⟩, by omega, ?_⟩
        rw [hdl]
        exact subAll_take hsubc _
      · rw [balanced]
        simp only [Bool.false_eq_true, if_false]
        exact ⟨by rw [hdl]; exact balancedAll_take hbc _, hhl ▸ hhtake⟩
      · rw [height_node, height_node, hhl]

theorem balanced_elim {y : BNode T} (hlf : y.leaf = false) (h : balanced y) :
    balancedAll y.children ∧ heightsAll (heightList y.children) y.children := by
  rcases y with ⟨a, b, c⟩
  simp only [leaf_node] at hlf
  subst hlf
  rw [balanced] at h
  simpa using h

theorem balanced_intro_leaf {y : BNode T} (hlf : y.leaf = true) : balanced y := by
  rcases y with ⟨a, b, c⟩
  simp only [leaf_node] at hlf
  subst hlf
  rw [balanced]
  simp

theorem balanced_intro {y : BNode T} (hlf : y.leaf = false)
    (h1 : balancedAll y.children)
    (h2 : heightsAll (heightList y.children) y.children) : balanced y := by
  rcases y with ⟨a, b, c⟩
  simp only [leaf_node] at hlf
  subst hlf
  rw [balanced]
  simp only [children_node, Bool.false_eq_true, if_false]
  exact ⟨by simpa using h1, by simpa using h2⟩

theorem height_children (y : BNode T) : height y = heightList y.children + 1 := by
  rcases y with ⟨a, b, c⟩
  simp [height_node]

/-- The enlarged deficient child of a left-rotation is a sound node with
exactly `t` keys, of the same height. -/
theorem rotateLeft_kid2_ok (t : Nat) (ht : 2 ≤ t) (lk kid : BNode T) (sep : T)
    (hsubL : subOk t lk) (hbalL : balanced lk) (hlk : t ≤ lk.keys.length)
    (hsubK : subOk t kid) (hbalK : balanced kid) (hkid : kid.keys.length = t - 1)
    (hleaf : lk.leaf = kid.leaf) (hheq : height lk = height kid) :
    subOk t (BNode.node (sep :: kid.keys) kid.leaf
      (if kid.leaf = true then [] else
        lk.children.getD (lk.children.length - 1) default :: kid.children)) ∧
    balanced (BNode.node (sep :: kid.keys) kid.leaf
      (if kid.leaf = true then [] else
        lk.children.getD (lk.children.length - 1) default :: kid.children)) ∧
    height (BNode.node (sep :: kid.keys) kid.leaf
      (if kid.leaf = true then [] else
        lk.children.getD (lk.children.length - 1) default :: kid.children))
      = height kid := by
  obtain ⟨hbL, hshL, hsubcL⟩ := subOk_elim hsubL
  obtain ⟨hbK, hshK, hsubcK⟩ := subOk_elim hsubK
  cases hKf : kid.leaf with
  | true =>
      rw [hKf] at hshK
      simp only [if_true] at hshK
      simp only [eq_self_iff_true, if_true]
      refine ⟨?_, balanced_intro_leaf (by simp), ?_⟩
      · rw [subOk]
        simp only [keys_node, leaf_node, children_node, eq_self_iff_true, if_true,
          List.length_cons]
        exact ⟨⟨by omega, by omega⟩, trivial, trivial⟩
      · rw [height_node, heightList]
        rw [height_children kid, hshK]
        rfl
  | false =>
      have hLf : lk.leaf = false := by rw [hleaf, hKf]
      rw [hKf] at hshK
      rw [hLf] at hshL
      simp only [Bool.false_eq_true, if_false] at hshK hshL ⊢
      obtain ⟨hbcL, hhtsL⟩ := balanced_elim hLf hbalL
      obtain ⟨hbcK, hhtsK⟩ := balanced_elim hKf hbalK
      have hLcne : 0 < lk.children.length := by omega
      have hlastsub : subOk t (lk.children.getD (lk.children.length - 1) default) :=
        subAll_getD hsubcL _ (by omega)
      have hlastbal : balanced (lk.children.getD (lk.children.length - 1) default) :=
        balancedAll_getD hbcL _ (by omega)
      have hlastht : height (lk.children.getD (lk.children.length - 1) default)
          = heightList lk.children :=
        heightsAll_getD _ _ hhtsL _ (by omega)
      have hhLK : heightList lk.children = heightList kid.children := by
        have h1 := height_children lk
        have h2 := height_children kid
        omega
      have hhtsK2 : heightsAll (heightList kid.children)
          (lk.children.getD (lk.children.length - 1) default :: kid.children) :=
        ⟨by rw [hlastht, hhLK], hhtsK⟩
      have hhl2 : heightList
          (lk.children.getD (lk.children.length - 1) default :: kid.children)
          = heightList kid.children :=
        heightList_of_heightsAll hhtsK2 (by simp)
      refine ⟨?_, ?_, ?_⟩
      · rw [subOk]
        simp only [keys_node, leaf_node, children_node, Bool.false_eq_true, if_false,
          List.length_cons]
        exact ⟨⟨by omega, by omega⟩, by omega, hlastsub, hsubcK⟩
      · refine balanced_intro (by simp) ?_ ?_
        · simp only [children_node]
          exact ⟨hlastbal, hbcK⟩
        · simp only [children_node]
          exact hhl2 ▸ hhtsK2
      · rw [height_node, hhl2, height_children kid]

end BT

namespace BT

variable {T : Type} [Inhabited T]

/-- Borrow-from-left-sibling under the sorted invariant: the parent key at
`i-1` is replaced by a strictly smaller key, the traversal is unchanged, the
structure is intact, and the fixed child `i` now holds exactly `t` keys. -/
theorem fix_bl_spec (t : Nat) (lt : T → T → Bool) (W : WeakOrder lt) (ks : List T)
    (cs : List (BNode T)) (i : Nat) (ht : 2 ≤ t)
    (hlen : cs.length = ks.length + 1) (hi1 : 1 ≤ i) (hi : i ≤ ks.length)
    (hsub : subAll t cs) (hbalA : balancedAll cs)
    (hhts : heightsAll (heightList cs) cs)
    (hsorted : sortedLT lt (travSeq cs ks))
    (hkid : (cs.getD i default).keys.length = t - 1)
    (hlk : t ≤ (cs.getD (i - 1) default).keys.length) :
    ∃ w cs2,
      fixChildSize t lt (BNode.node ks false cs) i =
        .modified (BNode.node (ks.set (i - 1) w) false cs2) ∧
      lt w (ks.getD (i - 1) default) = true ∧
      travSeq cs2 (ks.set (i - 1) w) = travSeq cs ks ∧
      cs2.length = cs.length ∧
      subAll t cs2 ∧ balancedAll cs2 ∧ heightsAll (heightList cs) cs2 ∧
      (cs2.getD i default).keys.length = t := by
  have hics : i < cs.length := by omega
  have hi1cs : i - 1 < cs.length := by omega
  have hkidsub : subOk t (cs.getD i default) := subAll_getD hsub i hics
  have hlksub : subOk t (cs.getD (i - 1) default) := subAll_getD hsub (i - 1) hi1cs
  have hkbal : balanced (cs.getD i default) := balancedAll_getD hbalA i hics
  have hlbal : balanced (cs.getD (i - 1) default) := balancedAll_getD hbalA (i - 1) hi1cs
  have hkh : height (cs.getD i default) = heightList cs := heightsAll_getD _ cs hhts i hics
  have hlh : height (cs.getD (i - 1) default) = heightList cs :=
    heightsAll_getD _ cs hhts (i - 1) hi1cs
  have hleafEq : (cs.getD (i - 1) default).leaf = (cs.getD i default).leaf := by
    have h1 := leaf_iff_height hlksub ht
    have h2 := leaf_iff_height hkidsub ht
    rw [hlh] at h1
    rw [hkh] at h2
    cases hq1 : (cs.getD (i - 1) default).leaf with
    | true =>
        have := h1.mp hq1
        cases hq2 : (cs.getD i default).leaf with
        | true => rfl
        | false =>
            rw [← h2] at this
            rw [hq2] at this
            exact this.symm
    | false =>
        cases hq2 : (cs.getD i default).leaf with
        | true =>
            have := h2.mp hq2
            rw [← h1] at this
            rw [hq1] at this
            exact this
        | false => rfl
  have hstr : ∀ e ∈ (cs.getD i default).keys, lt (ks.getD (i - 1) default) e = true := by
    intro e he
    have h := rel_sep_child (R := fun u v => lt u v = true) (i - 1) cs ks hlen
      (by omega) hsorted
    rw [show i - 1 + 1 = i by omega] at h
    exact h e ((keys_sublist_traverse _).mem he)
  have heq := fix_borrowLeft t lt ks cs i ht hkid (subOk_elim hkidsub).2.1 (by omega)
    hlk (subOk_elim hlksub).2.1 hstr
  obtain ⟨LK, hLK⟩ : ∃ y, cs.getD (i - 1) default = y := ⟨_, rfl⟩
  obtain ⟨KD, hKD⟩ : ∃ y, cs.getD i default = y := ⟨_, rfl⟩
  rw [hLK] at hlksub hlbal hlh hlk
  rw [hKD] at hkidsub hkbal hkh hkid
  rw [hLK, hKD] at hleafEq
  have hkidsh := (subOk_elim hkidsub).2.1
  have hlksh := (subOk_elim hlksub).2.1
  have hlk2ok := rotateLeft_lk2_ok t ht LK hlksub hlbal hlk
  have hkid2ok := rotateLeft_kid2_ok t ht LK KD (ks.getD (i - 1) default) hlksub hlbal
    hlk hkidsub hkbal hkid hleafEq (by rw [hkh, hlh])
  refine ⟨LK.keys.getD (LK.keys.length - 1) default,
    cs.take (i - 1)
      ++ (BNode.node LK.keys.dropLast LK.leaf
          (if LK.leaf = true then [] else LK.children.dropLast))
      :: (BNode.node (ks.getD (i - 1) default :: KD.keys) KD.leaf
          (if KD.leaf = true then []
           else LK.children.getD (LK.children.length - 1) default :: KD.children))
      :: cs.drop (i + 1), ?_, ?_, ?_, ?_, ?_, ?_, ?_, ?_⟩
  · rw [heq, specRotateLeft]
    simp only [keys_node, children_node, leaf_node, hLK, hKD]
    congr 1
    conv_lhs => rw [cs_decomp cs i (by omega) hi1]
    rw [hLK, hKD]
    rw [set_append_len_g _ _ _ _ (by rw [List.length_take]; omega)]
    rw [List.set_cons_zero]
    rw [set_append_cons_succ _ _ _ _ _ (by rw [List.length_take]; omega)]
    rw [List.set_cons_zero]
  · have hmem : LK.keys.getD (LK.keys.length - 1) default ∈ traverse LK :=
      (keys_sublist_traverse _).mem (getD_mem _ _ _ (by omega))
    have h := rel_child_sep (R := fun u v => lt u v = true) (i - 1) cs ks hlen
      (by omega) hsorted
    rw [hLK] at h
    exact h _ hmem
  · -- traversal preservation
    have hK : ks.set (i - 1) (LK.keys.getD (LK.keys.length - 1) default)
        = ks.take (i - 1) ++ (LK.keys.getD (LK.keys.length - 1) default) :: ks.drop i := by
      conv_lhs => rw [ks_decomp ks (i - 1) (by omega)]
      rw [set_append_len_g _ _ _ _ (by rw [List.length_take]; omega)]
      rw [List.set_cons_zero, show i - 1 + 1 = i by omega]
    have hRHS : travSeq cs ks
        = travSeq (cs.take (i - 1)) (ks.take (i - 1))
          ++ (traverse LK ++ ks.getD (i - 1) default
            :: (traverse KD ++ travSeqK (ks.drop i) (cs.drop (i + 1)))) := by
      rw [travSeq_split_key (i - 1) cs ks hlen (by omega)]
      rw [travSeq_take_child (i - 1) cs ks hlen (by omega)]
      rw [show i - 1 + 1 = i by omega]
      rw [drop_eq_getD_cons (l := cs) default (by omega : i < cs.length)]
      rw [travSeq_cons, hLK, hKD]
      simp [List.append_assoc]
    rw [hK, hRHS]
    rw [travSeq_append_eqlen _ _ _ _ (by simp only [List.length_take]; omega) (by simp)]
    congr 1
    rw [show travSeq ((BNode.node LK.keys.dropLast LK.leaf
          (if LK.leaf = true then [] else LK.children.dropLast))
        :: (BNode.node (ks.getD (i - 1) default :: KD.keys) KD.leaf
            (if KD.leaf = true then []
             else LK.children.getD (LK.children.length - 1) default :: KD.children))
        :: cs.drop (i + 1)) ((LK.keys.getD (LK.keys.length - 1) default) :: ks.drop i)
        = traverse (BNode.node LK.keys.dropLast LK.leaf
            (if LK.leaf = true then [] else LK.children.dropLast))
          ++ (LK.keys.getD (LK.keys.length - 1) default)
          :: travSeq ((BNode.node (ks.getD (i - 1) default :: KD.keys) KD.leaf
              (if KD.leaf = true then []
               else LK.children.getD (LK.children.length - 1) default :: KD.children))
            :: cs.drop (i + 1)) (ks.drop i) from rfl]
    rw [travSeq_cons]
    have hrp := rotatePair_traverse LK KD (ks.getD (i - 1) default) (by omega)
      hlksh hkidsh hleafEq
    have h2 := congrArg (· ++ travSeqK (ks.drop i) (cs.drop (i + 1))) hrp
    simp only [List.append_assoc, List.cons_append] at h2 ⊢
    exact h2
  · simp only [List.length_append, List.length_take, List.length_cons, List.length_drop]
    omega
  · refine subAll_append (subAll_take hsub (i - 1)) ?_
    exact ⟨hlk2ok.1, hkid2ok.1, subAll_drop hsub (i + 1)⟩
  · refine balancedAll_append (balancedAll_take hbalA (i - 1)) ?_
    exact ⟨hlk2ok.2.1, hkid2ok.2.1, balancedAll_drop hbalA (i + 1)⟩
  · refine heightsAll_append (heightsAll_take hhts (i - 1)) ?_
    exact ⟨by rw [hlk2ok.2.2, hlh], by rw [hkid2ok.2.2, hkh],
      heightsAll_drop hhts (i + 1)⟩
  · rw [show cs.take (i - 1)
        ++ (BNode.node LK.keys.dropLast LK.leaf
            (if LK.leaf = true then [] else LK.children.dropLast))
        :: (BNode.node (ks.getD (i - 1) default :: KD.keys) KD.leaf
            (if KD.leaf = true then []
             else LK.children.getD (LK.children.length - 1) default :: KD.children))
        :: cs.drop (i + 1)
        = (cs.take (i - 1) ++ [BNode.node LK.keys.dropLast LK.leaf
            (if LK.leaf = true then [] else LK.children.dropLast)])
          ++ (BNode.node (ks.getD (i - 1) default :: KD.keys) KD.leaf
            (if KD.leaf = true then []
             else LK.children.getD (LK.children.length - 1) default :: KD.children))
          :: cs.drop (i + 1) by simp]
    rw [getD_append_len_of _ _ _ _ _ (by
      simp only [List.length_append, List.length_take, List.length_cons, List.length_nil]
      omega)]
    simp only [keys_node, List.length_cons]
    omega

end BT

namespace BT

variable {T : Type} [Inhabited T]

theorem getD_cons_tail {α : Type} (l : List α) (d : α) (hne : l ≠ []) :
    l = l.getD 0 d :: l.tail := by
  have h0 : 0 < l.length := List.length_pos.mpr hne
  have := drop_eq_getD_cons (l := l) d h0
  rw [List.drop_zero] at this
  rw [this]
  simp [List.drop_one]

/-- The shrunken right sibling of a right-rotation is still a sound node of
the same height. -/
theorem rotateRight_rk2_ok (t : Nat) (ht : 2 ≤ t) (rk : BNode T)
    (hsub : subOk t rk) (hbal : balanced rk) (hrk : t ≤ rk.keys.length) :
    subOk t (BNode.node rk.keys.tail rk.leaf rk.children.tail) ∧
    balanced (BNode.node rk.keys.tail rk.leaf rk.children.tail) ∧
    height (BNode.node rk.keys.tail rk.leaf rk.children.tail) = height rk := by
  obtain ⟨hb, hsh, hsubc⟩ := subOk_elim hsub
  cases hRf : rk.leaf with
  | true =>
      rw [hRf] at hsh
      simp only [if_true] at hsh
      rw [hsh]
      refine ⟨?_, balanced_intro_leaf (by simp [hRf]), ?_⟩
      · rw [subOk]
        simp only [keys_node, leaf_node, children_node, List.length_tail, hRf, if_true,
          List.tail_nil]
        exact ⟨⟨by omega, by omega⟩, trivial, trivial⟩
      · rw [height_node]
        rw [height_children rk, hsh]
        simp [heightList]
  | false =>
      rw [hRf] at hsh
      simp only [Bool.false_eq_true, if_false] at hsh
      obtain ⟨hbc, hhts⟩ := balanced_elim hRf hbal
      have htail : rk.children.tail = rk.children.drop 1 := by simp [List.drop_one]
      have htne : rk.children.tail ≠ [] := by
        rw [htail]
        intro hc
        have : (rk.children.drop 1).length = rk.children.length - 1 := by
          rw [List.length_drop]
        rw [hc] at this
        simp at this
        omega
      have hhtake : heightsAll (heightList rk.children) rk.children.tail := by
        rw [htail]
        exact heightsAll_drop hhts 1
      have hhl : heightList rk.children.tail = heightList rk.children :=
        heightList_of_heightsAll hhtake htne
      refine ⟨?_, ?_, ?_⟩
      · rw [subOk]
        simp only [keys_node, leaf_node, children_node, List.length_tail, hRf,
          Bool.false_eq_true, if_false]
        refine ⟨⟨by omega, by omega⟩, by omega, ?_⟩
        rw [htail]
        exact subAll_drop hsubc 1
      · refine balanced_intro (by simp [hRf]) ?_ ?_
        · simp only [children_node]
          rw [htail]
          exact balancedAll_drop hbc 1
        · simp only [children_node]
          exact hhl ▸ hhtake
      · rw [height_node, hhl, height_children rk]

/-- The enlarged deficient child of a right-rotation is a sound node with
exactly `t` keys, of the same height. -/
theorem rotateRight_kid2_ok (t : Nat) (ht : 2 ≤ t) (kid rk : BNode T) (sep : T)
    (hsubK : subOk t kid) (hbalK : balanced kid) (hkid : kid.keys.length = t - 1)
    (hsubR : subOk t rk) (hbalR : balanced rk) (hrk : t ≤ rk.keys.length)
    (hleaf : kid.leaf = rk.leaf) (hheq : height kid = height rk) :
    subOk t (BNode.node (kid.keys ++ [sep]) kid.leaf
      (if kid.leaf = true then []
       else kid.children ++ [rk.children.getD 0 default])) ∧
    balanced (BNode.node (kid.keys ++ [sep]) kid.leaf
      (if kid.leaf = true then []
       else kid.children ++ [rk.children.getD 0 default])) ∧
    height (BNode.node (kid.keys ++ [sep]) kid.leaf
      (if kid.leaf = true then []
       else kid.children ++ [rk.children.getD 0 default])) = height kid := by
  obtain ⟨hbK, hshK, hsubcK⟩ := subOk_elim hsubK
  obtain ⟨hbR, hshR, hsubcR⟩ := subOk_elim hsubR
  cases hKf : kid.leaf with
  | true =>
      rw [hKf] at hshK
      simp only [if_true] at hshK
      simp only [eq_self_iff_true, if_true]
      refine ⟨?_, balanced_intro_leaf (by simp), ?_⟩
      · rw [subOk]
        simp only [keys_node, leaf_node, children_node, eq_self_iff_true, if_true,
          List.length_append, List.length_cons, List.length_nil]
        exact ⟨⟨by omega, by omega⟩, trivial, trivial⟩
      · rw [height_node, heightList, height_children kid, hshK]
        rfl
  | false =>
      have hRfv : rk.leaf = false := by rw [← hleaf, hKf]
      rw [hKf] at hshK
      rw [hRfv] at hshR
      simp only [Bool.false_eq_true, if_false] at hshK hshR ⊢
      obtain ⟨hbcK, hhtsK⟩ := balanced_elim hKf hbalK
      obtain ⟨hbcR, hhtsR⟩ := balanced_elim hRfv hbalR
      have hRcpos : 0 < rk.children.length := by omega
      have hr0sub : subOk t (rk.children.getD 0 default) := subAll_getD hsubcR 0 hRcpos
      have hr0bal : balanced (rk.children.getD 0 default) :=
        balancedAll_getD hbcR 0 hRcpos
      have hr0ht : height (rk.children.getD 0 default) = heightList rk.children :=
        heightsAll_getD _ _ hhtsR 0 hRcpos
      have hhKR : heightList kid.children = heightList rk.children := by
        have h1 := height_children kid
        have h2 := height_children rk
        omega
      have hhtsK2 : heightsAll (heightList kid.children)
          (kid.children ++ [rk.children.getD 0 default]) :=
        heightsAll_append hhtsK ⟨by rw [hr0ht, hhKR], trivial⟩
      have hne2 : kid.children ++ [rk.children.getD 0 default] ≠ [] := by simp
      have hhl2 : heightList (kid.children ++ [rk.children.getD 0 default])
          = heightList kid.children :=
        heightList_of_heightsAll hhtsK2 hne2
      refine ⟨?_, ?_, ?_⟩
      · rw [subOk]
        simp only [keys_node, leaf_node, children_node, Bool.false_eq_true, if_false,
          List.length_append, List.length_cons, List.length_nil]
        refine ⟨⟨by omega, by omega⟩, by omega, ?_⟩
        exact subAll_append hsubcK ⟨hr0sub, trivial⟩
      · refine balanced_intro (by simp) ?_ ?_
        · simp only [children_node]
          exact balancedAll_append hbcK ⟨hr0bal, trivial⟩
        · simp only [children_node]
          exact hhl2 ▸ hhtsK2
      · rw [height_node, hhl2, height_children kid]

/-- The right-rotation exchanges the borrowed pieces without changing the
in-order word of the two children around their separator. -/
theorem rotatePairR_traverse (kid rk : BNode T) (sep : T)
    (hrkkeys : 1 ≤ rk.keys.length)
    (hkidsh : if kid.leaf = true then kid.children = []
              else kid.children.length = kid.keys.length + 1)
    (hrksh : if rk.leaf = true then rk.children = []
             else rk.children.length = rk.keys.length + 1)
    (hleaf : kid.leaf = rk.leaf) :
    traverse (BNode.node (kid.keys ++ [sep]) kid.leaf
        (if kid.leaf = true then []
         else kid.children ++ [rk.children.getD 0 default]))
      ++ rk.keys.getD 0 default
      :: traverse (BNode.node rk.keys.tail rk.leaf rk.children.tail)
    = traverse kid ++ sep :: traverse rk := by
  rcases kid with ⟨Kk, Kf, Kc⟩
  rcases rk with ⟨Rk, Rf, Rc⟩
  simp only [keys_node, leaf_node, children_node] at hrkkeys hkidsh hrksh hleaf ⊢
  subst hleaf
  cases hKf : Kf with
  | true =>
      rw [hKf] at hkidsh hrksh
      simp only [if_true] at hkidsh hrksh
      subst hkidsh
      subst hrksh
      simp only [if_true, traverse, List.tail_nil]
      rw [show (Kk ++ [sep]) ++ Rk.getD 0 default :: Rk.tail
          = Kk ++ sep :: (Rk.getD 0 default :: Rk.tail) by simp]
      rw [← getD_cons_tail Rk default (by
        intro hc
        rw [hc] at hrkkeys
        simp at hrkkeys)]
  | false =>
      rw [hKf] at hkidsh hrksh
      simp only [Bool.false_eq_true, if_false] at hkidsh hrksh
      simp only [Bool.false_eq_true, if_false, traverse]
      have hRkne : Rk ≠ [] := by
        intro hc
        rw [hc] at hrkkeys
        simp at hrkkeys
      have hRcne : Rc ≠ [] := by
        intro hc
        rw [hc] at hrksh
        simp only [List.length_nil] at hrksh
        omega
      rw [travSeq_snoc_both Kc Kk (Rc.getD 0 default) sep (by omega)]
      conv_rhs => rw [getD_cons_tail Rc default hRcne, getD_cons_tail Rk default hRkne]
      rw [show travSeq (Rc.getD 0 default :: Rc.tail) (Rk.getD 0 default :: Rk.tail)
          = traverse (Rc.getD 0 default) ++ Rk.getD 0 default :: travSeq Rc.tail Rk.tail
          from rfl]
      simp [List.append_assoc]

end BT

namespace BT

variable {T : Type} [Inhabited T]

/-- Borrow-from-right-sibling under the sorted invariant: the parent key at
`i` is replaced by a strictly larger key, the traversal is unchanged, the
structure is intact, and the fixed child `i` now holds exactly `t` keys. -/
theorem fix_br_spec (t : Nat) (lt : T → T → Bool) (W : WeakOrder lt) (ks : List T)
    (cs : List (BNode T)) (i : Nat) (ht : 2 ≤ t)
    (hlen : cs.length = ks.length + 1) (hi : i < ks.length)
    (hnoleft : ¬ (i ≠ 0 ∧ t ≤ (cs.getD (i - 1) default).keys.length))
    (hsub : subAll t cs) (hbalA : balancedAll cs)
    (hhts : heightsAll (heightList cs) cs)
    (hsorted : sortedLT lt (travSeq cs ks))
    (hkid : (cs.getD i default).keys.length = t - 1)
    (hrk : t ≤ (cs.getD (i + 1) default).keys.length) :
    ∃ w cs2,
      fixChildSize t lt (BNode.node ks false cs) i =
        .modified (BNode.node (ks.set i w) false cs2) ∧
      lt (ks.getD i default) w = true ∧
      travSeq cs2 (ks.set i w) = travSeq cs ks ∧
      cs2.length = cs.length ∧
      subAll t cs2 ∧ balancedAll cs2 ∧ heightsAll (heightList cs) cs2 ∧
      (cs2.getD i default).keys.length = t := by
  have hics : i < cs.length := by omega
  have hi1cs : i + 1 < cs.length := by omega
  have hkidsub : subOk t (cs.getD i default) := subAll_getD hsub i hics
  have hrksub : subOk t (cs.getD (i + 1) default) := subAll_getD hsub (i + 1) hi1cs
  have hkbal : balanced (cs.getD i default) := balancedAll_getD hbalA i hics
  have hrbal : balanced (cs.getD (i + 1) default) := balancedAll_getD hbalA (i + 1) hi1cs
  have hkh : height (cs.getD i default) = heightList cs := heightsAll_getD _ cs hhts i hics
  have hrh : height (cs.getD (i + 1) default) = heightList cs :=
    heightsAll_getD _ cs hhts (i + 1) hi1cs
  have hleafEq : (cs.getD i default).leaf = (cs.getD (i + 1) default).leaf := by
    have h1 := leaf_iff_height hkidsub ht
    have h2 := leaf_iff_height hrksub ht
    rw [hkh] at h1
    rw [hrh] at h2
    cases hq1 : (cs.getD i default).leaf with
    | true =>
        have := h1.mp hq1
        cases hq2 : (cs.getD (i + 1) default).leaf with
        | true => rfl
        | false =>
            rw [← h2] at this
            rw [hq2] at this
            exact this.symm
    | false =>
        cases hq2 : (cs.getD (i + 1) default).leaf with
        | true =>
            have := h2.mp hq2
            rw [← h1] at this
            rw [hq1] at this
            exact this
        | false => rfl
  have hsep : lt (ks.getD i default)
      ((cs.getD i default).keys.getD ((cs.getD i default).keys.length - 1) default)
      = false := by
    refine W.asym ?_
    have h := rel_child_sep (R := fun u v => lt u v = true) i cs ks hlen hi hsorted
    exact h _ ((keys_sublist_traverse _).mem (getD_mem _ _ _ (by omega)))
  have heq := fix_borrowRight t lt ks cs i ht hkid (subOk_elim hkidsub).2.1 hnoleft
    (by omega) hrk (subOk_elim hrksub).2.1 hsep
  obtain ⟨KD, hKD⟩ : ∃ y, cs.getD i default = y := ⟨_, rfl⟩
  obtain ⟨RK, hRK⟩ : ∃ y, cs.getD (i + 1) default = y := ⟨_, rfl⟩
  rw [hKD] at hkidsub hkbal hkh hkid
  rw [hRK] at hrksub hrbal hrh hrk
  rw [hKD, hRK] at hleafEq
  have hkidsh := (subOk_elim hkidsub).2.1
  have hrksh := (subOk_elim hrksub).2.1
  have hkid2ok := rotateRight_kid2_ok t ht KD RK (ks.getD i default) hkidsub hkbal
    hkid hrksub hrbal hrk hleafEq (by rw [hkh, hrh])
  have hrk2ok := rotateRight_rk2_ok t ht RK hrksub hrbal hrk
  refine ⟨RK.keys.getD 0 default,
    cs.take i
      ++ (BNode.node (KD.keys ++ [ks.getD i default]) KD.leaf
          (if KD.leaf = true then []
           else KD.children ++ [RK.children.getD 0 default]))
      :: (BNode.node RK.keys.tail RK.leaf RK.children.tail)
      :: cs.drop (i + 2), ?_, ?_, ?_, ?_, ?_, ?_, ?_, ?_⟩
  · rw [heq, specRotateRight]
    simp only [keys_node, children_node, leaf_node, hKD, hRK]
    congr 1
    conv_lhs => rw [cs_decomp cs (i + 1) (by omega) (by omega)]
    rw [show i + 1 - 1 = i by omega, hKD, hRK]
    rw [set_append_len_g _ _ _ _ (by rw [List.length_take]; omega)]
    rw [List.set_cons_zero]
    rw [set_append_cons_succ _ _ _ _ _ (by rw [List.length_take]; omega)]
    rw [List.set_cons_zero]
  · have hmem : RK.keys.getD 0 default ∈ traverse RK :=
      (keys_sublist_traverse _).mem (getD_mem _ _ _ (by omega))
    have h := rel_sep_child (R := fun u v => lt u v = true) i cs ks hlen hi hsorted
    rw [hRK] at h
    exact h _ hmem
  · -- traversal preservation
    have hK : ks.set i (RK.keys.getD 0 default)
        = ks.take i ++ (RK.keys.getD 0 default) :: ks.drop (i + 1) := by
      conv_lhs => rw [ks_decomp ks i (by omega)]
      rw [set_append_len_g _ _ _ _ (by rw [List.length_take]; omega)]
      rw [List.set_cons_zero]
    have hRHS : travSeq cs ks
        = travSeq (cs.take i) (ks.take i)
          ++ (traverse KD ++ ks.getD i default
            :: (traverse RK ++ travSeqK (ks.drop (i + 1)) (cs.drop (i + 2)))) := by
      rw [travSeq_split_key i cs ks hlen hi]
      rw [travSeq_take_child i cs ks hlen (by omega)]
      rw [drop_eq_getD_cons (l := cs) default (by omega : i + 1 < cs.length)]
      rw [travSeq_cons, hKD, hRK]
      simp [List.append_assoc]
    rw [hK, hRHS]
    rw [travSeq_append_eqlen _ _ _ _ (by simp only [List.length_take]; omega) (by simp)]
    congr 1
    rw [show travSeq ((BNode.node (KD.keys ++ [ks.getD i default]) KD.leaf
          (if KD.leaf = true then []
           else KD.children ++ [RK.children.getD 0 default]))
        :: (BNode.node RK.keys.tail RK.leaf RK.children.tail)
        :: cs.drop (i + 2)) ((RK.keys.getD 0 default) :: ks.drop (i + 1))
        = traverse (BNode.node (KD.keys ++ [ks.getD i default]) KD.leaf
            (if KD.leaf = true then []
             else KD.children ++ [RK.children.getD 0 default]))
          ++ (RK.keys.getD 0 default)
          :: travSeq ((BNode.node RK.keys.tail RK.leaf RK.children.tail)
            :: cs.drop (i + 2)) (ks.drop (i + 1)) from rfl]
    rw [travSeq_cons]
    have hrp := rotatePairR_traverse KD RK (ks.getD i default) (by omega)
      hkidsh hrksh hleafEq
    have h2 := congrArg (· ++ travSeqK (ks.drop (i + 1)) (cs.drop (i + 2))) hrp
    simp only [List.append_assoc, List.cons_append] at h2 ⊢
    exact h2
  · simp only [List.length_append, List.length_take, List.length_cons, List.length_drop]
    omega
  · refine subAll_append (subAll_take hsub i) ?_
    exact ⟨hkid2ok.1, hrk2ok.1, subAll_drop hsub (i + 2)⟩
  · refine balancedAll_append (balancedAll_take hbalA i) ?_
    exact ⟨hkid2ok.2.1, hrk2ok.2.1, balancedAll_drop hbalA (i + 2)⟩
  · refine heightsAll_append (heightsAll_take hhts i) ?_
    exact ⟨by rw [hkid2ok.2.2, hkh], by rw [hrk2ok.2.2, hrh],
      heightsAll_drop hhts (i + 2)⟩
  · rw [getD_append_len_of _ _ _ _ _ (by rw [List.length_take]; omega)]
    simp only [keys_node, List.length_append, List.length_cons, List.length_nil]
    omega

end BT

namespace BT

variable {T : Type} [Inhabited T]

theorem eraseIdx_append_len_g {α : Type} (A : List α) (b : α) (B : List α) (n : Nat)
    (h : n = A.length) : (A ++ b :: B).eraseIdx n = A ++ B := by
  subst h
  induction A with
  | nil => simp
  | cons a A ih => simpa using ih

theorem eraseIdx_append_cons_succ {α : Type} (A : List α) (b c : α) (B : List α) (n : Nat)
    (h : n = A.length + 1) : (A ++ b :: c :: B).eraseIdx n = A ++ b :: B := by
  subst h
  induction A with
  | nil => simp
  | cons a A ih => simpa using ih

/-- The merged node built by `mergeChildren` from two `t-1`-key siblings is a
sound full node of the children's height, and its traversal is the in-order
word of the merged pair. -/
theorem specMerge_ok (t : Nat) (ht : 2 ≤ t) (ks : List T) (cs : List (BNode T)) (j : Nat)
    (hlen : cs.length = ks.length + 1) (hj : j < ks.length)
    (hsub : subAll t cs) (hbalA : balancedAll cs)
    (hhts : heightsAll (heightList cs) cs)
    (hLk : (cs.getD j default).keys.length = t - 1)
    (hRk : (cs.getD (j + 1) default).keys.length = t - 1) :
    subOk t (specMerge (BNode.node ks false cs) j) ∧
    balanced (specMerge (BNode.node ks false cs) j) ∧
    height (specMerge (BNode.node ks false cs) j) = heightList cs ∧
    (specMerge (BNode.node ks false cs) j).keys.length = 2 * t - 1 ∧
    traverse (specMerge (BNode.node ks false cs) j)
      = traverse (cs.getD j default) ++ ks.getD j default
        :: traverse (cs.getD (j + 1) default) := by
  have hjcs : j < cs.length := by omega
  have hj1cs : j + 1 < cs.length := by omega
  have hsubL : subOk t (cs.getD j default) := subAll_getD hsub j hjcs
  have hsubR : subOk t (cs.getD (j + 1) default) := subAll_getD hsub (j + 1) hj1cs
  have hbalL : balanced (cs.getD j default) := balancedAll_getD hbalA j hjcs
  have hbalR : balanced (cs.getD (j + 1) default) := balancedAll_getD hbalA (j + 1) hj1cs
  have hhL : height (cs.getD j default) = heightList cs := heightsAll_getD _ cs hhts j hjcs
  have hhR : height (cs.getD (j + 1) default) = heightList cs :=
    heightsAll_getD _ cs hhts (j + 1) hj1cs
  have hleafEq : (cs.getD j default).leaf = (cs.getD (j + 1) default).leaf := by
    have h1 := leaf_iff_height hsubL ht
    have h2 := leaf_iff_height hsubR ht
    rw [hhL] at h1
    rw [hhR] at h2
    cases hq1 : (cs.getD j default).leaf with
    | true =>
        have := h1.mp hq1
        cases hq2 : (cs.getD (j + 1) default).leaf with
        | true => rfl
        | false =>
            rw [← h2] at this
            rw [hq2] at this
            exact this.symm
    | false =>
        cases hq2 : (cs.getD (j + 1) default).leaf with
        | true =>
            have := h2.mp hq2
            rw [← h1] at this
            rw [hq1] at this
            exact this
        | false => rfl
  have htrav := specMerge_traverse ks cs j t ht hlen hj hsubL hsubR hleafEq
  obtain ⟨hbL, hshL, hsubcL⟩ := subOk_elim hsubL
  obtain ⟨hbR, hshR, hsubcR⟩ := subOk_elim hsubR
  have hklen : (specMerge (BNode.node ks false cs) j).keys.length = 2 * t - 1 := by
    rw [specMerge]
    simp only [keys_node, children_node, List.length_append, List.length_cons]
    omega
  cases hLf : (cs.getD j default).leaf with
  | true =>
      have hRf : (cs.getD (j + 1) default).leaf = true := by rw [← hleafEq, hLf]
      rw [hLf] at hshL
      rw [hRf] at hshR
      simp only [if_true] at hshL hshR
      have hhL1 : heightList cs = 1 := by
        have h1 := (leaf_iff_height hsubL ht).mp hLf
        omega
      refine ⟨?_, ?_, ?_, hklen, htrav⟩
      · rw [specMerge, subOk]
        simp only [keys_node, leaf_node, children_node, List.length_append,
          List.length_cons, hLf, if_true]
        exact ⟨⟨by omega, by omega⟩, trivial, trivial⟩
      · rw [specMerge]
        refine balanced_intro_leaf ?_
        simp only [leaf_node]
        exact hLf
      · rw [specMerge, height_node]
        simp only [children_node, hLf, if_true, heightList]
        omega
  | false =>
      have hRf : (cs.getD (j + 1) default).leaf = false := by rw [← hleafEq, hLf]
      rw [hLf] at hshL
      rw [hRf] at hshR
      simp only [Bool.false_eq_true, if_false] at hshL hshR
      obtain ⟨hbcL, hhtsL⟩ := balanced_elim hLf hbalL
      obtain ⟨hbcR, hhtsR⟩ := balanced_elim hRf hbalR
      have hhLR : heightList (cs.getD j default).children
          = heightList (cs.getD (j + 1) default).children := by
        have h1 := height_children (cs.getD j default)
        have h2 := height_children (cs.getD (j + 1) default)
        omega
      have hall : heightsAll (heightList (cs.getD j default).children)
          ((cs.getD j default).children ++ (cs.getD (j + 1) default).children) :=
        heightsAll_append hhtsL (hhLR ▸ hhtsR)
      have hne : (cs.getD j default).children
          ++ (cs.getD (j + 1) default).children ≠ [] := by
        intro hc
        have := congrArg List.length hc
        simp only [List.length_append, List.length_nil] at this
        omega
      refine ⟨?_, ?_, ?_, hklen, htrav⟩
      · rw [specMerge, subOk]
        simp only [keys_node, leaf_node, children_node, List.length_append,
          List.length_cons, hLf, Bool.false_eq_true, if_false]
        refine ⟨⟨by omega, by omega⟩, by omega, ?_⟩
        exact subAll_append hsubcL hsubcR
      · rw [specMerge]
        refine balanced_intro (by simp only [leaf_node]; exact hLf) ?_ ?_
        · simp only [children_node, hLf, Bool.false_eq_true, if_false]
          exact balancedAll_append hbcL hbcR
        · simp only [children_node, hLf, Bool.false_eq_true, if_false]
          rw [heightList_of_heightsAll hall hne]
          exact hall
      · rw [specMerge, height_node]
        simp only [children_node, hLf, Bool.false_eq_true, if_false]
        rw [heightList_of_heightsAll hall hne]
        have h1 := height_children (cs.getD j default)
        omega

end BT

namespace BT

variable {T : Type} [Inhabited T]

/-- Merge-with-left-sibling under the sorted invariant: parent key `i-1` and
child `i` are absorbed into child `i-1`; the traversal is unchanged.  When the
parent had a single key the merged node is returned as the new root. -/
theorem fix_ml_spec (t : Nat) (lt : T → T → Bool) (W : WeakOrder lt) (ks : List T)
    (cs : List (BNode T)) (i : Nat) (ht : 2 ≤ t)
    (hlen : cs.length = ks.length + 1) (hi1 : 1 ≤ i) (hi : i ≤ ks.length)
    (hsub : subAll t cs) (hbalA : balancedAll cs)
    (hhts : heightsAll (heightList cs) cs)
    (hkid : (cs.getD i default).keys.length = t - 1)
    (hnoleft : ¬ (i ≠ 0 ∧ t ≤ (cs.getD (i - 1) default).keys.length))
    (hnoright : ¬ (i ≠ ks.length ∧ t ≤ (cs.getD (i + 1) default).keys.length)) :
    (1 < ks.length →
      ∃ cs2,
        fixChildSize t lt (BNode.node ks false cs) i =
          .modified (BNode.node (ks.eraseIdx (i - 1)) false cs2) ∧
        travSeq cs2 (ks.eraseIdx (i - 1)) = travSeq cs ks ∧
        cs2.length = cs.length - 1 ∧
        subAll t cs2 ∧ balancedAll cs2 ∧ heightsAll (heightList cs) cs2 ∧
        (cs2.getD (i - 1) default).keys.length = 2 * t - 1) ∧
    (ks.length = 1 →
      fixChildSize t lt (BNode.node ks false cs) i =
        .newRoot (specMerge (BNode.node ks false cs) (i - 1)) ∧
      traverse (specMerge (BNode.node ks false cs) (i - 1)) = travSeq cs ks ∧
      subOk t (specMerge (BNode.node ks false cs) (i - 1)) ∧
      balanced (specMerge (BNode.node ks false cs) (i - 1)) ∧
      height (specMerge (BNode.node ks false cs) (i - 1)) = heightList cs) := by
  have hlkLen : (cs.getD (i - 1) default).keys.length = t - 1 := by
    have h1 : ¬ t ≤ (cs.getD (i - 1) default).keys.length := by
      intro hc
      exact hnoleft ⟨by omega, hc⟩
    have h2 := (subOk_elim (subAll_getD hsub (i - 1) (by omega))).1
    omega
  have hkidlt : (cs.getD i default).keys.length < t := by omega
  have hM := specMerge_ok t ht ks cs (i - 1) hlen (by omega) hsub hbalA hhts hlkLen
    (by rw [show i - 1 + 1 = i by omega]; exact hkid)
  rw [show i - 1 + 1 = i by omega] at hM
  have hML := fix_mergeLeft t lt ks cs i hkidlt hnoleft hnoright (by omega) hi
  have hRHS : travSeq cs ks
      = travSeq (cs.take (i - 1)) (ks.take (i - 1))
        ++ (traverse (cs.getD (i - 1) default) ++ ks.getD (i - 1) default
          :: (traverse (cs.getD i default)
            ++ travSeqK (ks.drop i) (cs.drop (i + 1)))) := by
    rw [travSeq_split_key (i - 1) cs ks hlen (by omega)]
    rw [travSeq_take_child (i - 1) cs ks hlen (by omega)]
    rw [show i - 1 + 1 = i by omega]
    rw [drop_eq_getD_cons (l := cs) default (by omega : i < cs.length)]
    rw [travSeq_cons]
    simp [List.append_assoc]
  have hCs2 : (cs.eraseIdx i).set (i - 1) (specMerge (BNode.node ks false cs) (i - 1))
      = cs.take (i - 1) ++ specMerge (BNode.node ks false cs) (i - 1)
        :: cs.drop (i + 1) := by
    have hE : cs.eraseIdx i
        = cs.take (i - 1) ++ cs.getD (i - 1) default :: cs.drop (i + 1) := by
      conv_lhs => rw [cs_decomp cs i (by omega) hi1]
      rw [eraseIdx_append_cons_succ _ _ _ _ _ (by rw [List.length_take]; omega)]
    rw [hE, set_append_len_g _ _ _ _ (by rw [List.length_take]; omega),
      List.set_cons_zero]
  constructor
  · intro hgt
    refine ⟨cs.take (i - 1) ++ specMerge (BNode.node ks false cs) (i - 1)
      :: cs.drop (i + 1), ?_, ?_, ?_, ?_, ?_, ?_, ?_⟩
    · rw [hML.1 hgt, hCs2]
    · have hK : ks.eraseIdx (i - 1) = ks.take (i - 1) ++ ks.drop i := by
        conv_lhs => rw [ks_decomp ks (i - 1) (by omega)]
        rw [eraseIdx_append_len_g _ _ _ _ (by rw [List.length_take]; omega)]
        rw [show i - 1 + 1 = i by omega]
      rw [hK, hRHS]
      rw [travSeq_append_eqlen _ _ _ _ (by simp only [List.length_take]; omega)
        (by simp)]
      rw [travSeq_cons, hM.2.2.2.2]
      simp [List.append_assoc]
    · simp only [List.length_append, List.length_take, List.length_cons,
        List.length_drop]
      omega
    · refine subAll_append (subAll_take hsub (i - 1)) ?_
      exact ⟨hM.1, subAll_drop hsub (i + 1)⟩
    · refine balancedAll_append (balancedAll_take hbalA (i - 1)) ?_
      exact ⟨hM.2.1, balancedAll_drop hbalA (i + 1)⟩
    · refine heightsAll_append (heightsAll_take hhts (i - 1)) ?_
      exact ⟨hM.2.2.1, heightsAll_drop hhts (i + 1)⟩
    · rw [getD_append_len_of _ _ _ _ _ (by rw [List.length_take]; omega)]
      exact hM.2.2.2.1
  · intro h1
    have hieq : i = 1 := by omega
    refine ⟨hML.2 h1, ?_, hM.1, hM.2.1, hM.2.2.1⟩
    rw [hM.2.2.2.2, hRHS]
    have hcs1 : cs.drop (i + 1) = [] := by
      apply List.drop_eq_nil_of_le
      omega
    have hks1 : ks.drop i = [] := by
      apply List.drop_eq_nil_of_le
      omega
    have htk : cs.take (i - 1) = [] := by
      rw [hieq]
      rfl
    have htk2 : ks.take (i - 1) = [] := by
      rw [hieq]
      rfl
    rw [hcs1, hks1, htk, htk2, travSeqK]
    simp [travSeq]

/-- Merge-with-right-sibling (`i = 0`) under the sorted invariant. -/
theorem fix_mr_spec (t : Nat) (lt : T → T → Bool) (W : WeakOrder lt) (ks : List T)
    (cs : List (BNode T)) (ht : 2 ≤ t)
    (hlen : cs.length = ks.length + 1) (hks : 1 ≤ ks.length)
    (hsub : subAll t cs) (hbalA : balancedAll cs)
    (hhts : heightsAll (heightList cs) cs)
    (hkid : (cs.getD 0 default).keys.length = t - 1)
    (hnoright : ¬ (0 ≠ ks.length ∧ t ≤ (cs.getD 1 default).keys.length)) :
    (1 < ks.length →
      ∃ cs2,
        fixChildSize t lt (BNode.node ks false cs) 0 =
          .modified (BNode.node (ks.eraseIdx 0) false cs2) ∧
        travSeq cs2 (ks.eraseIdx 0) = travSeq cs ks ∧
        cs2.length = cs.length - 1 ∧
        subAll t cs2 ∧ balancedAll cs2 ∧ heightsAll (heightList cs) cs2 ∧
        (cs2.getD 0 default).keys.length = 2 * t - 1) ∧
    (ks.length = 1 →
      fixChildSize t lt (BNode.node ks false cs) 0 =
        .newRoot (specMerge (BNode.node ks false cs) 0) ∧
      traverse (specMerge (BNode.node ks false cs) 0) = travSeq cs ks ∧
      subOk t (specMerge (BNode.node ks false cs) 0) ∧
      balanced (specMerge (BNode.node ks false cs) 0) ∧
      height (specMerge (BNode.node ks false cs) 0) = heightList cs) := by
  have hrkLen : (cs.getD 1 default).keys.length = t - 1 := by
    have h1 : ¬ t ≤ (cs.getD 1 default).keys.length := by
      intro hc
      exact hnoright ⟨by omega, hc⟩
    have h2 := (subOk_elim (subAll_getD hsub 1 (by omega))).1
    omega
  have hkidlt : (cs.getD 0 default).keys.length < t := by omega
  have hM := specMerge_ok t ht ks cs 0 hlen (by omega) hsub hbalA hhts hkid hrkLen
  have hMR := fix_mergeRight t lt ks cs hkidlt hnoright hks
  have hRHS : travSeq cs ks
      = traverse (cs.getD 0 default) ++ ks.getD 0 default
        :: (traverse (cs.getD 1 default) ++ travSeqK (ks.drop 1) (cs.drop 2)) := by
    rw [travSeq_split_key 0 cs ks hlen (by omega)]
    rw [travSeq_take_child 0 cs ks hlen (by omega)]
    rw [drop_eq_getD_cons (l := cs) default (by omega : 1 < cs.length)]
    rw [travSeq_cons]
    simp [travSeq, List.append_assoc]
  have hCs2 : (cs.eraseIdx 1).set 0 (specMerge (BNode.node ks false cs) 0)
      = specMerge (BNode.node ks false cs) 0 :: cs.drop 2 := by
    have hE : cs.eraseIdx 1 = cs.getD 0 default :: cs.drop 2 := by
      conv_lhs => rw [cs_decomp cs 1 (by omega) (by omega)]
      rfl
    rw [hE, List.set_cons_zero]
  constructor
  · intro hgt
    refine ⟨specMerge (BNode.node ks false cs) 0 :: cs.drop 2, ?_, ?_, ?_, ?_, ?_, ?_, ?_⟩
    · rw [hMR.1 hgt, hCs2]
    · have hK : ks.eraseIdx 0 = ks.drop 1 := by
        conv_lhs => rw [ks_decomp ks 0 (by omega)]
        rfl
      rw [hK, hRHS, travSeq_cons, hM.2.2.2.2]
      simp [List.append_assoc]
    · simp only [List.length_cons, List.length_drop]
      omega
    · exact ⟨hM.1, subAll_drop hsub 2⟩
    · exact ⟨hM.2.1, balancedAll_drop hbalA 2⟩
    · exact ⟨hM.2.2.1, heightsAll_drop hhts 2⟩
    · simp only [List.getD_cons_zero]
      exact hM.2.2.2.1
  · intro h1
    refine ⟨hMR.2 h1, ?_, hM.1, hM.2.1, hM.2.2.1⟩
    rw [hM.2.2.2.2, hRHS]
    have hcs1 : cs.drop 2 = [] := by
      apply List.drop_eq_nil_of_le
      omega
    have hks1 : ks.drop 1 = [] := by
      apply List.drop_eq_nil_of_le
      omega
    rw [hcs1, hks1, travSeqK]
    simp

end BT

namespace BT

variable {T : Type} [Inhabited T]

theorem fix_noop (t : Nat) (lt : T → T → Bool) (ks : List T) (cs : List (BNode T))
    (i : Nat) (h : t ≤ (cs.getD i default).keys.length) :
    fixChildSize t lt (BNode.node ks false cs) i =
      .notModified (BNode.node ks false cs) := by
  rw [fixChildSize]
  simp only [children_node]
  rw [if_neg (by omega)]

/-- Dispatcher for the not-found descent step of `remove`: after the fix-up,
re-running `findIndex` lands on a child holding at least `t` keys, the
traversal is unchanged, and all structural facts persist; or the parent had a
single key, both children were minimal, and the merged node is the new
root. -/
theorem removeFix_spec (t : Nat) (lt : T → T → Bool) (W : WeakOrder lt)
    (ks : List T) (cs : List (BNode T)) (k : T) (i : Nat) (ht : 2 ≤ t)
    (hlen : cs.length = ks.length + 1) (hks1 : 1 ≤ ks.length)
    (hsub : subAll t cs) (hbalA : balancedAll cs)
    (hhts : heightsAll (heightList cs) cs)
    (hsorted : sortedLT lt (travSeq cs ks))
    (hfi : findIndex lt ks k = i)
    (hki : i < ks.length → lt k (ks.getD i default) = true) :
    (∃ ks2 cs2 i2,
      (fixChildSize t lt (BNode.node ks false cs) i
          = .modified (BNode.node ks2 false cs2) ∨
       fixChildSize t lt (BNode.node ks false cs) i
          = .notModified (BNode.node ks2 false cs2)) ∧
      travSeq cs2 ks2 = travSeq cs ks ∧
      cs2.length = ks2.length + 1 ∧
      ks.length - 1 ≤ ks2.length ∧ ks2.length ≤ ks.length ∧
      subAll t cs2 ∧ balancedAll cs2 ∧ heightsAll (heightList cs) cs2 ∧
      findIndex lt ks2 k = i2 ∧ i2 ≤ ks2.length ∧
      (i2 = ks2.length ∨ lt k (ks2.getD i2 default) = true) ∧
      t ≤ (cs2.getD i2 default).keys.length) ∨
    (ks.length = 1 ∧ ∃ n,
      fixChildSize t lt (BNode.node ks false cs) i = .newRoot n ∧
      traverse n = travSeq cs ks ∧
      subOk t n ∧ balanced n ∧ height n = heightList cs) := by
  have hi_le : i ≤ ks.length := hfi ▸ findIndex_le_length lt ks k
  have hlo : ∀ u, u < i → lt (ks.getD u default) k = true := by
    intro u hu
    exact findIndex_lt_early lt ks k u (by omega)
  have hkss : sortedLT lt ks := sortedLT_sublist (keys_sublist_travSeq cs ks) hsorted
  by_cases hneed : (cs.getD i default).keys.length < t
  · have hkid : (cs.getD i default).keys.length = t - 1 := by
      have h2 := (subOk_elim (subAll_getD hsub i (by omega))).1
      omega
    by_cases hbl : i ≠ 0 ∧ t ≤ (cs.getD (i - 1) default).keys.length
    · -- borrow from the left sibling
      obtain ⟨w, cs2, heq, hwlt, htrav, hcl, hsub2, hbal2, hhts2, hkeys2⟩ :=
        fix_bl_spec t lt W ks cs i ht hlen (by omega) hi_le hsub hbalA hhts hsorted
          hkid hbl.2
      left
      refine ⟨ks.set (i - 1) w, cs2, i, Or.inl heq, htrav, ?_, ?_, ?_, hsub2, hbal2,
        hhts2, ?_, ?_, ?_, ?_⟩
      · rw [List.length_set]
        omega
      · rw [List.length_set]
        omega
      · rw [List.length_set]
      · refine findIndex_build lt _ k i (by rw [List.length_set]; omega) ?_ ?_
        · intro u hu
          rcases Nat.lt_or_ge u (i - 1) with hu1 | hu1
          · rw [getD_set_ne ks (i - 1) u w default (by omega)]
            exact hlo u hu
          · have hueq : u = i - 1 := by omega
            rw [hueq, getD_set_self ks (i - 1) w default (by omega)]
            exact W.trans _ _ _ hwlt (hlo (i - 1) (by omega))
        · rcases Nat.eq_or_lt_of_le hi_le with hieq | hilt
          · left
            rw [List.length_set]
            omega
          · right
            rw [getD_set_ne ks (i - 1) i w default (by omega)]
            exact W.asym (hki hilt)
      · rw [List.length_set]
        omega
      · rcases Nat.eq_or_lt_of_le hi_le with hieq | hilt
        · left
          rw [List.length_set]
          omega
        · right
          rw [getD_set_ne ks (i - 1) i w default (by omega)]
          exact hki hilt
      · omega
    · by_cases hbr : i ≠ ks.length ∧ t ≤ (cs.getD (i + 1) default).keys.length
      · -- borrow from the right sibling
        have hilt : i < ks.length := by
          rcases Nat.eq_or_lt_of_le hi_le with hieq | h
          · exact absurd hieq hbr.1
          · exact h
        obtain ⟨w, cs2, heq, hwgt, htrav, hcl, hsub2, hbal2, hhts2, hkeys2⟩ :=
          fix_br_spec t lt W ks cs i ht hlen hilt hbl hsub hbalA hhts hsorted
            hkid hbr.2
        left
        have hkw : lt k w = true := W.trans _ _ _ (hki hilt) hwgt
        refine ⟨ks.set i w, cs2, i, Or.inl heq, htrav, ?_, ?_, ?_, hsub2, hbal2,
          hhts2, ?_, ?_, ?_, ?_⟩
        · rw [List.length_set]
          omega
        · rw [List.length_set]
          omega
        · rw [List.length_set]
        · refine findIndex_build lt _ k i (by rw [List.length_set]; omega) ?_ ?_
          · intro u hu
            rw [getD_set_ne ks i u w default (by omega)]
            exact hlo u hu
          · right
            rw [getD_set_self ks i w default (by omega)]
            exact W.asym hkw
        · rw [List.length_set]
          omega
        · right
          rw [getD_set_self ks i w default (by omega)]
          exact hkw
        · omega
      · -- merge
        rcases Nat.eq_zero_or_pos i with hi0 | hipos
        · -- merge with the right sibling
          subst hi0
          have hspec := fix_mr_spec t lt W ks cs ht hlen hks1 hsub hbalA hhts
            (by simpa using hkid) (by simpa using hbr)
          rcases Nat.lt_or_ge 1 ks.length with hgt | hle1
          · obtain ⟨cs2, heq, htrav, hcl, hsub2, hbal2, hhts2, hkeys2⟩ := hspec.1 hgt
            left
            have hk1 : lt k (ks.getD 1 default) = true := by
              have h01 : lt (ks.getD 0 default) (ks.getD 1 default) = true :=
                sortedLT_getD_getD hkss (by omega) (by omega)
              exact W.trans _ _ _ (hki (by omega)) h01
            have hE : ks.eraseIdx 0 = ks.tail := by
              cases ks
              · rfl
              · rfl
            have hklen2 : (ks.eraseIdx 0).length = ks.length - 1 := by
              rw [List.length_eraseIdx]
              simp only [if_pos (show (0 : Nat) < ks.length by omega)]
            refine ⟨ks.eraseIdx 0, cs2, 0, Or.inl heq, htrav, ?_, ?_, ?_, hsub2, hbal2,
              hhts2, ?_, ?_, ?_, ?_⟩
            · omega
            · omega
            · omega
            · refine findIndex_build lt _ k 0 (by omega) (by omega) ?_
              right
              rw [getD_eraseIdx_ge ks 0 0 default (by omega)]
              exact W.asym hk1
            · omega
            · right
              rw [getD_eraseIdx_ge ks 0 0 default (by omega)]
              exact hk1
            · omega
          · right
            refine ⟨by omega, specMerge (BNode.node ks false cs) 0, ?_⟩
            obtain ⟨heq, htrav, hsubM, hbalM, hhtM⟩ := hspec.2 (by omega)
            exact ⟨heq, htrav, hsubM, hbalM, hhtM⟩
        · -- merge with the left sibling
          have hspec := fix_ml_spec t lt W ks cs i ht hlen (by omega) hi_le hsub
            hbalA hhts hkid hbl hbr
          rcases Nat.lt_or_ge 1 ks.length with hgt | hle1
          · obtain ⟨cs2, heq, htrav, hcl, hsub2, hbal2, hhts2, hkeys2⟩ := hspec.1 hgt
            left
            have hklen2 : (ks.eraseIdx (i - 1)).length = ks.length - 1 := by
              rw [List.length_eraseIdx]
              simp only [if_pos (show i - 1 < ks.length by omega)]
            refine ⟨ks.eraseIdx (i - 1), cs2, i - 1, Or.inl heq, htrav, ?_, ?_, ?_,
              hsub2, hbal2, hhts2, ?_, ?_, ?_, ?_⟩
            · omega
            · omega
            · omega
            · refine findIndex_build lt _ k (i - 1) (by omega) ?_ ?_
              · intro u hu
                rw [getD_eraseIdx_lt ks (i - 1) u default (by omega)]
                exact hlo u (by omega)
              · rcases Nat.eq_or_lt_of_le hi_le with hieq | hilt
                · left
                  omega
                · right
                  rw [getD_eraseIdx_ge ks (i - 1) (i - 1) default (by omega),
                    show i - 1 + 1 = i by omega]
                  exact W.asym (hki hilt)
            · omega
            · rcases Nat.eq_or_lt_of_le hi_le with hieq | hilt
              · left
                omega
              · right
                rw [getD_eraseIdx_ge ks (i - 1) (i - 1) default (by omega),
                  show i - 1 + 1 = i by omega]
                exact hki hilt
            · omega
          · right
            refine ⟨by omega, specMerge (BNode.node ks false cs) (i - 1), ?_⟩
            obtain ⟨heq, htrav, hsubM, hbalM, hhtM⟩ := hspec.2 (by omega)
            exact ⟨heq, htrav, hsubM, hbalM, hhtM⟩
  · -- no fix needed
    left
    refine ⟨ks, cs, i, Or.inr (fix_noop t lt ks cs i (by omega)), rfl, hlen, by omega,
      by omega, hsub, hbalA, hhts, hfi, hi_le, ?_, by omega⟩
    rcases Nat.eq_or_lt_of_le hi_le with hieq | hilt
    · left
      omega
    · right
      exact hki hilt

end BT

namespace BT

variable {T : Type} [Inhabited T]

/-- Dispatcher for the predecessor walk: fixing the last child leaves the
traversal unchanged and lands on a last child holding at least `t` keys. -/
theorem maxFix_spec (t : Nat) (lt : T → T → Bool) (W : WeakOrder lt)
    (ks : List T) (cs : List (BNode T)) (ht : 2 ≤ t)
    (hlen : cs.length = ks.length + 1) (hks1 : 1 ≤ ks.length)
    (hsub : subAll t cs) (hbalA : balancedAll cs)
    (hhts : heightsAll (heightList cs) cs)
    (hsorted : sortedLT lt (travSeq cs ks)) :
    (∃ ks2 cs2,
      (fixChildSize t lt (BNode.node ks false cs) ks.length
          = .modified (BNode.node ks2 false cs2) ∨
       fixChildSize t lt (BNode.node ks false cs) ks.length
          = .notModified (BNode.node ks2 false cs2)) ∧
      travSeq cs2 ks2 = travSeq cs ks ∧
      cs2.length = ks2.length + 1 ∧
      ks.length - 1 ≤ ks2.length ∧ ks2.length ≤ ks.length ∧
      subAll t cs2 ∧ balancedAll cs2 ∧ heightsAll (heightList cs) cs2 ∧
      t ≤ (cs2.getD ks2.length default).keys.length) ∨
    (ks.length = 1 ∧ ∃ n,
      fixChildSize t lt (BNode.node ks false cs) ks.length = .newRoot n ∧
      traverse n = travSeq cs ks ∧
      subOk t n ∧ balanced n ∧ height n = heightList cs) := by
  by_cases hneed : (cs.getD ks.length default).keys.length < t
  · have hkid : (cs.getD ks.length default).keys.length = t - 1 := by
      have h2 := (subOk_elim (subAll_getD hsub ks.length (by omega))).1
      omega
    by_cases hbl : ks.length ≠ 0 ∧ t ≤ (cs.getD (ks.length - 1) default).keys.length
    · obtain ⟨w, cs2, heq, hwlt, htrav, hcl, hsub2, hbal2, hhts2, hkeys2⟩ :=
        fix_bl_spec t lt W ks cs ks.length ht hlen (by omega) (by omega) hsub hbalA
          hhts hsorted hkid hbl.2
      left
      refine ⟨ks.set (ks.length - 1) w, cs2, Or.inl heq, htrav, ?_, ?_, ?_, hsub2,
        hbal2, hhts2, ?_⟩
      · rw [List.length_set]
        omega
      · rw [List.length_set]
        omega
      · rw [List.length_set]
      · rw [List.length_set]
        omega
    · have hnoright : ¬ (ks.length ≠ ks.length ∧
          t ≤ (cs.getD (ks.length + 1) default).keys.length) := by
        intro hc
        exact hc.1 rfl
      have hspec := fix_ml_spec t lt W ks cs ks.length ht hlen (by omega) (by omega)
        hsub hbalA hhts hkid hbl hnoright
      rcases Nat.lt_or_ge 1 ks.length with hgt | hle1
      · obtain ⟨cs2, heq, htrav, hcl, hsub2, hbal2, hhts2, hkeys2⟩ := hspec.1 hgt
        left
        have hklen2 : (ks.eraseIdx (ks.length - 1)).length = ks.length - 1 := by
          rw [List.length_eraseIdx]
          simp only [if_pos (show ks.length - 1 < ks.length by omega)]
        refine ⟨ks.eraseIdx (ks.length - 1), cs2, Or.inl heq, htrav, ?_, ?_, ?_,
          hsub2, hbal2, hhts2, ?_⟩
        · omega
        · omega
        · omega
        · rw [hklen2]
          omega
      · right
        exact ⟨by omega, specMerge (BNode.node ks false cs) (ks.length - 1),
          hspec.2 (by omega)⟩
  · left
    refine ⟨ks, cs, Or.inr (fix_noop t lt ks cs ks.length (by omega)), rfl, hlen,
      by omega, by omega, hsub, hbalA, hhts, by omega⟩

/-- Dispatcher for the successor walk: fixing child `0` leaves the traversal
unchanged and lands on a first child holding at least `t` keys. -/
theorem minFix_spec (t : Nat) (lt : T → T → Bool) (W : WeakOrder lt)
    (ks : List T) (cs : List (BNode T)) (ht : 2 ≤ t)
    (hlen : cs.length = ks.length + 1) (hks1 : 1 ≤ ks.length)
    (hsub : subAll t cs) (hbalA : balancedAll cs)
    (hhts : heightsAll (heightList cs) cs)
    (hsorted : sortedLT lt (travSeq cs ks)) :
    (∃ ks2 cs2,
      (fixChildSize t lt (BNode.node ks false cs) 0
          = .modified (BNode.node ks2 false cs2) ∨
       fixChildSize t lt (BNode.node ks false cs) 0
          = .notModified (BNode.node ks2 false cs2)) ∧
      travSeq cs2 ks2 = travSeq cs ks ∧
      cs2.length = ks2.length + 1 ∧
      ks.length - 1 ≤ ks2.length ∧ ks2.length ≤ ks.length ∧
      subAll t cs2 ∧ balancedAll cs2 ∧ heightsAll (heightList cs) cs2 ∧
      t ≤ (cs2.getD 0 default).keys.length) ∨
    (ks.length = 1 ∧ ∃ n,
      fixChildSize t lt (BNode.node ks false cs) 0 = .newRoot n ∧
      traverse n = travSeq cs ks ∧
      subOk t n ∧ balanced n ∧ height n = heightList cs) := by
  by_cases hneed : (cs.getD 0 default).keys.length < t
  · have hkid : (cs.getD 0 default).keys.length = t - 1 := by
      have h2 := (subOk_elim (subAll_getD hsub 0 (by omega))).1
      omega
    have hbl : ¬ ((0 : Nat) ≠ 0 ∧ t ≤ (cs.getD (0 - 1) default).keys.length) := by
      intro hc
      exact hc.1 rfl
    by_cases hbr : (0 : Nat) ≠ ks.length ∧ t ≤ (cs.getD (0 + 1) default).keys.length
    · obtain ⟨w, cs2, heq, hwgt, htrav, hcl, hsub2, hbal2, hhts2, hkeys2⟩ :=
        fix_br_spec t lt W ks cs 0 ht hlen (by omega) hbl hsub hbalA hhts hsorted
          hkid hbr.2
      left
      refine ⟨ks.set 0 w, cs2, Or.inl heq, htrav, ?_, ?_, ?_, hsub2, hbal2, hhts2, ?_⟩
      · rw [List.length_set]
        omega
      · rw [List.length_set]
        omega
      · rw [List.length_set]
      · omega
    · have hspec := fix_mr_spec t lt W ks cs ht hlen hks1 hsub hbalA hhts hkid
        (by simpa using hbr)
      rcases Nat.lt_or_ge 1 ks.length with hgt | hle1
      · obtain ⟨cs2, heq, htrav, hcl, hsub2, hbal2, hhts2, hkeys2⟩ := hspec.1 hgt
        left
        have hklen2 : (ks.eraseIdx 0).length = ks.length - 1 := by
          rw [List.length_eraseIdx]
          simp only [if_pos (show (0 : Nat) < ks.length by omega)]
        refine ⟨ks.eraseIdx 0, cs2, Or.inl heq, htrav, ?_, ?_, ?_, hsub2, hbal2,
          hhts2, ?_⟩
        · omega
        · omega
        · omega
        · omega
      · right
        exact ⟨by omega, specMerge (BNode.node ks false cs) 0, hspec.2 (by omega)⟩
  · left
    refine ⟨ks, cs, Or.inr (fix_noop t lt ks cs 0 (by omega)), rfl, hlen,
      by omega, by omega, hsub, hbalA, hhts, by omega⟩

end BT

namespace BT

variable {T : Type} [Inhabited T]

/-- The predecessor walk: on a sound subtree with at least `t` keys at its
root it deletes and returns exactly the last key of the traversal, keeping
structure, balance and height. -/
theorem removeMax_spec (t : Nat) (lt : T → T → Bool) (W : WeakOrder lt) (ht : 2 ≤ t) :
    ∀ (fuel : Nat) (x : BNode T),
    height x ≤ fuel →
    t ≤ x.keys.length → x.keys.length ≤ 2 * t - 1 →
    (if x.leaf = true then x.children = [] else x.children.length = x.keys.length + 1) →
    subAll t x.children →
    balanced x →
    sortedLT lt (traverse x) →
    ∃ v x2, removeMax t lt fuel x = some (v, x2) ∧
      traverse x = traverse x2 ++ [v] ∧
      subOk t x2 ∧ balanced x2 ∧ height x2 = height x := by
  intro fuel
  induction fuel with
  | zero =>
      intro x hfuel
      have := height_pos x
      omega
  | succ fuel ih =>
      intro x hfuel hklo hkhi hsh hsub hbal hsorted
      rcases x with ⟨ks, lf, cs⟩
      simp only [keys_node, leaf_node, children_node] at hklo hkhi hsh hsub
      cases lf with
      | true =>
          have hcs : cs = [] := by simpa using hsh
          subst hcs
          refine ⟨ks.getD (ks.length - 1) default,
            BNode.node (ks.eraseIdx (ks.length - 1)) true [], ?_, ?_, ?_, ?_, ?_⟩
          · rw [removeMax]
            simp only [leaf_node, if_true, nodeDelete]
            rfl
          · simp only [traverse]
            rw [eraseIdx_last]
            exact (dropLast_append_getD ks default (by
              intro hc
              rw [hc] at hklo
              simp at hklo
              omega)).symm
          · rw [subOk]
            simp only [keys_node, leaf_node, children_node, if_true]
            refine ⟨⟨?_, ?_⟩, trivial, trivial⟩
            · rw [List.length_eraseIdx]
              simp only [if_pos (show ks.length - 1 < ks.length by omega)]
              omega
            · rw [List.length_eraseIdx]
              simp only [if_pos (show ks.length - 1 < ks.length by omega)]
              omega
          · exact balanced_intro_leaf (by simp)
          · simp [height_node, heightList]
      | false =>
          have hcslen : cs.length = ks.length + 1 := by simpa using hsh
          have htrav : traverse (BNode.node ks false cs) = travSeq cs ks := by
            simp [traverse]
          rw [htrav] at hsorted
          obtain ⟨hbalA, hhts⟩ := balanced_elim (by simp) hbal
          simp only [children_node] at hbalA hhts
          rcases maxFix_spec t lt W ks cs ht hcslen (by omega) hsub hbalA hhts hsorted
            with ⟨ks2, cs2, heq, htrav2, hcl2, hklo2, hkhi2, hsub2, hbal2, hhts2, hkid2⟩
            | ⟨h1, -⟩
          · have hc'sub : subOk t (cs2.getD ks2.length default) :=
              subAll_getD hsub2 ks2.length (by omega)
            have hc'bal : balanced (cs2.getD ks2.length default) :=
              balancedAll_getD hbal2 ks2.length (by omega)
            have hc'ht : height (cs2.getD ks2.length default) = heightList cs :=
              heightsAll_getD _ cs2 hhts2 ks2.length (by omega)
            have hc'sorted : sortedLT lt (traverse (cs2.getD ks2.length default)) := by
              refine sortedLT_sublist ?_ hsorted
              rw [← htrav2]
              exact child_sublist_travSeq ks2.length cs2 ks2 hcl2 (by omega)
            obtain ⟨hc'b, hc'sh, hc'subc⟩ := subOk_elim hc'sub
            obtain ⟨v, c2, hc2eq, hc2trav, hc2sub, hc2bal, hc2ht⟩ :=
              ih (cs2.getD ks2.length default)
                (by rw [hc'ht]; rw [height_node] at hfuel; omega)
                hkid2 hc'b.2 hc'sh hc'subc hc'bal hc'sorted
            have hsplit : travSeq cs2 ks2
                = travSeq (cs2.take ks2.length) (ks2.take ks2.length)
                  ++ traverse (cs2.getD ks2.length default) := by
              rw [travSeq_split_child ks2.length cs2 ks2 hcl2 (by omega)]
              rw [List.drop_length, travSeqK]
              simp
            refine ⟨v, setChild (BNode.node ks2 false cs2) ks2.length c2, ?_, ?_,
              ?_, ?_, ?_⟩
            · rw [removeMax]
              simp only [leaf_node, Bool.false_eq_true, if_false, keys_node,
                children_node]
              rcases heq with heq | heq
              all_goals {
                rw [heq]
                simp only [keys_node, children_node, hc2eq, Option.map]
              }
            · rw [htrav, ← htrav2, hsplit, hc2trav]
              rw [setChild]
              simp only [keys_node, leaf_node, children_node, traverse]
              rw [travSeq_set_child ks2.length cs2 ks2 c2 hcl2 (by omega)]
              rw [List.drop_length, travSeqK]
              simp
            · refine subOk_intro ?_ ?_ ?_ ?_
              · rw [setChild]
                simp only [keys_node]
                omega
              · rw [setChild]
                simp only [keys_node]
                omega
              · rw [setChild]
                simp only [keys_node, leaf_node, children_node, Bool.false_eq_true,
                  if_false, List.length_set]
                omega
              · rw [setChild]
                simp only [children_node]
                exact subAll_set hsub2 hc2sub ks2.length
            · refine balanced_intro (by rw [setChild]; simp) ?_ ?_
              · rw [setChild]
                simp only [children_node]
                exact balancedAll_set hbal2 hc2bal ks2.length
              · rw [setChild]
                simp only [children_node]
                have hall : heightsAll (heightList cs) (cs2.set ks2.length c2) := by
                  refine heightsAll_set hhts2 ?_ ks2.length
                  rw [hc2ht, hc'ht]
                have hne : cs2.set ks2.length c2 ≠ [] := by
                  intro hc
                  have h0 : (cs2.set ks2.length c2).length = 0 := by rw [hc]; rfl
                  rw [List.length_set] at h0
                  omega
                rw [heightList_of_heightsAll hall hne]
                exact hall
            · rw [setChild]
              simp only [leaf_node, children_node, height_node, keys_node]
              have hall : heightsAll (heightList cs) (cs2.set ks2.length c2) := by
                refine heightsAll_set hhts2 ?_ ks2.length
                rw [hc2ht, hc'ht]
              have hne : cs2.set ks2.length c2 ≠ [] := by
                intro hc
                have h0 : (cs2.set ks2.length c2).length = 0 := by rw [hc]; rfl
                rw [List.length_set] at h0
                omega
              rw [heightList_of_heightsAll hall hne]
          · omega

/-- The successor walk: mirror image of `removeMax_spec` at the first key. -/
theorem removeMin_spec (t : Nat) (lt : T → T → Bool) (W : WeakOrder lt) (ht : 2 ≤ t) :
    ∀ (fuel : Nat) (x : BNode T),
    height x ≤ fuel →
    t ≤ x.keys.length → x.keys.length ≤ 2 * t - 1 →
    (if x.leaf = true then x.children = [] else x.children.length = x.keys.length + 1) →
    subAll t x.children →
    balanced x →
    sortedLT lt (traverse x) →
    ∃ v x2, removeMin t lt fuel x = some (v, x2) ∧
      traverse x = v :: traverse x2 ∧
      subOk t x2 ∧ balanced x2 ∧ height x2 = height x := by
  intro fuel
  induction fuel with
  | zero =>
      intro x hfuel
      have := height_pos x
      omega
  | succ fuel ih =>
      intro x hfuel hklo hkhi hsh hsub hbal hsorted
      rcases x with ⟨ks, lf, cs⟩
      simp only [keys_node, leaf_node, children_node] at hklo hkhi hsh hsub
      cases lf with
      | true =>
          have hcs : cs = [] := by simpa using hsh
          subst hcs
          refine ⟨ks.getD 0 default, BNode.node (ks.eraseIdx 0) true [], ?_, ?_,
            ?_, ?_, ?_⟩
          · rw [removeMin]
            simp only [leaf_node, if_true, nodeDelete]
            rfl
          · simp only [traverse]
            have hkne : ks ≠ [] := by
              intro hc
              rw [hc] at hklo
              simp at hklo
              omega
            conv_lhs => rw [getD_cons_tail ks default hkne]
            congr 1
            cases ks
            · rfl
            · rfl
          · rw [subOk]
            simp only [keys_node, leaf_node, children_node, if_true]
            refine ⟨⟨?_, ?_⟩, trivial, trivial⟩
            · rw [List.length_eraseIdx]
              simp only [if_pos (show (0 : Nat) < ks.length by omega)]
              omega
            · rw [List.length_eraseIdx]
              simp only [if_pos (show (0 : Nat) < ks.length by omega)]
              omega
          · exact balanced_intro_leaf (by simp)
          · simp [height_node, heightList]
      | false =>
          have hcslen : cs.length = ks.length + 1 := by simpa using hsh
          have htrav : traverse (BNode.node ks false cs) = travSeq cs ks := by
            simp [traverse]
          rw [htrav] at hsorted
          obtain ⟨hbalA, hhts⟩ := balanced_elim (by simp) hbal
          simp only [children_node] at hbalA hhts
          rcases minFix_spec t lt W ks cs ht hcslen (by omega) hsub hbalA hhts hsorted
            with ⟨ks2, cs2, heq, htrav2, hcl2, hklo2, hkhi2, hsub2, hbal2, hhts2, hkid2⟩
            | ⟨h1, -⟩
          · have hc'sub : subOk t (cs2.getD 0 default) :=
              subAll_getD hsub2 0 (by omega)
            have hc'bal : balanced (cs2.getD 0 default) :=
              balancedAll_getD hbal2 0 (by omega)
            have hc'ht : height (cs2.getD 0 default) = heightList cs :=
              heightsAll_getD _ cs2 hhts2 0 (by omega)
            have hc'sorted : sortedLT lt (traverse (cs2.getD 0 default)) := by
              refine sortedLT_sublist ?_ hsorted
              rw [← htrav2]
              exact child_sublist_travSeq 0 cs2 ks2 hcl2 (by omega)
            obtain ⟨hc'b, hc'sh, hc'subc⟩ := subOk_elim hc'sub
            obtain ⟨v, c2, hc2eq, hc2trav, hc2sub, hc2bal, hc2ht⟩ :=
              ih (cs2.getD 0 default)
                (by rw [hc'ht]; rw [height_node] at hfuel; omega)
                hkid2 hc'b.2 hc'sh hc'subc hc'bal hc'sorted
            have hsplit : travSeq cs2 ks2
                = traverse (cs2.getD 0 default) ++ travSeqK ks2 (cs2.drop 1) := by
              rw [travSeq_split_child 0 cs2 ks2 hcl2 (by omega)]
              simp [travSeq]
            refine ⟨v, setChild (BNode.node ks2 false cs2) 0 c2, ?_, ?_, ?_, ?_, ?_⟩
            · rw [removeMin]
              simp only [leaf_node, Bool.false_eq_true, if_false, keys_node,
                children_node]
              rcases heq with heq | heq
              all_goals {
                rw [heq]
                simp only [keys_node, children_node, hc2eq, Option.map]
              }
            · rw [htrav, ← htrav2, hsplit, hc2trav]
              rw [setChild]
              simp only [keys_node, leaf_node, children_node, traverse]
              rw [travSeq_set_child 0 cs2 ks2 c2 hcl2 (by omega)]
              simp [travSeq]
            · refine subOk_intro ?_ ?_ ?_ ?_
              · rw [setChild]
                simp only [keys_node]
                omega
              · rw [setChild]
                simp only [keys_node]
                omega
              · rw [setChild]
                simp only [keys_node, leaf_node, children_node, Bool.false_eq_true,
                  if_false, List.length_set]
                omega
              · rw [setChild]
                simp only [children_node]
                exact subAll_set hsub2 hc2sub 0
            · refine balanced_intro (by rw [setChild]; simp) ?_ ?_
              · rw [setChild]
                simp only [children_node]
                exact balancedAll_set hbal2 hc2bal 0
              · rw [setChild]
                simp only [children_node]
                have hall : heightsAll (heightList cs) (cs2.set 0 c2) := by
                  refine heightsAll_set hhts2 ?_ 0
                  rw [hc2ht, hc'ht]
                have hne : cs2.set 0 c2 ≠ [] := by
                  intro hc
                  have h0 : (cs2.set 0 c2).length = 0 := by rw [hc]; rfl
                  rw [List.length_set] at h0
                  omega
                rw [heightList_of_heightsAll hall hne]
                exact hall
            · rw [setChild]
              simp only [leaf_node, children_node, height_node, keys_node]
              have hall : heightsAll (heightList cs) (cs2.set 0 c2) := by
                refine heightsAll_set hhts2 ?_ 0
                rw [hc2ht, hc'ht]
              have hne : cs2.set 0 c2 ≠ [] := by
                intro hc
                have h0 : (cs2.set 0 c2).length = 0 := by rw [hc]; rfl
                rw [List.length_set] at h0
                omega
              rw [heightList_of_heightsAll hall hne]
          · omega

end BT

namespace BT

variable {T : Type} [Inhabited T]

theorem mergeChildren_eq (ks : List T) (cs : List (BNode T)) (i : Nat) :
    mergeChildren (BNode.node ks false cs) i =
      (if (ks.eraseIdx i).length = 0
       then MergeResult.newRoot (specMerge (BNode.node ks false cs) i)
       else MergeResult.modified (BNode.node (ks.eraseIdx i) false
         ((cs.eraseIdx (i + 1)).set i (specMerge (BNode.node ks false cs) i)))) := by
  simp only [mergeChildren, nodeDelete_fst, nodeDelete_snd_keys, nodeDelete_snd_leaf,
    nodeDelete_snd_children, setChild, children_node, keys_node, leaf_node, nodeDelete,
    specMerge]

/-- `mergeChildren` in the found case: children `i` and `i+1` (both minimal)
are merged around the separator; the traversal is unchanged and the separator
now lives inside the merged child. -/
theorem merge_spec (t : Nat) (lt : T → T → Bool) (W : WeakOrder lt) (ks : List T)
    (cs : List (BNode T)) (i : Nat) (ht : 2 ≤ t)
    (hlen : cs.length = ks.length + 1) (hi : i < ks.length)
    (hsub : subAll t cs) (hbalA : balancedAll cs)
    (hhts : heightsAll (heightList cs) cs)
    (hL : (cs.getD i default).keys.length = t - 1)
    (hR : (cs.getD (i + 1) default).keys.length = t - 1) :
    (1 < ks.length →
      ∃ cs2,
        mergeChildren (BNode.node ks false cs) i =
          .modified (BNode.node (ks.eraseIdx i) false cs2) ∧
        travSeq cs2 (ks.eraseIdx i) = travSeq cs ks ∧
        cs2.length = cs.length - 1 ∧
        subAll t cs2 ∧ balancedAll cs2 ∧ heightsAll (heightList cs) cs2 ∧
        cs2.getD i default = specMerge (BNode.node ks false cs) i ∧
        (specMerge (BNode.node ks false cs) i).keys.length = 2 * t - 1 ∧
        traverse (specMerge (BNode.node ks false cs) i)
          = traverse (cs.getD i default) ++ ks.getD i default
            :: traverse (cs.getD (i + 1) default)) ∧
    (ks.length = 1 →
      mergeChildren (BNode.node ks false cs) i =
        .newRoot (specMerge (BNode.node ks false cs) i) ∧
      traverse (specMerge (BNode.node ks false cs) i) = travSeq cs ks ∧
      subOk t (specMerge (BNode.node ks false cs) i) ∧
      balanced (specMerge (BNode.node ks false cs) i) ∧
      height (specMerge (BNode.node ks false cs) i) = heightList cs ∧
      (specMerge (BNode.node ks false cs) i).keys.length = 2 * t - 1 ∧
      traverse (specMerge (BNode.node ks false cs) i)
        = traverse (cs.getD i default) ++ ks.getD i default
          :: traverse (cs.getD (i + 1) default)) := by
  have hM := specMerge_ok t ht ks cs i hlen hi hsub hbalA hhts hL hR
  have hRHS : travSeq cs ks
      = travSeq (cs.take i) (ks.take i)
        ++ (traverse (cs.getD i default) ++ ks.getD i default
          :: (traverse (cs.getD (i + 1) default)
            ++ travSeqK (ks.drop (i + 1)) (cs.drop (i + 2)))) := by
    rw [travSeq_split_key i cs ks hlen hi]
    rw [travSeq_take_child i cs ks hlen (by omega)]
    rw [drop_eq_getD_cons (l := cs) default (by omega : i + 1 < cs.length)]
    rw [travSeq_cons]
    simp [List.append_assoc]
  have hklen2 : (ks.eraseIdx i).length = ks.length - 1 := by
    rw [List.length_eraseIdx]
    simp only [if_pos (show i < ks.length by omega)]
  have hCs2 : (cs.eraseIdx (i + 1)).set i (specMerge (BNode.node ks false cs) i)
      = cs.take i ++ specMerge (BNode.node ks false cs) i :: cs.drop (i + 2) := by
    have hE : cs.eraseIdx (i + 1)
        = cs.take i ++ cs.getD i default :: cs.drop (i + 2) := by
      conv_lhs => rw [cs_decomp cs (i + 1) (by omega) (by omega)]
      rw [show i + 1 - 1 = i by omega]
      rw [eraseIdx_append_cons_succ _ _ _ _ _ (by rw [List.length_take]; omega)]
    rw [hE, set_append_len_g _ _ _ _ (by rw [List.length_take]; omega),
      List.set_cons_zero]
  constructor
  · intro hgt
    refine ⟨cs.take i ++ specMerge (BNode.node ks false cs) i :: cs.drop (i + 2),
      ?_, ?_, ?_, ?_, ?_, ?_, ?_, hM.2.2.2.1, hM.2.2.2.2⟩
    · rw [mergeChildren_eq, if_neg (by omega), hCs2]
    · have hK : ks.eraseIdx i = ks.take i ++ ks.drop (i + 1) := by
        conv_lhs => rw [ks_decomp ks i (by omega)]
        rw [eraseIdx_append_len_g _ _ _ _ (by rw [List.length_take]; omega)]
      rw [hK, hRHS]
      rw [travSeq_append_eqlen _ _ _ _ (by simp only [List.length_take]; omega)
        (by simp)]
      rw [travSeq_cons, hM.2.2.2.2]
      simp [List.append_assoc]
    · simp only [List.length_append, List.length_take, List.length_cons,
        List.length_drop]
      omega
    · refine subAll_append (subAll_take hsub i) ?_
      exact ⟨hM.1, subAll_drop hsub (i + 2)⟩
    · refine balancedAll_append (balancedAll_take hbalA i) ?_
      exact ⟨hM.2.1, balancedAll_drop hbalA (i + 2)⟩
    · refine heightsAll_append (heightsAll_take hhts i) ?_
      exact ⟨hM.2.2.1, heightsAll_drop hhts (i + 2)⟩
    · rw [getD_append_len_of _ _ _ _ _ (by rw [List.length_take]; omega)]
  · intro h1
    have hieq : i = 0 := by omega
    refine ⟨?_, ?_, hM.1, hM.2.1, hM.2.2.1, hM.2.2.2.1, hM.2.2.2.2⟩
    · rw [mergeChildren_eq, if_pos (by omega)]
    · rw [hM.2.2.2.2, hRHS]
      have hcs1 : cs.drop (i + 2) = [] := by
        apply List.drop_eq_nil_of_le
        omega
      have hks1 : ks.drop (i + 1) = [] := by
        apply List.drop_eq_nil_of_le
        omega
      have htk : cs.take i = [] := by
        rw [hieq]
        rfl
      have htk2 : ks.take i = [] := by
        rw [hieq]
        rfl
      rw [hcs1, hks1, htk, htk2, travSeqK]
      simp [travSeq]

end BT

namespace BT

variable {T : Type} [Inhabited T]

/-- A `MODIFIED`/`NOT_MODIFIED` outcome of `fixChildSize` never leaves the
parent without keys: borrows keep the key count, and a merge that would empty
the parent returns `NEW_ROOT` instead. -/
theorem fixChildSize_keys_pos (t : Nat) (lt : T → T → Bool) (ks ks2 : List T)
    (cs cs2 : List (BNode T)) (i : Nat) (hks1 : 1 ≤ ks.length)
    (hfx : fixChildSize t lt (BNode.node ks false cs) i
        = .modified (BNode.node ks2 false cs2) ∨
      fixChildSize t lt (BNode.node ks false cs) i
        = .notModified (BNode.node ks2 false cs2)) :
    1 ≤ ks2.length := by
  rw [fixChildSize] at hfx
  simp only [keys_node, leaf_node, children_node] at hfx
  by_cases hneed : (cs.getD i default).keys.length < t
  · simp only [if_pos hneed] at hfx
    by_cases hbl : i ≠ 0 ∧ t ≤ (cs.getD (i - 1) default).keys.length
    · simp only [if_pos hbl] at hfx
      rcases hfx with hfx | hfx
      · simp only [FixResult.modified.injEq, BNode.node.injEq] at hfx
        rw [← hfx.1, List.length_set]
        exact hks1
      · simp at hfx
    · simp only [if_neg hbl] at hfx
      by_cases hbr : i ≠ ks.length ∧ t ≤ (cs.getD (i + 1) default).keys.length
      · simp only [if_pos hbr] at hfx
        rcases hfx with hfx | hfx
        · simp only [FixResult.modified.injEq, BNode.node.injEq] at hfx
          rw [← hfx.1, List.length_set]
          exact hks1
        · simp at hfx
      · simp only [if_neg hbr] at hfx
        by_cases hiz : i ≠ 0
        · simp only [if_pos hiz, mergeChildren_eq] at hfx
          by_cases hz : (ks.eraseIdx (i - 1)).length = 0
          · simp only [if_pos hz, ofMerge] at hfx
            rcases hfx with hfx | hfx <;> simp at hfx
          · simp only [if_neg hz, ofMerge] at hfx
            rcases hfx with hfx | hfx
            · simp only [FixResult.modified.injEq, BNode.node.injEq] at hfx
              rw [← hfx.1]
              omega
            · simp at hfx
        · simp only [if_neg hiz, mergeChildren_eq] at hfx
          by_cases hz : (ks.eraseIdx i).length = 0
          · simp only [if_pos hz, ofMerge] at hfx
            rcases hfx with hfx | hfx <;> simp at hfx
          · simp only [if_neg hz, ofMerge] at hfx
            rcases hfx with hfx | hfx
            · simp only [FixResult.modified.injEq, BNode.node.injEq] at hfx
              rw [← hfx.1]
              omega
            · simp at hfx
  · simp only [if_neg hneed] at hfx
    rcases hfx with hfx | hfx
    · simp at hfx
    · simp only [FixResult.notModified.injEq, BNode.node.injEq] at hfx
      rw [← hfx.1]
      exact hks1

end BT

namespace BT

variable {T : Type} [Inhabited T]

/-- Found at an internal node with a large left child: `removeMax` extracts the
predecessor `v'`, and overwriting `key[i]` with `v'` and the child with the
shrunk walk result removes exactly the separator from the in-order word. -/
theorem pred_replace_spec (t : Nat) (lt : T → T → Bool) (W : WeakOrder lt) (ht : 2 ≤ t)
    (ks : List T) (cs : List (BNode T)) (i fuel : Nat) (k : T)
    (hcl : cs.length = ks.length + 1) (hi : i < ks.length)
    (hfuel : heightList cs ≤ fuel)
    (hsub : subAll t cs) (hbalA : balancedAll cs)
    (hhts : heightsAll (heightList cs) cs)
    (hsorted : sortedLT lt (travSeq cs ks))
    (hP : t ≤ (cs.getD i default).keys.length) :
    ∃ v' c2, removeMax t lt fuel (cs.getD i default) = some (v', c2) ∧
      (∃ L1 L2, travSeq cs ks = L1 ++ ks.getD i default :: L2 ∧
        travSeq (cs.set i c2) (ks.set i v') = L1 ++ L2) ∧
      subOk t c2 ∧ balanced c2 ∧ height c2 = heightList cs := by
  have hic : i < cs.length := by omega
  have hchild := subOk_elim (subAll_getD hsub i hic)
  have hht := heightsAll_getD (heightList cs) cs hhts i hic
  obtain ⟨v', c2, hrm, htrav, hsubc, hbalc, hhtc⟩ :=
    removeMax_spec t lt W ht fuel (cs.getD i default) (by omega) hP hchild.1.2
      hchild.2.1 hchild.2.2 (balancedAll_getD hbalA i hic)
      (sortedLT_sublist (child_sublist_travSeq i cs ks hcl (by omega)) hsorted)
  refine ⟨v', c2, hrm,
    ⟨travSeq (cs.take i) (ks.take i) ++ traverse c2 ++ [v'],
      travSeq (cs.drop (i + 1)) (ks.drop (i + 1)), ?_, ?_⟩,
    hsubc, hbalc, by omega⟩
  · rw [travSeq_split_key i cs ks hcl hi, travSeq_take_child i cs ks hcl (by omega),
      htrav]
    simp [List.append_assoc]
  · have hlen2 : (cs.set i c2).length = (ks.set i v').length + 1 := by
      rw [List.length_set, List.length_set]
      exact hcl
    rw [travSeq_split_key i (cs.set i c2) (ks.set i v') hlen2
      (by rw [List.length_set]; exact hi)]
    rw [travSeq_take_child i (cs.set i c2) (ks.set i v') hlen2
      (by rw [List.length_set]; omega)]
    rw [take_set_of_le cs i i c2 (Nat.le_refl i),
      take_set_of_le ks i i v' (Nat.le_refl i),
      getD_set_self cs i c2 default hic,
      getD_set_self ks i v' default hi,
      drop_set_of_lt cs i (i + 1) c2 (by omega),
      drop_set_of_lt ks i (i + 1) v' (by omega)]
    simp [List.append_assoc]

/-- Found at an internal node with a small left child but a large right child:
`removeMin` extracts the successor. -/
theorem succ_replace_spec (t : Nat) (lt : T → T → Bool) (W : WeakOrder lt) (ht : 2 ≤ t)
    (ks : List T) (cs : List (BNode T)) (i fuel : Nat) (k : T)
    (hcl : cs.length = ks.length + 1) (hi : i < ks.length)
    (hfuel : heightList cs ≤ fuel)
    (hsub : subAll t cs) (hbalA : balancedAll cs)
    (hhts : heightsAll (heightList cs) cs)
    (hsorted : sortedLT lt (travSeq cs ks))
    (hS : t ≤ (cs.getD (i + 1) default).keys.length) :
    ∃ v' c2, removeMin t lt fuel (cs.getD (i + 1) default) = some (v', c2) ∧
      (∃ L1 L2, travSeq cs ks = L1 ++ ks.getD i default :: L2 ∧
        travSeq (cs.set (i + 1) c2) (ks.set i v') = L1 ++ L2) ∧
      subOk t c2 ∧ balanced c2 ∧ height c2 = heightList cs := by
  have hic : i + 1 < cs.length := by omega
  have hchild := subOk_elim (subAll_getD hsub (i + 1) hic)
  have hht := heightsAll_getD (heightList cs) cs hhts (i + 1) hic
  obtain ⟨v', c2, hrm, htrav, hsubc, hbalc, hhtc⟩ :=
    removeMin_spec t lt W ht fuel (cs.getD (i + 1) default) (by omega) hS hchild.1.2
      hchild.2.1 hchild.2.2 (balancedAll_getD hbalA (i + 1) hic)
      (sortedLT_sublist (child_sublist_travSeq (i + 1) cs ks hcl (by omega)) hsorted)
  refine ⟨v', c2, hrm,
    ⟨travSeq (cs.take (i + 1)) (ks.take i),
      v' :: (traverse c2 ++ travSeqK (ks.drop (i + 1)) (cs.drop (i + 2))), ?_, ?_⟩,
    hsubc, hbalc, by omega⟩
  · rw [travSeq_split_key i cs ks hcl hi]
    rw [drop_eq_getD_cons (l := cs) default hic, travSeq_cons, htrav]
    simp [List.append_assoc]
  · have hlen2 : (cs.set (i + 1) c2).length = (ks.set i v').length + 1 := by
      rw [List.length_set, List.length_set]
      exact hcl
    rw [travSeq_split_key i (cs.set (i + 1) c2) (ks.set i v') hlen2
      (by rw [List.length_set]; exact hi)]
    rw [take_set_of_le cs (i + 1) (i + 1) c2 (Nat.le_refl (i + 1)),
      take_set_of_le ks i i v' (Nat.le_refl i),
      getD_set_self ks i v' default hi,
      drop_set_of_lt ks i (i + 1) v' (by omega),
      drop_set_self cs (i + 1) c2 hic,
      travSeq_cons]

end BT

namespace BT

variable {T : Type} [Inhabited T]

/-- A `NEW_ROOT` outcome of `fixChildSize` carries a merge of two sound
children around a separator, so the new root holds at least two keys. -/
theorem fixChildSize_newRoot_keys (t : Nat) (lt : T → T → Bool) (ks : List T)
    (cs : List (BNode T)) (i : Nat) (n : BNode T)
    (ht : 2 ≤ t) (hks1 : 1 ≤ ks.length) (hlen : cs.length = ks.length + 1)
    (hsub : subAll t cs)
    (hfx : fixChildSize t lt (BNode.node ks false cs) i = .newRoot n) :
    2 ≤ n.keys.length := by
  have hkeysMerge : ∀ m : BNode T, m = specMerge (BNode.node ks false cs) 0 →
      ks.length = 1 → 2 ≤ m.keys.length := by
    intro m hm h1
    have hc0 := (subOk_elim (subAll_getD hsub 0 (by omega))).1
    have hc1 := (subOk_elim (subAll_getD hsub 1 (by omega))).1
    rw [hm]
    simp only [specMerge, keys_node, children_node, List.length_append,
      List.length_cons]
    omega
  rw [fixChildSize] at hfx
  simp only [keys_node, leaf_node, children_node] at hfx
  by_cases hneed : (cs.getD i default).keys.length < t
  · simp only [if_pos hneed] at hfx
    by_cases hbl : i ≠ 0 ∧ t ≤ (cs.getD (i - 1) default).keys.length
    · simp only [if_pos hbl] at hfx
      simp at hfx
    · simp only [if_neg hbl] at hfx
      by_cases hbr : i ≠ ks.length ∧ t ≤ (cs.getD (i + 1) default).keys.length
      · simp only [if_pos hbr] at hfx
        simp at hfx
      · simp only [if_neg hbr] at hfx
        by_cases hiz : i ≠ 0
        · simp only [if_pos hiz, mergeChildren_eq] at hfx
          by_cases hz : (ks.eraseIdx (i - 1)).length = 0
          · have hi1 : i - 1 < ks.length := by
              by_contra hc
              rw [List.eraseIdx_of_length_le (by omega)] at hz
              omega
            have h1 : ks.length = 1 := by
              rw [List.length_eraseIdx] at hz
              simp only [if_pos hi1] at hz
              omega
            have hi0 : i - 1 = 0 := by omega
            simp only [if_pos hz, ofMerge, FixResult.newRoot.injEq] at hfx
            exact hkeysMerge n (by rw [← hfx, hi0]) h1
          · simp only [if_neg hz, ofMerge] at hfx
            simp at hfx
        · simp only [if_neg hiz, mergeChildren_eq] at hfx
          have hi0 : i = 0 := by omega
          by_cases hz : (ks.eraseIdx i).length = 0
          · have h1 : ks.length = 1 := by
              rw [List.length_eraseIdx] at hz
              simp only [if_pos (by omega : i < ks.length)] at hz
              omega
            simp only [if_pos hz, ofMerge, FixResult.newRoot.injEq] at hfx
            exact hkeysMerge n (by rw [← hfx, hi0]) h1
          · simp only [if_neg hz, ofMerge] at hfx
            simp at hfx
  · simp only [if_neg hneed] at hfx
    simp at hfx

end BT

namespace BT

variable {T : Type} [Inhabited T]

/-- The main loop of `BTree::remove` on a subtree that stores a key equivalent
to `k`: it succeeds, returns a stored key equivalent to `k`, deletes exactly
that occurrence from the in-order word, and preserves the structural invariants;
the subtree's height shrinks (by one) only when the current node had a single
key and its two children were merged into a new root. -/
theorem removeAux_spec (t : Nat) (lt : T → T → Bool) (W : WeakOrder lt) (ht : 2 ≤ t) :
    ∀ (fuel : Nat) (x : BNode T) (k : T),
    height x ≤ fuel →
    x.keys.length ≤ 2 * t - 1 →
    (x.leaf = false → 1 ≤ x.keys.length) →
    (if x.leaf = true then x.children = [] else x.children.length = x.keys.length + 1) →
    subAll t x.children →
    balanced x →
    sortedLT lt (traverse x) →
    (∃ a ∈ traverse x, eqv lt a k) →
    ∃ v x2, removeAux t lt fuel x k = some (.ok (v, x2)) ∧
      eqv lt v k ∧
      (∃ L1 L2, traverse x = L1 ++ v :: L2 ∧ traverse x2 = L1 ++ L2) ∧
      (if x2.leaf = true then x2.children = []
       else x2.children.length = x2.keys.length + 1) ∧
      (x2.leaf = false → 1 ≤ x2.keys.length) ∧
      x.keys.length - 1 ≤ x2.keys.length ∧ x2.keys.length ≤ 2 * t - 1 ∧
      subAll t x2.children ∧ balanced x2 ∧
      (height x2 = height x ∨ (height x2 + 1 = height x ∧ x.keys.length = 1)) := by
  intro fuel
  induction fuel with
  | zero =>
      intro x k hfuel h2 h3 h4 h5 h6 h7 h8
      exfalso
      have := height_pos x
      omega
  | succ fuel ih =>
      intro x k hfuel hkhi hk1 hsh hsub hbal hsorted hpres
      rcases x with ⟨ks, lf, cs⟩
      simp only [keys_node, leaf_node, children_node] at hkhi hk1 hsh hsub
      rw [height_node] at hfuel
      obtain ⟨i, hidef⟩ : ∃ i, findIndex lt ks k = i := ⟨_, rfl⟩
      cases lf with
      | true =>
          have hcs : cs = [] := by simpa using hsh
          subst hcs
          have hsorted' : sortedLT lt ks := by simpa [traverse] using hsorted
          by_cases hfound : i < ks.length ∧ lt (ks.getD i default) k = false ∧
              lt k (ks.getD i default) = false
          · have hstep : removeAux t lt (fuel + 1) (BNode.node ks true []) k
                = some (.ok (ks.getD i default,
                    BNode.node (ks.eraseIdx i) true [])) := by
              rw [removeAux]
              simp only [keys_node, leaf_node, children_node, hidef]
              rw [if_pos hfound]
              simp only [if_true, nodeDelete, List.eraseIdx_nil]
            have hklen2 : (ks.eraseIdx i).length = ks.length - 1 := by
              rw [List.length_eraseIdx]
              simp only [if_pos hfound.1]
            refine ⟨ks.getD i default, BNode.node (ks.eraseIdx i) true [], hstep,
              ⟨hfound.2.1, hfound.2.2⟩, ⟨ks.take i, ks.drop (i + 1), ?_, ?_⟩,
              by simp, by simp, ?_, ?_, by simp [subAll],
              balanced_intro_leaf (by simp), Or.inl (by simp [height_node, heightList])⟩
            · simp only [traverse]
              exact ks_decomp ks i hfound.1
            · simp only [traverse]
              conv_lhs => rw [ks_decomp ks i hfound.1]
              rw [eraseIdx_append_len_g _ _ _ _ (by rw [List.length_take]; omega)]
            · simp only [keys_node]
              omega
            · simp only [keys_node]
              omega
          · exfalso
            obtain ⟨a, ha, hak⟩ := hpres
            simp only [traverse] at ha
            have hfk := found_at_keys W hsorted' ha hak
            rw [hidef] at hfk
            exact hfound ⟨hfk.1, by rw [hfk.2]; exact hak.1, by rw [hfk.2]; exact hak.2⟩
      | false =>
          have hcl : cs.length = ks.length + 1 := by simpa using hsh
          have hks1 : 1 ≤ ks.length := hk1 rfl
          obtain ⟨hbalA, hhts⟩ := balanced_elim (by simp) hbal
          simp only [children_node] at hbalA hhts
          have hsorted' : sortedLT lt (travSeq cs ks) := by simpa [traverse] using hsorted
          have hfuel' : heightList cs ≤ fuel := by omega
          by_cases hfound : i < ks.length ∧ lt (ks.getD i default) k = false ∧
              lt k (ks.getD i default) = false
          · -- the key sits at position `i` of this internal node
            by_cases hP : t ≤ (cs.getD i default).keys.length
            · -- replace with the predecessor from child `i`
              obtain ⟨v', c2, hrm, ⟨L1, L2, hd1, hd2⟩, hsubc, hbalc, hhtc⟩ :=
                pred_replace_spec t lt W ht ks cs i fuel k hcl hfound.1 hfuel'
                  hsub hbalA hhts hsorted' hP
              have hstep : removeAux t lt (fuel + 1) (BNode.node ks false cs) k
                  = some (.ok (ks.getD i default,
                      BNode.node (ks.set i v') false (cs.set i c2))) := by
                rw [removeAux]
                simp only [keys_node, leaf_node, children_node, hidef,
                  Bool.false_eq_true, if_false]
                rw [if_pos hfound, if_pos hP, hrm]
                simp only [Option.map, setChild, setKey, keys_node, leaf_node,
                  children_node]
              have hA : heightsAll (heightList cs) (cs.set i c2) :=
                heightsAll_set hhts hhtc i
              have hne : cs.set i c2 ≠ [] := by
                intro hcontra
                have := congrArg List.length hcontra
                rw [List.length_set] at this
                simp only [List.length_nil] at this
                omega
              have hHL : heightList (cs.set i c2) = heightList cs :=
                heightList_of_heightsAll hA hne
              refine ⟨ks.getD i default, BNode.node (ks.set i v') false (cs.set i c2),
                hstep, ⟨hfound.2.1, hfound.2.2⟩, ⟨L1, L2, ?_, ?_⟩, ?_, ?_, ?_, ?_, ?_,
                ?_, ?_⟩
              · simp only [traverse]
                exact hd1
              · simp only [traverse]
                exact hd2
              · simp only [leaf_node, Bool.false_eq_true, if_false, children_node,
                  keys_node, List.length_set]
                omega
              · intro _
                simp only [keys_node, List.length_set]
                omega
              · simp only [keys_node, List.length_set]
                omega
              · simp only [keys_node, List.length_set]
                omega
              · simp only [children_node]
                exact subAll_set hsub hsubc i
              · refine balanced_intro (by simp) ?_ ?_
                · simp only [children_node]
                  exact balancedAll_set hbalA hbalc i
                · simp only [children_node]
                  rw [hHL]
                  exact hA
              · left
                simp only [height_node]
                rw [hHL]
            · by_cases hS : t ≤ (cs.getD (i + 1) default).keys.length
              · -- replace with the successor from child `i+1`
                obtain ⟨v', c2, hrm, ⟨L1, L2, hd1, hd2⟩, hsubc, hbalc, hhtc⟩ :=
                  succ_replace_spec t lt W ht ks cs i fuel k hcl hfound.1 hfuel'
                    hsub hbalA hhts hsorted' hS
                have hstep : removeAux t lt (fuel + 1) (BNode.node ks false cs) k
                    = some (.ok (ks.getD i default,
                        BNode.node (ks.set i v') false (cs.set (i + 1) c2))) := by
                  rw [removeAux]
                  simp only [keys_node, leaf_node, children_node, hidef,
                    Bool.false_eq_true, if_false]
                  rw [if_pos hfound, if_neg hP, if_pos hS, hrm]
                  simp only [Option.map, setChild, setKey, keys_node, leaf_node,
                    children_node]
                have hA : heightsAll (heightList cs) (cs.set (i + 1) c2) :=
                  heightsAll_set hhts hhtc (i + 1)
                have hne : cs.set (i + 1) c2 ≠ [] := by
                  intro hcontra
                  have := congrArg List.length hcontra
                  rw [List.length_set] at this
                  simp only [List.length_nil] at this
                  omega
                have hHL : heightList (cs.set (i + 1) c2) = heightList cs :=
                  heightList_of_heightsAll hA hne
                refine ⟨ks.getD i default,
                  BNode.node (ks.set i v') false (cs.set (i + 1) c2),
                  hstep, ⟨hfound.2.1, hfound.2.2⟩, ⟨L1, L2, ?_, ?_⟩, ?_, ?_, ?_, ?_,
                  ?_, ?_, ?_⟩
                · simp only [traverse]
                  exact hd1
                · simp only [traverse]
                  exact hd2
                · simp only [leaf_node, Bool.false_eq_true, if_false, children_node,
                    keys_node, List.length_set]
                  omega
                · intro _
                  simp only [keys_node, List.length_set]
                  omega
                · simp only [keys_node, List.length_set]
                  omega
                · simp only [keys_node, List.length_set]
                  omega
                · simp only [children_node]
                  exact subAll_set hsub hsubc (i + 1)
                · refine balanced_intro (by simp) ?_ ?_
                  · simp only [children_node]
                    exact balancedAll_set hbalA hbalc (i + 1)
                  · simp only [children_node]
                    rw [hHL]
                    exact hA
                · left
                  simp only [height_node]
                  rw [hHL]
              · -- both children minimal: merge and descend
                have hLk : (cs.getD i default).keys.length = t - 1 := by
                  have := (subOk_elim (subAll_getD hsub i (by omega))).1
                  omega
                have hRk : (cs.getD (i + 1) default).keys.length = t - 1 := by
                  have := (subOk_elim (subAll_getD hsub (i + 1) (by omega))).1
                  omega
                have hmerge := merge_spec t lt W ks cs i ht hcl hfound.1 hsub hbalA
                  hhts hLk hRk
                by_cases h1 : 1 < ks.length
                · obtain ⟨cs2, hmc, htrav2, hcl2, hsub2, hbal2, hhts2, hchild, hmk,
                    hmtrav⟩ := hmerge.1 h1
                  have hklen2 : (ks.eraseIdx i).length = ks.length - 1 := by
                    rw [List.length_eraseIdx]
                    simp only [if_pos hfound.1]
                  have hcl2' : cs2.length = (ks.eraseIdx i).length + 1 := by omega
                  have hsubM := subOk_elim (subAll_getD hsub2 i (by omega))
                  have hhtM := heightsAll_getD (heightList cs) cs2 hhts2 i (by omega)
                  have hsorted2 : sortedLT lt (travSeq cs2 (ks.eraseIdx i)) := by
                    rw [htrav2]
                    exact hsorted'
                  obtain ⟨v, c2', hrec, heqv, ⟨L1', L2', hd1, hd2⟩, hsh', hk1', hlb',
                    hub', hsubc', hbalc', hhd'⟩ :=
                    ih (cs2.getD i default) k (by omega)
                      (by rw [hchild]; omega)
                      (fun _ => by rw [hchild]; omega)
                      hsubM.2.1 hsubM.2.2
                      (balancedAll_getD hbal2 i (by omega))
                      (sortedLT_sublist
                        (child_sublist_travSeq i cs2 (ks.eraseIdx i) hcl2' (by omega))
                        hsorted2)
                      ⟨ks.getD i default,
                        by
                          rw [hchild, hmtrav]
                          exact List.mem_append_right _ (List.mem_cons_self _ _),
                        ⟨hfound.2.1, hfound.2.2⟩⟩
                  have hlbm : 2 * t - 1 - 1 ≤ c2'.keys.length := by
                    rw [hchild, hmk] at hlb'
                    exact hlb'
                  have hhc2 : height c2' = heightList cs := by
                    rcases hhd' with h | h
                    · rw [h, hhtM]
                    · exfalso
                      have := h.2
                      rw [hchild, hmk] at this
                      omega
                  have hstep : removeAux t lt (fuel + 1) (BNode.node ks false cs) k
                      = writeback (BNode.node (ks.eraseIdx i) false cs2) i
                          (removeAux t lt fuel (cs2.getD i default) k) := by
                    rw [removeAux]
                    simp only [keys_node, leaf_node, children_node, hidef,
                      Bool.false_eq_true, if_false]
                    rw [if_pos hfound, if_neg hP, if_neg hS, hmc]
                    simp only [children_node]
                  have hA2 : heightsAll (heightList cs) (cs2.set i c2') :=
                    heightsAll_set hhts2 hhc2 i
                  have hne2 : cs2.set i c2' ≠ [] := by
                    intro hcontra
                    have := congrArg List.length hcontra
                    rw [List.length_set] at this
                    simp only [List.length_nil] at this
                    omega
                  have hHL2 : heightList (cs2.set i c2') = heightList cs :=
                    heightList_of_heightsAll hA2 hne2
                  rw [hstep, hrec]
                  refine ⟨v, BNode.node (ks.eraseIdx i) false (cs2.set i c2'), ?_,
                    heqv,
                    ⟨travSeq (cs2.take i) ((ks.eraseIdx i).take i) ++ L1',
                     L2' ++ travSeqK ((ks.eraseIdx i).drop i) (cs2.drop (i + 1)),
                     ?_, ?_⟩, ?_, ?_, ?_, ?_, ?_, ?_, ?_⟩
                  · simp only [writeback, setChild, keys_node, leaf_node,
                      children_node]
                  · simp only [traverse]
                    rw [← htrav2, travSeq_split_child i cs2 (ks.eraseIdx i) hcl2'
                      (by omega), hd1]
                    simp [List.append_assoc]
                  · simp only [traverse]
                    rw [travSeq_set_child i cs2 (ks.eraseIdx i) c2' hcl2' (by omega),
                      hd2]
                    simp [List.append_assoc]
                  · simp only [leaf_node, Bool.false_eq_true, if_false, children_node,
                      keys_node, List.length_set]
                    omega
                  · intro _
                    simp only [keys_node]
                    omega
                  · simp only [keys_node]
                    omega
                  · simp only [keys_node]
                    omega
                  · simp only [children_node]
                    exact subAll_set hsub2 (subOk_intro (by omega) hub' hsh' hsubc') i
                  · refine balanced_intro (by simp) ?_ ?_
                    · simp only [children_node]
                      exact balancedAll_set hbal2 hbalc' i
                    · simp only [children_node]
                      rw [hHL2]
                      exact hA2
                  · left
                    simp only [height_node]
                    rw [hHL2]
                · have h1' : ks.length = 1 := by omega
                  obtain ⟨hmc, hntrav, hnsub, hnbal, hnht, hnmk, hnmtrav⟩ :=
                    hmerge.2 h1'
                  have helim := subOk_elim hnsub
                  have hstep : removeAux t lt (fuel + 1) (BNode.node ks false cs) k
                      = removeAux t lt fuel (specMerge (BNode.node ks false cs) i) k := by
                    rw [removeAux]
                    simp only [keys_node, leaf_node, children_node, hidef,
                      Bool.false_eq_true, if_false]
                    rw [if_pos hfound, if_neg hP, if_neg hS, hmc]
                  obtain ⟨v, x2, hrec, heqv, ⟨L1', L2', hd1, hd2⟩, hsh', hk1', hlb',
                    hub', hsubc', hbalc', hhd'⟩ :=
                    ih (specMerge (BNode.node ks false cs) i) k
                      (by rw [hnht]; exact hfuel')
                      helim.1.2
                      (fun _ => by omega)
                      helim.2.1 helim.2.2 hnbal
                      (by rw [hntrav]; exact hsorted')
                      ⟨ks.getD i default,
                        by
                          rw [hnmtrav]
                          exact List.mem_append_right _ (List.mem_cons_self _ _),
                        ⟨hfound.2.1, hfound.2.2⟩⟩
                  refine ⟨v, x2, hstep.trans hrec, heqv, ⟨L1', L2', ?_, hd2⟩, hsh',
                    hk1', by simp only [keys_node]; omega, hub', hsubc', hbalc', ?_⟩
                  · simp only [traverse]
                    rw [← hntrav]
                    exact hd1
                  · right
                    refine ⟨?_, h1'⟩
                    have hhx2 : height x2 = heightList cs := by
                      rcases hhd' with h | h
                      · rw [h, hnht]
                      · exfalso
                        omega
                    rw [hhx2, height_node]
          · -- the key is not at this node: fix the child and descend
            have hki : i < ks.length → lt k (ks.getD i default) = true := by
              intro hilt
              have hstop : lt (ks.getD i default) k = false := by
                have := findIndex_stop lt ks k (by rw [hidef]; exact hilt)
                rw [hidef] at this
                exact this
              by_contra hc
              have hceq : lt k (ks.getD i default) = false := by
                revert hc
                cases lt k (ks.getD i default) <;> simp
              exact hfound ⟨hilt, hstop, hceq⟩
            rcases removeFix_spec t lt W ks cs k i ht hcl hks1 hsub hbalA hhts
                hsorted' hidef hki with
              ⟨ks2, cs2, i2, hfx, htr2, hcl2, hlb2, hub2, hsub2, hbal2, hhts2, hfi2,
                hi2le, hstop2, hbig⟩ |
              ⟨hl1, n, hfx, hntrav, hnsub, hnbal, hnht⟩
            · have hks2pos : 1 ≤ ks2.length :=
                fixChildSize_keys_pos t lt ks ks2 cs cs2 i hks1 hfx
              obtain ⟨a, ha, hak⟩ := hpres
              simp only [traverse] at ha
              have ha2 : a ∈ travSeq cs2 ks2 := by
                rw [htr2]
                exact ha
              have hsorted2 : sortedLT lt (travSeq cs2 ks2) := by
                rw [htr2]
                exact hsorted'
              have hnf2 : ¬ (findIndex lt ks2 k < ks2.length ∧
                  lt (ks2.getD (findIndex lt ks2 k) default) k = false ∧
                  lt k (ks2.getD (findIndex lt ks2 k) default) = false) := by
                rw [hfi2]
                rintro ⟨hq1, hq2, hq3⟩
                rcases hstop2 with he | hlt2
                · omega
                · rw [hlt2] at hq3
                  exact Bool.noConfusion hq3
              have hmemc : a ∈ traverse (cs2.getD i2 default) := by
                have := present_in_child W hcl2 hsorted2 ha2 hak hnf2
                rw [hfi2] at this
                exact this
              have hi2c : i2 < cs2.length := by omega
              have hsubM := subOk_elim (subAll_getD hsub2 i2 hi2c)
              have hhtM := heightsAll_getD (heightList cs) cs2 hhts2 i2 hi2c
              obtain ⟨v, c2', hrec, heqv, ⟨L1', L2', hd1, hd2⟩, hsh', hk1', hlb',
                hub', hsubc', hbalc', hhd'⟩ :=
                ih (cs2.getD i2 default) k (by omega) hsubM.1.2 (fun _ => by omega)
                  hsubM.2.1 hsubM.2.2 (balancedAll_getD hbal2 i2 hi2c)
                  (sortedLT_sublist (child_sublist_travSeq i2 cs2 ks2 hcl2 hi2le)
                    hsorted2)
                  ⟨a, hmemc, hak⟩
              have hhc2 : height c2' = heightList cs := by
                rcases hhd' with h | h
                · rw [h, hhtM]
                · exfalso
                  omega
              have hstep : removeAux t lt (fuel + 1) (BNode.node ks false cs) k
                  = writeback (BNode.node ks2 false cs2) i2
                      (removeAux t lt fuel (cs2.getD i2 default) k) := by
                rw [removeAux]
                simp only [keys_node, leaf_node, children_node, hidef,
                  Bool.false_eq_true, if_false]
                rw [if_neg hfound]
                rcases hfx with hfx | hfx <;>
                  · rw [hfx]
                    simp only [keys_node, children_node, hfi2]
              have hA2 : heightsAll (heightList cs) (cs2.set i2 c2') :=
                heightsAll_set hhts2 hhc2 i2
              have hne2 : cs2.set i2 c2' ≠ [] := by
                intro hcontra
                have := congrArg List.length hcontra
                rw [List.length_set] at this
                simp only [List.length_nil] at this
                omega
              have hHL2 : heightList (cs2.set i2 c2') = heightList cs :=
                heightList_of_heightsAll hA2 hne2
              rw [hstep, hrec]
              refine ⟨v, BNode.node ks2 false (cs2.set i2 c2'), ?_, heqv,
                ⟨travSeq (cs2.take i2) (ks2.take i2) ++ L1',
                 L2' ++ travSeqK (ks2.drop i2) (cs2.drop (i2 + 1)), ?_, ?_⟩,
                ?_, ?_, ?_, ?_, ?_, ?_, ?_⟩
              · simp only [writeback, setChild, keys_node, leaf_node, children_node]
              · simp only [traverse]
                rw [← htr2, travSeq_split_child i2 cs2 ks2 hcl2 hi2le, hd1]
                simp [List.append_assoc]
              · simp only [traverse]
                rw [travSeq_set_child i2 cs2 ks2 c2' hcl2 hi2le, hd2]
                simp [List.append_assoc]
              · simp only [leaf_node, Bool.false_eq_true, if_false, children_node,
                  keys_node, List.length_set]
                omega
              · intro _
                simp only [keys_node]
                omega
              · simp only [keys_node]
                omega
              · simp only [keys_node]
                omega
              · simp only [children_node]
                exact subAll_set hsub2 (subOk_intro (by omega) hub' hsh' hsubc') i2
              · refine balanced_intro (by simp) ?_ ?_
                · simp only [children_node]
                  exact balancedAll_set hbal2 hbalc' i2
                · simp only [children_node]
                  rw [hHL2]
                  exact hA2
              · left
                simp only [height_node]
                rw [hHL2]
            · have hnkeys : 2 ≤ n.keys.length :=
                fixChildSize_newRoot_keys t lt ks cs i n ht hks1 hcl hsub hfx
              have helim := subOk_elim hnsub
              obtain ⟨a, ha, hak⟩ := hpres
              simp only [traverse] at ha
              obtain ⟨v, x2, hrec, heqv, ⟨L1', L2', hd1, hd2⟩, hsh', hk1', hlb',
                hub', hsubc', hbalc', hhd'⟩ :=
                ih n k (by omega) helim.1.2 (fun _ => by omega) helim.2.1 helim.2.2
                  hnbal (by rw [hntrav]; exact hsorted')
                  ⟨a, by rw [hntrav]; exact ha, hak⟩
              have hstep : removeAux t lt (fuel + 1) (BNode.node ks false cs) k
                  = removeAux t lt fuel n k := by
                rw [removeAux]
                simp only [keys_node, leaf_node, children_node, hidef,
                  Bool.false_eq_true, if_false]
                rw [if_neg hfound, hfx]
              refine ⟨v, x2, hstep.trans hrec, heqv, ⟨L1', L2', ?_, hd2⟩, hsh', hk1',
                by simp only [keys_node]; omega, hub', hsubc', hbalc', ?_⟩
              · simp only [traverse]
                rw [← hntrav]
                exact hd1
              · right
                refine ⟨?_, hl1⟩
                have hhx2 : height x2 = heightList cs := by
                  rcases hhd' with h | h
                  · rw [h, hnht]
                  · exfalso
                    omega
                rw [hhx2, height_node]

end BT

namespace BT

variable {T : Type} [Inhabited T]

/-- The main loop of `BTree::remove` on a subtree that stores no key equivalent
to `k`: it throws `REMOVE_KEY_NOT_FOUND`, the in-order word of the subtree is
unchanged, and the structural invariants still hold — but the node layout may
have changed (descent fix-ups may have merged or rotated children, and the
height shrinks by one when a merge empties a single-key node). -/
theorem removeAux_absent_spec (t : Nat) (lt : T → T → Bool) (W : WeakOrder lt)
    (ht : 2 ≤ t) :
    ∀ (fuel : Nat) (x : BNode T) (k : T),
    height x ≤ fuel →
    x.keys.length ≤ 2 * t - 1 →
    (x.leaf = false → 1 ≤ x.keys.length) →
    (if x.leaf = true then x.children = [] else x.children.length = x.keys.length + 1) →
    subAll t x.children →
    balanced x →
    sortedLT lt (traverse x) →
    (∀ a ∈ traverse x, ¬ eqv lt a k) →
    ∃ x2, removeAux t lt fuel x k = some (.error (REMOVE_KEY_NOT_FOUND, x2)) ∧
      traverse x2 = traverse x ∧
      (if x2.leaf = true then x2.children = []
       else x2.children.length = x2.keys.length + 1) ∧
      (x2.leaf = false → 1 ≤ x2.keys.length) ∧
      x.keys.length - 1 ≤ x2.keys.length ∧ x2.keys.length ≤ 2 * t - 1 ∧
      subAll t x2.children ∧ balanced x2 ∧
      (height x2 = height x ∨ (height x2 + 1 = height x ∧ x.keys.length = 1)) := by
  intro fuel
  induction fuel with
  | zero =>
      intro x k hfuel h2 h3 h4 h5 h6 h7 h8
      exfalso
      have := height_pos x
      omega
  | succ fuel ih =>
      intro x k hfuel hkhi hk1 hsh hsub hbal hsorted habs
      rcases x with ⟨ks, lf, cs⟩
      simp only [keys_node, leaf_node, children_node] at hkhi hk1 hsh hsub
      rw [height_node] at hfuel
      obtain ⟨i, hidef⟩ : ∃ i, findIndex lt ks k = i := ⟨_, rfl⟩
      have hfound : ¬ (i < ks.length ∧ lt (ks.getD i default) k = false ∧
          lt k (ks.getD i default) = false) := by
        rintro ⟨hq1, hq2, hq3⟩
        have hmem : ks.getD i default ∈ traverse (BNode.node ks lf cs) := by
          have h1 := getD_mem ks i default hq1
          exact List.Sublist.mem h1 (keys_sublist_traverse (BNode.node ks lf cs))
        exact habs _ hmem ⟨hq2, hq3⟩
      cases lf with
      | true =>
          have hcs : cs = [] := by simpa using hsh
          subst hcs
          have hstep : removeAux t lt (fuel + 1) (BNode.node ks true []) k
              = some (.error (REMOVE_KEY_NOT_FOUND, BNode.node ks true [])) := by
            rw [removeAux]
            simp only [keys_node, leaf_node, children_node, hidef]
            rw [if_neg hfound]
            simp only [if_true]
          exact ⟨BNode.node ks true [], hstep, rfl, by simp, by simp, by omega,
            by simpa using hkhi, by simp [subAll], balanced_intro_leaf (by simp),
            Or.inl rfl⟩
      | false =>
          have hcl : cs.length = ks.length + 1 := by simpa using hsh
          have hks1 : 1 ≤ ks.length := hk1 rfl
          obtain ⟨hbalA, hhts⟩ := balanced_elim (by simp) hbal
          simp only [children_node] at hbalA hhts
          have hsorted' : sortedLT lt (travSeq cs ks) := by simpa [traverse] using hsorted
          have habs' : ∀ a ∈ travSeq cs ks, ¬ eqv lt a k := by
            intro a ha
            exact habs a (by simpa [traverse] using ha)
          have hfuel' : heightList cs ≤ fuel := by omega
          have hki : i < ks.length → lt k (ks.getD i default) = true := by
            intro hilt
            have hstop : lt (ks.getD i default) k = false := by
              have := findIndex_stop lt ks k (by rw [hidef]; exact hilt)
              rw [hidef] at this
              exact this
            by_contra hc
            have hceq : lt k (ks.getD i default) = false := by
              revert hc
              cases lt k (ks.getD i default) <;> simp
            exact hfound ⟨hilt, hstop, hceq⟩
          rcases removeFix_spec t lt W ks cs k i ht hcl hks1 hsub hbalA hhts
              hsorted' hidef hki with
            ⟨ks2, cs2, i2, hfx, htr2, hcl2, hlb2, hub2, hsub2, hbal2, hhts2, hfi2,
              hi2le, hstop2, hbig⟩ |
            ⟨hl1, n, hfx, hntrav, hnsub, hnbal, hnht⟩
          · have hks2pos : 1 ≤ ks2.length :=
              fixChildSize_keys_pos t lt ks ks2 cs cs2 i hks1 hfx
            have hi2c : i2 < cs2.length := by omega
            have hsubM := subOk_elim (subAll_getD hsub2 i2 hi2c)
            have hhtM := heightsAll_getD (heightList cs) cs2 hhts2 i2 hi2c
            have hsorted2 : sortedLT lt (travSeq cs2 ks2) := by
              rw [htr2]
              exact hsorted'
            have habsc : ∀ a ∈ traverse (cs2.getD i2 default), ¬ eqv lt a k := by
              intro a ha
              refine habs' a ?_
              rw [← htr2]
              exact List.Sublist.mem ha (child_sublist_travSeq i2 cs2 ks2 hcl2 hi2le)
            obtain ⟨c2', hrec, htc, hsh', hk1', hlb', hub', hsubc', hbalc', hhd'⟩ :=
              ih (cs2.getD i2 default) k (by omega) hsubM.1.2 (fun _ => by omega)
                hsubM.2.1 hsubM.2.2 (balancedAll_getD hbal2 i2 hi2c)
                (sortedLT_sublist (child_sublist_travSeq i2 cs2 ks2 hcl2 hi2le)
                  hsorted2)
                habsc
            have hhc2 : height c2' = heightList cs := by
              rcases hhd' with h | h
              · rw [h, hhtM]
              · exfalso
                omega
            have hstep : removeAux t lt (fuel + 1) (BNode.node ks false cs) k
                = writeback (BNode.node ks2 false cs2) i2
                    (removeAux t lt fuel (cs2.getD i2 default) k) := by
              rw [removeAux]
              simp only [keys_node, leaf_node, children_node, hidef,
                Bool.false_eq_true, if_false]
              rw [if_neg hfound]
              rcases hfx with hfx | hfx <;>
                · rw [hfx]
                  simp only [keys_node, children_node, hfi2]
            have hA2 : heightsAll (heightList cs) (cs2.set i2 c2') :=
              heightsAll_set hhts2 hhc2 i2
            have hne2 : cs2.set i2 c2' ≠ [] := by
              intro hcontra
              have := congrArg List.length hcontra
              rw [List.length_set] at this
              simp only [List.length_nil] at this
              omega
            have hHL2 : heightList (cs2.set i2 c2') = heightList cs :=
              heightList_of_heightsAll hA2 hne2
            rw [hstep, hrec]
            refine ⟨BNode.node ks2 false (cs2.set i2 c2'), ?_, ?_, ?_, ?_, ?_, ?_,
              ?_, ?_, ?_⟩
            · simp only [writeback, setChild, keys_node, leaf_node, children_node]
            · simp only [traverse]
              rw [travSeq_set_child i2 cs2 ks2 c2' hcl2 hi2le, htc, ← htr2,
                travSeq_split_child i2 cs2 ks2 hcl2 hi2le]
            · simp only [leaf_node, Bool.false_eq_true, if_false, children_node,
                keys_node, List.length_set]
              omega
            · intro _
              simp only [keys_node]
              omega
            · simp only [keys_node]
              omega
            · simp only [keys_node]
              omega
            · simp only [children_node]
              exact subAll_set hsub2 (subOk_intro (by omega) hub' hsh' hsubc') i2
            · refine balanced_intro (by simp) ?_ ?_
              · simp only [children_node]
                exact balancedAll_set hbal2 hbalc' i2
              · simp only [children_node]
                rw [hHL2]
                exact hA2
            · left
              simp only [height_node]
              rw [hHL2]
          · have hnkeys : 2 ≤ n.keys.length :=
              fixChildSize_newRoot_keys t lt ks cs i n ht hks1 hcl hsub hfx
            have helim := subOk_elim hnsub
            obtain ⟨x2, hrec, htc, hsh', hk1', hlb', hub', hsubc', hbalc', hhd'⟩ :=
              ih n k (by omega) helim.1.2 (fun _ => by omega) helim.2.1 helim.2.2
                hnbal (by rw [hntrav]; exact hsorted')
                (by
                  intro a ha
                  refine habs' a ?_
                  rw [← hntrav]
                  exact ha)
            have hstep : removeAux t lt (fuel + 1) (BNode.node ks false cs) k
                = removeAux t lt fuel n k := by
              rw [removeAux]
              simp only [keys_node, leaf_node, children_node, hidef,
                Bool.false_eq_true, if_false]
              rw [if_neg hfound, hfx]
            refine ⟨x2, hstep.trans hrec, ?_, hsh', hk1',
              by simp only [keys_node]; omega, hub', hsubc', hbalc', ?_⟩
            · simp only [traverse]
              rw [htc, hntrav]
            · right
              refine ⟨?_, hl1⟩
              have hhx2 : height x2 = heightList cs := by
                rcases hhd' with h | h
                · rw [h, hnht]
                · exfalso
                  omega
              rw [hhx2, height_node]

end BT

namespace BT

variable {T : Type} [Inhabited T]

theorem natlt_true_iff (a b : Nat) : natlt a b = true ↔ a < b := by
  simp [natlt, Nat.blt_eq]

theorem natlt_weak : WeakOrder natlt := by
  refine ⟨fun a => ?_, fun a b c h1 h2 => ?_, fun a b c h1 h2 => ?_⟩
  · cases h : natlt a a
    · rfl
    · exfalso
      have := (natlt_true_iff a a).mp h
      omega
  · rw [natlt_true_iff] at h1 h2 ⊢
    omega
  · cases h : natlt a c
    · rfl
    · exfalso
      have h3 := (natlt_true_iff a c).mp h
      have h4 : ¬ a < b := fun hc => by
        rw [(natlt_true_iff a b).mpr hc] at h1
        exact Bool.noConfusion h1
      have h5 : ¬ b < c := fun hc => by
        rw [(natlt_true_iff b c).mpr hc] at h2
        exact Bool.noConfusion h2
      omega

/-- In a strictly increasing list two members equivalent under the comparator
are the same member. -/
theorem eqv_eq_of_sortedLT {lt : T → T → Bool} (W : WeakOrder lt) {l : List T}
    {v r : T} (hs : sortedLT lt l) (hv : v ∈ l) (hr : r ∈ l) (h : eqv lt v r) :
    v = r := by
  obtain ⟨iv, hivlt, hivget⟩ := List.mem_iff_getElem.mp hv
  obtain ⟨ir, hirlt, hirget⟩ := List.mem_iff_getElem.mp hr
  rw [sortedLT, List.pairwise_iff_getElem] at hs
  rcases Nat.lt_trichotomy iv ir with hlt | heq | hgt
  · have hvr := hs iv ir hivlt hirlt hlt
    rw [hivget, hirget] at hvr
    have h2 := h.1
    rw [hvr] at h2
    exact Bool.noConfusion h2
  · subst heq
    exact hivget.symm.trans hirget
  · have hvr := hs ir iv hirlt hivlt hgt
    rw [hivget, hirget] at hvr
    have h2 := h.2
    rw [hvr] at h2
    exact Bool.noConfusion h2

/-- `BTree::remove` on a well-formed tree (pairwise non-equivalent keys) that
stores a key equivalent to `k`: success, returning that stored key and deleting
exactly its occurrence from the in-order word, with the invariant preserved. -/
theorem remove_spec (t : Nat) (lt : T → T → Bool) (W : WeakOrder lt) (ht : 2 ≤ t)
    (x : BNode T) (k : T) (hInv : Inv t lt x)
    (hpres : ∃ a ∈ traverse x, eqv lt a k) :
    ∃ v x2, remove t lt x k = .ok (v, x2) ∧ eqv lt v k ∧
      (∃ L1 L2, traverse x = L1 ++ v :: L2 ∧ traverse x2 = L1 ++ L2) ∧
      Inv t lt x2 := by
  obtain ⟨hroot, hbal, hsorted⟩ := hInv
  obtain ⟨hrlen, hrsh, hrsub⟩ := rootOk_elim hroot
  have hk1 : x.leaf = false → 1 ≤ x.keys.length := by
    intro hlf
    rw [hlf] at hrsh
    simp only [Bool.false_eq_true, if_false] at hrsh
    exact hrsh.1
  have hsh : if x.leaf = true then x.children = []
      else x.children.length = x.keys.length + 1 := by
    by_cases hlf : x.leaf = true
    · rw [if_pos hlf] at hrsh ⊢
      exact hrsh
    · rw [if_neg hlf] at hrsh ⊢
      exact hrsh.2
  obtain ⟨v, x2, hrec, heqv, ⟨L1, L2, hd1, hd2⟩, hsh2, hk12, hlb, hub, hsub2, hbal2,
    hht2⟩ := removeAux_spec t lt W ht (height x + 1) x k (by omega) hrlen hk1 hsh
      hrsub hbal hsorted hpres
  refine ⟨v, x2, ?_, heqv, ⟨L1, L2, hd1, hd2⟩, ?_, hbal2, ?_⟩
  · simp only [remove]
    rw [hrec]
    rfl
  · refine rootOk_intro hub ?_ hsub2
    by_cases hlf : x2.leaf = true
    · rw [if_pos hlf] at hsh2 ⊢
      exact hsh2
    · rw [if_neg hlf] at hsh2 ⊢
      refine ⟨hk12 ?_, hsh2⟩
      revert hlf
      cases x2.leaf <;> simp
  · rw [hd2]
    refine sortedLT_sublist ?_ (show sortedLT lt (L1 ++ v :: L2) from hd1 ▸ hsorted)
    exact List.Sublist.append_left (List.sublist_cons_self v L2) L1

/-- A well-formed tree whose in-order word is empty is the empty root. -/
theorem root_empty_traverse (t : Nat) (x : BNode T) (hroot : rootOk t x)
    (htr : traverse x = []) : x = emptyTree := by
  rcases x with ⟨ks, lf, cs⟩
  obtain ⟨h1, h2, h3⟩ := rootOk_elim hroot
  simp only [keys_node, leaf_node, children_node] at h1 h2 h3
  cases lf with
  | true =>
      have hks : ks = [] := by simpa [traverse] using htr
      subst hks
      have hcs : cs = [] := by simpa using h2
      subst hcs
      rfl
  | false =>
      exfalso
      have hsub := keys_sublist_traverse (BNode.node ks false cs)
      rw [htr] at hsub
      have hks : ks = [] := by simpa using List.sublist_nil.mp (by simpa using hsub)
      have h2' : 1 ≤ ks.length := by simpa using (by simpa using h2 : _ ∧ _).1
      rw [hks] at h2'
      simp at h2'

/-- The tree produced by the constructor is well formed. -/
theorem emptyTree_Inv (t : Nat) (lt : T → T → Bool) : Inv t lt (emptyTree : BNode T) := by
  refine ⟨?_, balanced_intro_leaf rfl, ?_⟩
  · show rootOk t (BNode.node [] true [])
    rw [rootOk]
    refine ⟨by simp, by simp, trivial⟩
  · show sortedLT lt (traverse (BNode.node [] true []))
    simp [traverse, sortedLT]

/-- Folding a list of inserts of pairwise fresh, pairwise non-equivalent keys:
the invariant is preserved and the in-order word gains exactly those keys. -/
theorem applyOps_ins_fold (t : Nat) (lt : T → T → Bool) (W : WeakOrder lt)
    (ht : 2 ≤ t) :
    ∀ (ks : List T) (x : BNode T), Inv t lt x →
    (∀ b ∈ ks, ∀ a ∈ traverse x, ¬ eqv lt a b) →
    ks.Pairwise (fun a b => ¬ eqv lt a b) →
    Inv t lt (applyOps t lt x (ks.map .ins)) ∧
    (traverse (applyOps t lt x (ks.map .ins))).Perm (ks ++ traverse x) := by
  intro ks
  induction ks with
  | nil =>
      intro x hInv hfresh hpw
      refine ⟨by simpa [applyOps] using hInv, ?_⟩
      simp only [List.map_nil, applyOps, List.foldl_nil, List.nil_append]
      exact List.Perm.refl _
  | cons k ks ih =>
      intro x hInv hfresh hpw
      obtain ⟨hpwk, hpw'⟩ := List.pairwise_cons.mp hpw
      have hfk : ∀ a ∈ traverse x, ¬ eqv lt a k :=
        fun a ha => hfresh k (by simp) a ha
      obtain ⟨hInv1, hperm1⟩ := insert_spec t lt W ht x k hInv hfk
      have happ : applyOps t lt x ((k :: ks).map .ins)
          = applyOps t lt (insert t lt x k) (ks.map .ins) := by
        simp [applyOps, applyOp]
      rw [happ]
      have hfresh' : ∀ b ∈ ks, ∀ a ∈ traverse (insert t lt x k), ¬ eqv lt a b := by
        intro b hb a ha
        have ha2 : a ∈ k :: traverse x := hperm1.mem_iff.mp ha
        rcases List.mem_cons.mp ha2 with rfl | ha3
        · exact hpwk b hb
        · exact hfresh b (List.mem_cons_of_mem k hb) a ha3
      obtain ⟨hInv2, hperm2⟩ := ih (insert t lt x k) hInv1 hfresh' hpw'
      refine ⟨hInv2, hperm2.trans ?_⟩
      exact (List.Perm.append_left ks hperm1).trans List.perm_middle

/-- Folding removals of a permutation of the stored keys on a well-formed tree
empties it. -/
theorem applyOps_del_fold (t : Nat) (lt : T → T → Bool) (W : WeakOrder lt)
    (ht : 2 ≤ t) :
    ∀ (rs : List T) (x : BNode T), Inv t lt x →
    (traverse x).Perm rs →
    Inv t lt (applyOps t lt x (rs.map .del)) ∧
    traverse (applyOps t lt x (rs.map .del)) = [] := by
  intro rs
  induction rs with
  | nil =>
      intro x hInv hperm
      refine ⟨by simpa [applyOps] using hInv, ?_⟩
      simp only [List.map_nil, applyOps, List.foldl_nil]
      exact List.Perm.eq_nil hperm
  | cons r rs ih =>
      intro x hInv hperm
      have hpres : ∃ a ∈ traverse x, eqv lt a r :=
        ⟨r, hperm.mem_iff.mpr (by simp), eqv_refl W r⟩
      obtain ⟨v, x2, hrm, heqv, ⟨L1, L2, hd1, hd2⟩, hInv2⟩ :=
        remove_spec t lt W ht x r hInv hpres
      have hvr : v = r := by
        refine eqv_eq_of_sortedLT W hInv.2.2 ?_ (hperm.mem_iff.mpr (by simp)) heqv
        rw [hd1]
        exact List.mem_append_right _ (List.mem_cons_self _ _)
      have happ : applyOps t lt x ((r :: rs).map .del)
          = applyOps t lt x2 (rs.map .del) := by
        simp only [List.map, applyOps, List.foldl_cons]
        congr 1
        simp only [applyOp]
        rw [hrm]
      rw [happ]
      have hperm2 : (traverse x2).Perm rs := by
        have h3 : (v :: (L1 ++ L2)).Perm (r :: rs) :=
          List.perm_middle.symm.trans (hd1 ▸ hperm)
        rw [hvr] at h3
        rw [hd2]
        exact h3.cons_inv
      exact ih x2 hInv2 hperm2

end BT

namespace BT

variable {T : Type} [Inhabited T]

/-- C2 (amended): `remove` on a well-formed tree (pairwise non-equivalent keys)
holding no key equivalent to `k` fails with `REMOVE_KEY_NOT_FOUND` and leaves
the in-order word — hence the multiset of stored keys — unchanged, and the tree
still well formed; but the failed call may restructure the tree (its descent
fix-ups can merge or rotate nodes and shrink the height), so the tree need not
be structurally identical. -/
theorem C2_amended_remove_absent (t : Nat) (lt : T → T → Bool) (W : WeakOrder lt)
    (ht : 2 ≤ t) (x : BNode T) (k : T) (hInv : Inv t lt x)
    (habs : ∀ a ∈ traverse x, ¬ eqv lt a k) :
    ∃ x2, remove t lt x k = .error (REMOVE_KEY_NOT_FOUND, x2) ∧
      traverse x2 = traverse x ∧ Inv t lt x2 := by
  obtain ⟨hroot, hbal, hsorted⟩ := hInv
  obtain ⟨hrlen, hrsh, hrsub⟩ := rootOk_elim hroot
  have hk1 : x.leaf = false → 1 ≤ x.keys.length := by
    intro hlf
    rw [hlf] at hrsh
    simp only [Bool.false_eq_true, if_false] at hrsh
    exact hrsh.1
  have hsh : if x.leaf = true then x.children = []
      else x.children.length = x.keys.length + 1 := by
    by_cases hlf : x.leaf = true
    · rw [if_pos hlf] at hrsh ⊢
      exact hrsh
    · rw [if_neg hlf] at hrsh ⊢
      exact hrsh.2
  obtain ⟨x2, hrec, htc, hsh2, hk12, hlb, hub, hsub2, hbal2, hht2⟩ :=
    removeAux_absent_spec t lt W ht (height x + 1) x k (by omega) hrlen hk1 hsh
      hrsub hbal hsorted habs
  refine ⟨x2, ?_, htc, ?_, hbal2, ?_⟩
  · simp only [remove]
    rw [hrec]
    rfl
  · refine rootOk_intro hub ?_ hsub2
    by_cases hlf : x2.leaf = true
    · rw [if_pos hlf] at hsh2 ⊢
      exact hsh2
    · rw [if_neg hlf] at hsh2 ⊢
      refine ⟨hk12 ?_, hsh2⟩
      revert hlf
      cases x2.leaf <;> simp
  · rw [htc]
    exact hsorted

/-- Witness for C2 (amended) at a concrete input: removing `5` from the empty
tree over `Nat`. -/
theorem C2_amended_remove_absent_witness :
    ∃ x2, remove 2 natlt (emptyTree : BNode Nat) 5
        = .error (REMOVE_KEY_NOT_FOUND, x2) ∧
      traverse x2 = traverse (emptyTree : BNode Nat) ∧ Inv 2 natlt x2 :=
  C2_amended_remove_absent 2 natlt natlt_weak (by decide) emptyTree 5
    (emptyTree_Inv 2 natlt) (by intro a ha; simp [emptyTree, traverse] at ha)

/-- C8: for every minimum degree `t ≥ 2` and comparator satisfying the strict
weak order contract, inserting a sequence of pairwise non-equivalent ("distinct")
keys into an initially empty tree and then removing all of them (in any order)
returns the tree to the empty-root state: a single leaf node holding zero keys. -/
theorem C8_insert_all_remove_all (t : Nat) (lt : T → T → Bool) (W : WeakOrder lt)
    (ht : 2 ≤ t) (ks rs : List T)
    (hdist : ks.Pairwise (fun a b => ¬ eqv lt a b))
    (hperm : rs.Perm ks) :
    applyOps t lt (emptyTree : BNode T) (ks.map .ins ++ rs.map .del) = emptyTree := by
  obtain ⟨hInv1, hperm1⟩ := applyOps_ins_fold t lt W ht ks emptyTree
    (emptyTree_Inv t lt)
    (by
      intro b hb a ha
      simp [emptyTree, traverse] at ha)
    hdist
  have happ : applyOps t lt (emptyTree : BNode T) (ks.map .ins ++ rs.map .del)
      = applyOps t lt (applyOps t lt emptyTree (ks.map .ins)) (rs.map .del) := by
    simp [applyOps, List.foldl_append]
  rw [happ]
  have hpermx : (traverse (applyOps t lt (emptyTree : BNode T)
      (ks.map .ins))).Perm rs := by
    have he : traverse (emptyTree : BNode T) = [] := by simp [emptyTree, traverse]
    rw [he, List.append_nil] at hperm1
    exact hperm1.trans hperm.symm
  obtain ⟨hInv2, htr2⟩ := applyOps_del_fold t lt W ht rs _ hInv1 hpermx
  exact root_empty_traverse t _ hInv2.1 htr2

/-- Witness for C8 at a concrete input: insert `1, 2, 3` into the empty tree
over `Nat` and remove them in the order `2, 3, 1`. -/
theorem C8_insert_all_remove_all_witness :
    applyOps 2 natlt (emptyTree : BNode Nat)
        ([1, 2, 3].map Op.ins ++ [2, 3, 1].map Op.del) = emptyTree :=
  C8_insert_all_remove_all 2 natlt natlt_weak (by decide) [1, 2, 3] [2, 3, 1]
    (by simp only [eqv]; decide) (by decide)

end BT
